import Mathlib

/-!
# Verification of the maze generator / solver core

This file gives a shallow embedding of the Rust maze library (files
`util.rs`, `kruskal.rs`, `a_star.rs`) and proves or refutes the frozen
claims about it.

Modelling conventions:
* `i32` values are modelled as `Int`; the arithmetic performed by the
  program stays far below the overflow range for the dimensions the
  claims quantify over, except for the one place where a negative edge
  count is cast to `usize` and makes `HashSet::with_capacity` abort —
  that abort is modelled explicitly by a guard in `generate_edges`.
* `HashSet<(Point, Point)>` values are modelled as `Finset Edge`; the
  unspecified iteration order of a `HashSet` is modelled by quantifying
  over an arbitrary permutation (`List.Perm`) of a canonical enumeration.
* The `min_by` selection from the A* frontier (again iterating a
  `HashSet` in unspecified order) is modelled by an arbitrary selection
  function constrained by `ValidSel`.
* Panics (`panic!`, `unwrap` on `None`) and allocation aborts are
  modelled by `Option`, `none` meaning the program does not return.
* Loops without a structural termination measure (`loop` in Rust) are
  modelled with an explicit fuel parameter; `none` for every fuel means
  the loop never terminates.
-/

namespace Maze

/-- XY coordinate (`type Point = (i32, i32)` in `types.rs`). -/
abbrev Point := Int × Int

/-- `(node1, node2)`, the two nodes an edge links (`types.rs`). -/
abbrev Edge := Point × Point

/-- `util.rs::out_of_bounds`. -/
def out_of_bounds (node : Point) (width height : Int) : Prop :=
  node.1 < 0 ∨ node.2 < 0 ∨ width ≤ node.1 ∨ height ≤ node.2

instance (node : Point) (width height : Int) :
    Decidable (out_of_bounds node width height) := by
  unfold out_of_bounds; infer_instance

/-- `util.rs::wall_between`: membership is probed in both orientations. -/
def wall_between (walls : Finset Edge) (a b : Point) : Prop :=
  (a, b) ∈ walls ∨ (b, a) ∈ walls

instance (walls : Finset Edge) (a b : Point) :
    Decidable (wall_between walls a b) := by
  unfold wall_between; infer_instance

/-- `util.rs`: the neighbours of a node one to the right and one down
(the helper used by the maze generator to enumerate each edge once). -/
def succ_neighbours (node : Point) (width height : Int) : List Point :=
  (if node.1 + 1 < width then [(node.1 + 1, node.2)] else []) ++
    (if node.2 + 1 < height then [(node.1, node.2 + 1)] else [])

/-- `util.rs::all_neighbours`: right, down, left, up (in source order). -/
def all_neighbours (node : Point) (width height : Int) : List Point :=
  succ_neighbours node width height ++
    ((if 0 < node.1 then [(node.1 - 1, node.2)] else []) ++
      (if 0 < node.2 then [(node.1, node.2 - 1)] else []))

/-! ## Kruskal's algorithm (`kruskal.rs`) -/

/-- `kruskal.rs::Node`: a parent pointer together with a rank. -/
structure UFNode where
  parent : Point
  rank : Nat
deriving DecidableEq, Repr

/-- The `Graph` of `kruskal.rs` is a `HashMap<Point, Node<Point>>`;
we model it as a partial map. -/
abbrev UFMap := Point → Option UFNode

/-- `Graph::new`: every listed node becomes its own parent with rank 0. -/
def graphNew (nodes : List Point) : UFMap :=
  nodes.foldl (fun m n => fun p => if p = n then some ⟨n, 0⟩ else m p) (fun _ => none)

/-- `kruskal.rs::find_and_cache_parent`, fuelled.  Looking up an absent
node panics in the source (`none` here); the recursion rewrites every
visited entry to point at the returned representative, but keeps each
entry's own rank (`result.rank = find.rank` in the source). -/
def find_and_cache_parent : Nat → UFMap → Point → Option (UFNode × UFMap)
  | 0, _, _ => none
  | fuel + 1, m, node =>
    match m node with
    | none => none
    | some fnd =>
      if fnd.parent = node then some (fnd, m)
      else
        match find_and_cache_parent fuel m fnd.parent with
        | none => none
        | some (result, m1) =>
          let result1 : UFNode := ⟨result.parent, fnd.rank⟩
          some (result1, fun p => if p = node then some result1 else m1 p)

/-- `kruskal.rs::union_subtrees`: merge the subtrees of `a` and `b`;
`false` means the two were already joined (a would-be cycle). -/
def union_subtrees (fuel : Nat) (m : UFMap) (a b : Point) :
    Option (Bool × UFMap) :=
  match find_and_cache_parent fuel m a with
  | none => none
  | some (ap, m1) =>
    match find_and_cache_parent fuel m1 b with
    | none => none
    | some (bp, m2) =>
      if ap.parent = bp.parent then some (false, m2)
      else
        let ap1 : UFNode := if ap.rank = bp.rank then ⟨ap.parent, ap.rank + 1⟩ else ap
        if bp.rank ≤ ap1.rank then
          some (true, fun p => if p = bp.parent then some ap1 else m2 p)
        else
          some (true, fun p => if p = ap.parent then some bp else m2 p)

/-- `kruskal.rs::generate_edges`: the flattened collection of every xy
coordinate in the maze, `(0..width).flat_map(|x| (0..height).map(|y| (x, y)))`. -/
def gridNodesList (width height : Int) : List Point :=
  (List.range width.toNat).flatMap fun x =>
    (List.range height.toNat).map fun (y : Nat) => ((x : Int), (y : Int))

/-- The contents of the edge `HashSet` built by `generate_edges`:
one entry `(node, nbour)` per right/down neighbour of each node. -/
def canonicalEdges (width height : Int) : List Edge :=
  (gridNodesList width height).flatMap fun node =>
    (succ_neighbours node width height).map fun nbour => (node, nbour)

/-- Fuel that always suffices for `find_and_cache_parent` on a grid
(one more than the number of nodes). -/
def ufFuel (width height : Int) : Nat := width.toNat * height.toNat + 1

/-- The Kruskal pass of `generate_edges`: visit each edge, union its
endpoints, and record the edge as a wall when the union reports a cycle. -/
def kruskalFold (fuel : Nat) : List Edge → UFMap × Finset Edge → Option (UFMap × Finset Edge)
  | [], st => some st
  | e :: es, (m, walls) =>
    match union_subtrees fuel m e.1 e.2 with
    | none => none
    | some (no_loop, m1) =>
      kruskalFold fuel es (m1, if no_loop then walls else insert e walls)

/-- Two's-complement wrap-around of a 32-bit signed integer, the
release-mode semantics of every `i32` arithmetic operation. -/
def wrap32 (n : Int) : Int := (n + 2 ^ 31) % 2 ^ 32 - 2 ^ 31

/-- `kruskal.rs::generate_edges`, parameterised by the iteration order
`es` of the edge `HashSet` (the source shuffles implicitly through hash
order).  The capacity `(width - 1) * height + (height - 1) * width` is
computed in wrapping `i32` arithmetic, one `wrap32` per operation; the
guard models the `HashSet::with_capacity` abort when that wrapped edge
count is negative and its `as usize` cast produces an enormous
capacity. -/
def generate_edges (width height : Int) (es : List Edge) :
    Option (Finset Edge × Finset Edge) :=
  if wrap32 (wrap32 (wrap32 (width - 1) * height) +
      wrap32 (wrap32 (height - 1) * width)) < 0 then none
  else
    (kruskalFold (ufFuel width height) es (graphNew (gridNodesList width height), ∅)).map
      fun st => (st.2, (∅ : Finset Edge))

/-! ## A* (`a_star.rs`) -/

/-- `a_star.rs::AStarNode`.  In the source its `Eq`/`Hash` instances
compare only the `xy` field; the open/closed containers below reproduce
that keying. -/
structure AStarNode where
  xy : Point
  parent : Point
  f_cost : Int
  g_cost : Int
deriving DecidableEq, Repr

/-- `a_star.rs::match_diff`: render one instruction; any direction other
than the four unit vectors panics (`none`). -/
def match_diff (diff : Point) (mx : Bool) (amt : Int) : Option String :=
  if diff = ((0 : Int), (-1 : Int)) then
    some (if mx then "⇈ Max up (+1)" else s!"↑ {amt} up (+{amt})")
  else if diff = ((0 : Int), (1 : Int)) then
    some (if mx then "⇊ Max down (+1)" else s!"↓ {amt} down (+{amt})")
  else if diff = ((-1 : Int), (0 : Int)) then
    some (if mx then "⇇ Max left (+1)" else s!"⇽ {amt} left (+{amt})")
  else if diff = ((1 : Int), (0 : Int)) then
    some (if mx then "⇉ Max right (+1)" else s!"⇾ {amt} right (+{amt})")
  else none

/-- The loop body of `a_star.rs::remaining_length`, fuelled. -/
def remaining_length_go (width height : Int) (before : Point) (old_diff : Point)
    (walls : Finset Edge) : Nat → Int → Option Int
  | 0, _ => none
  | fuel + 1, dist =>
    let node1 : Point := (before.1 + old_diff.1 * dist, before.2 + old_diff.2 * dist)
    let node2 : Point := (node1.1 - old_diff.1, node1.2 - old_diff.2)
    if out_of_bounds node1 width height ∨ wall_between walls node1 node2 then some dist
    else remaining_length_go width height before old_diff walls fuel (dist + 1)

/-- Fuel that always suffices for `remaining_length` when the direction
is a unit vector and the start point is in bounds. -/
def rlFuel (width height : Int) : Nat := width.toNat + height.toNat + 2

/-- `a_star.rs::remaining_length`: the length to the end of a corridor
past a turning point. -/
def remaining_length (width height : Int) (before : Point) (old_diff : Point)
    (walls : Finset Edge) : Option Int :=
  remaining_length_go width height before old_diff walls (rlFuel width height) 1

/-- The running state of `a_star.rs::get_moves`. -/
structure MoveState where
  n_moves : Int
  perfect_run : List String
  prev_diff : Option Point
  prev_turn_point : Point
deriving Repr

/-- The turn logic of the `get_moves` loop body, everything after the
`prev_diff.unwrap()` (`st.prev_diff` has already been set to the new
direction by the caller, exactly as the source reassigns it before this
point). -/
def get_moves_turn (width height : Int) (walls : Finset Edge) (st : MoveState)
    (old_diff before : Point) : Option MoveState :=
  let diff_to_prev : Nat × Nat :=
    ((st.prev_turn_point.1 - before.1).natAbs, (st.prev_turn_point.2 - before.2).natAbs)
  let to_use : Int := if diff_to_prev.1 = 0 then (diff_to_prev.2 : Int) else (diff_to_prev.1 : Int)
  let st1 : MoveState := { st with prev_turn_point := before }
  match remaining_length width height before old_diff walls with
  | none => none
  | some distance_from_before =>
    if 0 < to_use ∧ to_use ≤ distance_from_before then
      match match_diff old_diff false to_use with
      | none => none
      | some instr =>
        some { st1 with n_moves := st1.n_moves + to_use,
                        perfect_run := st1.perfect_run ++ [instr] }
    else if to_use ≤ distance_from_before then some st1
    else
      match match_diff old_diff true 1 with
      | none => none
      | some instr =>
        let st2 : MoveState := { st1 with n_moves := st1.n_moves + distance_from_before,
                                          perfect_run := st1.perfect_run ++ [instr] }
        if distance_from_before = 1 then some st2
        else
          match match_diff (-old_diff.1, -old_diff.2) false (distance_from_before - 1) with
          | none => none
          | some instr2 =>
            some { st2 with perfect_run := st2.perfect_run ++ [instr2] }

/-- One iteration of the `for (before, current)` loop of `get_moves`.
On the first iteration (`prev_diff` is `None`) the source records the
direction and FALLS THROUGH into the turn logic (there is no `continue`
in that branch), so `old_diff` is the direction just recorded; on later
iterations an unchanged direction skips the iteration. -/
def get_moves_step (width height : Int) (walls : Finset Edge) (st : MoveState)
    (e : Edge) : Option MoveState :=
  let before := e.1
  let current := e.2
  let diff : Point := (current.1 - before.1, current.2 - before.2)
  match st.prev_diff with
  | none =>
    get_moves_turn width height walls { st with prev_diff := some diff } diff before
  | some pd =>
    if pd = diff then some st
    else
      get_moves_turn width height walls { st with prev_diff := some diff } pd before

/-- `a_star.rs::get_moves`: count the moves of a "perfect run".  The
final `prev_diff.unwrap()` panics on an empty path (`none`). -/
def get_moves (width height : Int) (path : List Edge) (walls : Finset Edge) :
    Option (Int × List String) :=
  match path.foldlM (get_moves_step width height walls) ⟨0, [], none, ((0 : Int), (0 : Int))⟩ with
  | none => none
  | some st =>
    match st.prev_diff with
    | none => none
    | some pd =>
      match match_diff pd
          (decide (st.prev_turn_point ≠ (width - 2, height - 1) ∧
            st.prev_turn_point ≠ (width - 1, height - 2))) 1 with
      | none => none
      | some instr => some (st.n_moves + 1, st.perfect_run ++ [instr])

/-- Lookup in the closed `HashMap<Point, AStarNode>`, modelled as the
most recent insertion first. -/
def closedFind (cl : List AStarNode) (p : Point) : Option AStarNode :=
  cl.find? fun m => m.xy = p

/-- `a_star.rs::trace_path`, fuelled: follow the chain of parents back
from the end; `closed.get(..).unwrap()` panics when a parent is absent. -/
def trace_path : Nat → AStarNode → List AStarNode → Option (List Edge)
  | 0, _, _ => none
  | fuel + 1, current, closed =>
    match closedFind closed current.parent with
    | none => none
    | some parentNode =>
      let before_xy := current.xy
      let entry : Edge := (parentNode.xy, before_xy)
      if parentNode.xy = ((0 : Int), (0 : Int)) then some [entry]
      else (trace_path fuel parentNode closed).map fun rest => entry :: rest

/-- Does the open `HashSet<AStarNode>` contain a node with this key?
(`Eq`/`Hash` compare `xy` only.) -/
def openContains (l : List AStarNode) (n : AStarNode) : Bool :=
  l.any fun m => m.xy = n.xy

/-- `HashSet::insert`: when a node with the same key is present the set
keeps the existing node. -/
def openInsert (l : List AStarNode) (n : AStarNode) : List AStarNode :=
  if openContains l n then l else n :: l

/-- `HashSet::remove`, keyed on `xy`. -/
def openRemove (l : List AStarNode) (n : AStarNode) : List AStarNode :=
  l.filter fun m => m.xy ≠ n.xy

/-- `a_star.rs::a_star_for_neighbours`: expand the neighbours of the
node just finalised. -/
def a_star_for_neighbours (neighbours : List Point) (best : AStarNode)
    (walls : Finset Edge) (goal : Point) (opn : List AStarNode)
    (closed : List AStarNode) : List AStarNode :=
  neighbours.foldl
    (fun op neighbour =>
      if (best.xy, neighbour) ∈ walls ∨ (neighbour, best.xy) ∈ walls then op
      else
        let h_cost := goal.1 - neighbour.1 + goal.2 - neighbour.2
        let g_cost := neighbour.1 + neighbour.2
        let node : AStarNode := ⟨neighbour, best.xy, g_cost + h_cost, g_cost⟩
        if (closedFind closed neighbour).isSome then op
        else if g_cost < best.g_cost ∨ ¬ openContains op node then openInsert op node
        else op)
    opn

/-- The start node of `a_star_solution` (g = 0, f = the theoretical
minimum `width + height - 2`). -/
def start_node (width height : Int) : AStarNode :=
  ⟨((0 : Int), (0 : Int)), ((0 : Int), (0 : Int)), width + height - 2, 0⟩

/-- A selection function modelling `open.iter().min_by(f_cost).copied()
.unwrap_or(start_node)`: it receives the open list and the default. -/
abbrev Sel := List AStarNode → AStarNode → AStarNode

/-- What any `HashSet` iteration order gives `min_by`: on an empty set
the default is returned, otherwise some member with minimal `f_cost`. -/
def ValidSel (sel : Sel) : Prop :=
  ∀ l d, (l = [] → sel l d = d) ∧
    (l ≠ [] → sel l d ∈ l ∧ ∀ n ∈ l, (sel l d).f_cost ≤ n.f_cost)

/-- One iteration of the main `loop` of `a_star_solution`: pop the best
node, finalise it, stop at the end or expand its neighbours. -/
def a_star_step (sel : Sel) (walls : Finset Edge) (width height : Int)
    (st : List AStarNode × List AStarNode) :
    (AStarNode × List AStarNode) ⊕ (List AStarNode × List AStarNode) :=
  let best := sel st.1 (start_node width height)
  let opn := openRemove st.1 best
  let cl := best :: st.2
  if best.xy = (width - 1, height - 1) then Sum.inl (best, cl)
  else
    Sum.inr
      (a_star_for_neighbours (all_neighbours best.xy width height) best walls
        (width - 1, height - 1) opn cl, cl)

/-- The main `loop` of `a_star_solution`, fuelled. -/
def a_star_loop (sel : Sel) (walls : Finset Edge) (width height : Int) :
    Nat → List AStarNode × List AStarNode → Option (AStarNode × List AStarNode)
  | 0, _ => none
  | fuel + 1, st =>
    match a_star_step sel walls width height st with
    | Sum.inl r => some r
    | Sum.inr st1 => a_star_loop sel walls width height fuel st1

/-- `a_star.rs::a_star_solution`: run the search, trace the path back,
and compress it (the path handed to `get_moves` is reversed, the path
returned is not). -/
def a_star_solution (sel : Sel) (walls : Finset Edge) (width height : Int)
    (fuel : Nat) : Option (Int × List String × List Edge) :=
  match a_star_loop sel walls width height fuel ([start_node width height], []) with
  | none => none
  | some (current, closed) =>
    match trace_path fuel current closed with
    | none => none
    | some path =>
      match get_moves width height path.reverse walls with
      | none => none
      | some (n_moves, moves) => some (n_moves, moves, path)

/-! ### Concrete selection functions

Two witnesses for `ValidSel`: one realises the hash-iteration order
that happens to list the earliest-inserted minimum first, the other
lets a priority list of coordinates break the (ubiquitous) f-cost ties,
exactly as a different hash order would. -/

/-- Index of a point in a priority list (length of the list if absent). -/
def prioIdx : List Point → Point → Nat
  | [], _ => 0
  | q :: rest, p => if q = p then 0 else prioIdx rest p + 1

/-- One comparison step of `selPrio`: keep the accumulator unless the
candidate has strictly smaller `f_cost`, or equal `f_cost` and strictly
smaller priority index. -/
def selStep (prio : List Point) (acc n : AStarNode) : AStarNode :=
  if n.f_cost < acc.f_cost ∨
      (n.f_cost = acc.f_cost ∧ prioIdx prio n.xy < prioIdx prio acc.xy) then n
  else acc

/-- Select a minimal-`f_cost` member, breaking ties by a priority list. -/
def selPrio (prio : List Point) : Sel := fun l d =>
  match l with
  | [] => d
  | x :: xs => xs.foldl (selStep prio) x

/-- Select the first minimal-`f_cost` member. -/
def selFirstMin : Sel := selPrio []

lemma selStep_eq_or (prio : List Point) (a n : AStarNode) :
    selStep prio a n = a ∨ selStep prio a n = n := by
  unfold selStep; split <;> simp

lemma selStep_f_le_left (prio : List Point) (a n : AStarNode) :
    (selStep prio a n).f_cost ≤ a.f_cost := by
  unfold selStep
  split
  · rename_i h
    rcases h with h | h
    · exact le_of_lt h
    · exact le_of_eq h.1
  · exact le_refl _

lemma selStep_f_le_right (prio : List Point) (a n : AStarNode) :
    (selStep prio a n).f_cost ≤ n.f_cost := by
  unfold selStep
  split
  · exact le_refl _
  · rename_i h
    push_neg at h
    exact h.1

lemma foldl_selStep_mem (prio : List Point) :
    ∀ (xs : List AStarNode) (x : AStarNode), xs.foldl (selStep prio) x ∈ x :: xs := by
  intro xs
  induction xs with
  | nil => intro x; simp
  | cons y ys ih =>
    intro x
    rw [List.foldl_cons]
    rcases selStep_eq_or prio x y with h1 | h1 <;> rw [h1]
    · rcases List.mem_cons.mp (ih x) with h2 | h2
      · rw [h2]; simp
      · simp [h2]
    · rcases List.mem_cons.mp (ih y) with h2 | h2
      · rw [h2]; simp
      · simp [h2]

lemma foldl_selStep_le (prio : List Point) :
    ∀ (xs : List AStarNode) (x : AStarNode) (n : AStarNode), n ∈ x :: xs →
      (xs.foldl (selStep prio) x).f_cost ≤ n.f_cost := by
  intro xs
  induction xs with
  | nil => intro x n hn; simp at hn; simp [hn]
  | cons y ys ih =>
    intro x n hn
    rw [List.foldl_cons]
    rcases List.mem_cons.mp hn with h | h
    · subst h
      calc (ys.foldl (selStep prio) (selStep prio n y)).f_cost
          ≤ (selStep prio n y).f_cost := ih _ _ (List.mem_cons_self _ _)
        _ ≤ n.f_cost := selStep_f_le_left _ _ _
    · rcases List.mem_cons.mp h with h1 | h1
      · subst h1
        calc (ys.foldl (selStep prio) (selStep prio x n)).f_cost
            ≤ (selStep prio x n).f_cost := ih _ _ (List.mem_cons_self _ _)
          _ ≤ n.f_cost := selStep_f_le_right _ _ _
      · exact ih _ n (List.mem_cons_of_mem _ h1)

/-- Any priority-driven selection is a legitimate refinement of the
source's `min_by` over an unspecified hash-iteration order. -/
theorem validSel_selPrio (prio : List Point) : ValidSel (selPrio prio) := by
  intro l d
  constructor
  · intro h; subst h; rfl
  · intro h
    match l with
    | [] => exact absurd rfl h
    | x :: xs =>
      refine ⟨foldl_selStep_mem prio xs x, ?_⟩
      intro n hn
      exact foldl_selStep_le prio xs x n hn

/-! ## Claim C3: no dimension validation exists -/

lemma gridNodesList_nil_of_nonpos {width height : Int}
    (h : width ≤ 0 ∨ height ≤ 0) : gridNodesList width height = [] := by
  rcases h with h | h
  · simp [gridNodesList, Int.toNat_of_nonpos h]
  · simp [gridNodesList, Int.toNat_of_nonpos h]

lemma canonicalEdges_nil_of_nonpos {width height : Int}
    (h : width ≤ 0 ∨ height ≤ 0) : canonicalEdges width height = [] := by
  simp [canonicalEdges, gridNodesList_nil_of_nonpos h]

lemma wrap32_eq_self {x : Int} (h1 : -2 ^ 31 ≤ x) (h2 : x < 2 ^ 31) :
    wrap32 x = x := by
  unfold wrap32
  omega

/-- The edge-count capacity computation of `generate_edges`, wrapped
operation by operation, coincides with the exact value whenever the
dimensions are small enough that no `i32` operation overflows. -/
lemma capacity_no_wrap {width height : Int}
    (hwb : width.natAbs ≤ 2 ^ 14) (hhb : height.natAbs ≤ 2 ^ 14) :
    wrap32 (wrap32 (wrap32 (width - 1) * height) +
        wrap32 (wrap32 (height - 1) * width)) =
      (width - 1) * height + (height - 1) * width := by
  have hw1 : wrap32 (width - 1) = width - 1 :=
    wrap32_eq_self (by omega) (by omega)
  have hh1 : wrap32 (height - 1) = height - 1 :=
    wrap32_eq_self (by omega) (by omega)
  have hp1b : ((width - 1) * height).natAbs ≤ (2 ^ 14 + 1) * 2 ^ 14 := by
    rw [Int.natAbs_mul]
    exact Nat.mul_le_mul (by omega) hhb
  have hp2b : ((height - 1) * width).natAbs ≤ (2 ^ 14 + 1) * 2 ^ 14 := by
    rw [Int.natAbs_mul]
    exact Nat.mul_le_mul (by omega) hwb
  rw [hw1, hh1]
  rw [@wrap32_eq_self ((width - 1) * height) (by omega) (by omega),
    @wrap32_eq_self ((height - 1) * width) (by omega) (by omega),
    wrap32_eq_self (by omega) (by omega)]

/-- Claim C3 (refuted): at `width = 0, height = 0` (both `< 1`),
`generate_edges` does not fail with any error; it returns an (empty)
wall set. -/
theorem claim_C3_counterexample :
    (0 : Int) < 1 ∧ generate_edges 0 0 (canonicalEdges 0 0) = some (∅, ∅) := by
  exact ⟨by norm_num, by decide⟩

/-- Claim C3 as amended: `generate_maze` performs no dimension
validation and never raises an `InvalidDimensions` error.  Restricted
to magnitudes below `2^14` (where no `i32` operation wraps): for
`width ≤ 0` and `height ≤ 0` it returns normally with an empty wall
set; for the mixed-sign degenerate dimensions (one side `≤ 0`, the
other `≥ 1`) the `i32` edge count is negative and the
`HashSet::with_capacity` cast aborts the allocation — still not an
`InvalidDimensions` error.  (For larger magnitudes the wrapping `i32`
arithmetic decides between the two outcomes.) -/
theorem claim_C3 (width height : Int) (es : List Edge)
    (hwb : width.natAbs ≤ 2 ^ 14) (hhb : height.natAbs ≤ 2 ^ 14) :
    (width ≤ 0 → height ≤ 0 → es.Perm (canonicalEdges width height) →
      generate_edges width height es = some (∅, ∅)) ∧
    ((width ≤ 0 ∧ 1 ≤ height) ∨ (height ≤ 0 ∧ 1 ≤ width) →
      generate_edges width height es = none) := by
  have hcap := capacity_no_wrap hwb hhb
  constructor
  · intro hw hh hes
    have hcan : canonicalEdges width height = [] :=
      canonicalEdges_nil_of_nonpos (Or.inl hw)
    rw [hcan] at hes
    have hes' : es = [] := List.Perm.eq_nil hes
    subst hes'
    have h1 : (0 : Int) ≤ (1 - width) * (-height) :=
      mul_nonneg (by linarith) (by linarith)
    have h2 : (0 : Int) ≤ (1 - height) * (-width) :=
      mul_nonneg (by linarith) (by linarith)
    unfold generate_edges
    rw [hcap, if_neg (by nlinarith [h1, h2])]
    rfl
  · intro hmix
    unfold generate_edges
    rw [hcap]
    rcases hmix with ⟨hw, hh⟩ | ⟨hh, hw⟩
    · have h1 : (width - 1) * height ≤ -1 := by nlinarith
      have h2 : (height - 1) * width ≤ 0 := by nlinarith
      rw [if_pos (by omega)]
    · have h1 : (height - 1) * width ≤ -1 := by nlinarith
      have h2 : (width - 1) * height ≤ 0 := by nlinarith
      rw [if_pos (by omega)]

theorem claim_C3_witness :
    generate_edges 0 0 [] = some (∅, ∅) ∧
    generate_edges (-1) 1 [] = none :=
  ⟨(claim_C3 0 0 [] (by decide) (by decide)).1 (by decide) (by decide)
      (by decide),
    (claim_C3 (-1) 1 [] (by decide) (by decide)).2 (Or.inl ⟨by decide, by decide⟩)⟩

/-! ## Claim C9: the 1×1 maze panics in `match_diff` -/

lemma sel_singleton {sel : Sel} (hsel : ValidSel sel) (n d : AStarNode) :
    sel [n] d = n := by
  have h := (hsel [n] d).2 (by simp)
  simpa using h.1

lemma sel_nil {sel : Sel} (hsel : ValidSel sel) (d : AStarNode) :
    sel [] d = d := (hsel [] d).1 rfl

lemma remaining_length_zero_dir {walls : Finset Edge}
    (hw : ((((0 : Int), (0 : Int)), ((0 : Int), (0 : Int))) : Edge) ∉ walls) :
    ∀ (f : Nat) (dist : Int),
      remaining_length_go 1 1 ((0 : Int), (0 : Int)) ((0 : Int), (0 : Int))
        walls f dist = none := by
  have hcond : ¬ (out_of_bounds ((0 : Int), (0 : Int)) 1 1 ∨
      wall_between walls ((0 : Int), (0 : Int)) ((0 : Int), (0 : Int))) := by
    intro h
    rcases h with h | h
    · exact absurd h (by decide)
    · rcases h with h | h <;> exact hw h
  intro f
  induction f with
  | zero =>
    intro dist
    rfl
  | succ f ih =>
    intro dist
    rw [remaining_length_go]
    simp only [zero_mul, add_zero, sub_zero]
    rw [if_neg hcond]
    exact ih (dist + 1)

lemma a_star_one_one_aux {sel : Sel} (hsel : ValidSel sel)
    (walls : Finset Edge) (fuel : Nat) :
    a_star_solution sel walls 1 1 fuel = none := by
  cases fuel with
  | zero => rfl
  | succ f =>
    have hsel1 : sel [start_node 1 1] (start_node 1 1) = start_node 1 1 :=
      sel_singleton hsel _ _
    have hstep : a_star_step sel walls 1 1 ([start_node 1 1], []) =
        Sum.inl (start_node 1 1, [start_node 1 1]) := by
      rw [a_star_step]
      dsimp only
      rw [hsel1]
      rw [if_pos (show (start_node 1 1).xy = ((1 : Int) - 1, (1 : Int) - 1)
        from by decide)]
    have hloop : a_star_loop sel walls 1 1 (f + 1) ([start_node 1 1], []) =
        some (start_node 1 1, [start_node 1 1]) := by
      rw [a_star_loop]
      simp only [hstep]
    have htrace : trace_path (f + 1) (start_node 1 1) [start_node 1 1] =
        some [(((0 : Int), (0 : Int)), ((0 : Int), (0 : Int)))] := rfl
    have hget : get_moves 1 1 [(((0 : Int), (0 : Int)), ((0 : Int), (0 : Int)))]
        walls = none := by
      by_cases hsw : ((((0 : Int), (0 : Int)), ((0 : Int), (0 : Int))) : Edge) ∈ walls
      · -- the degenerate self-wall stops the corridor scan at distance 1;
        -- the final emission then dies on the unmatched direction (0,0)
        have hrl : remaining_length 1 1 ((0 : Int), (0 : Int))
            ((0 : Int), (0 : Int)) walls = some 1 := by
          unfold remaining_length
          rw [show rlFuel 1 1 = 3 + 1 from rfl, remaining_length_go]
          simp only [zero_mul, add_zero, sub_zero]
          rw [if_pos (show out_of_bounds ((0 : Int), (0 : Int)) 1 1 ∨
            wall_between walls ((0 : Int), (0 : Int)) ((0 : Int), (0 : Int))
            from Or.inr (Or.inl hsw))]
        have hstep1 : get_moves_step 1 1 walls ⟨0, [], none, ((0 : Int), (0 : Int))⟩
            (((0 : Int), (0 : Int)), ((0 : Int), (0 : Int))) =
            some ⟨0, [], some ((0 : Int), (0 : Int)), ((0 : Int), (0 : Int))⟩ := by
          rw [get_moves_step]
          dsimp only
          rw [get_moves_turn]
          dsimp only
          simp only [sub_zero]
          rw [hrl]
          rfl
        have hfold : ([(((0 : Int), (0 : Int)), ((0 : Int), (0 : Int)))] : List Edge).foldlM
            (get_moves_step 1 1 walls) ⟨0, [], none, ((0 : Int), (0 : Int))⟩ =
            some ⟨0, [], some ((0 : Int), (0 : Int)), ((0 : Int), (0 : Int))⟩ := by
          rw [List.foldlM_cons, hstep1]
          rfl
        rw [get_moves]
        simp only [hfold]
        rfl
      · -- no self-wall: the corridor scan never terminates
        have hrl : remaining_length 1 1 ((0 : Int), (0 : Int))
            ((0 : Int), (0 : Int)) walls = none := by
          unfold remaining_length
          exact remaining_length_zero_dir hsw (rlFuel 1 1) 1
        have hstep1 : get_moves_step 1 1 walls ⟨0, [], none, ((0 : Int), (0 : Int))⟩
            (((0 : Int), (0 : Int)), ((0 : Int), (0 : Int))) = none := by
          rw [get_moves_step]
          dsimp only
          rw [get_moves_turn]
          dsimp only
          simp only [sub_zero]
          rw [hrl]
        have hfold : ([(((0 : Int), (0 : Int)), ((0 : Int), (0 : Int)))] : List Edge).foldlM
            (get_moves_step 1 1 walls) ⟨0, [], none, ((0 : Int), (0 : Int))⟩ = none := by
          rw [List.foldlM_cons, hstep1]
          rfl
        rw [get_moves]
        simp only [hfold]
    rw [a_star_solution]
    simp only [hloop, htrace, List.reverse_singleton, hget]

/-- Claim C9's stated mechanism refuted: on the 1×1 path the compressor
never reaches the final instruction emission — its very first iteration
falls through into the turn logic (the source has no `continue` in the
`prev_diff = None` branch) and dies inside `remaining_length`: with the
degenerate direction `(0,0)` the corridor scan exits at no fuel at all
(the source loops forever), so `get_moves` fails before any final
`match_diff` call. -/
theorem claim_C9_counterexample :
    (∀ (f : Nat) (dist : Int), remaining_length_go 1 1 ((0 : Int), (0 : Int))
      ((0 : Int), (0 : Int)) (∅ : Finset Edge) f dist = none) ∧
    get_moves 1 1 [(((0 : Int), (0 : Int)), ((0 : Int), (0 : Int)))] ∅ = none := by
  constructor
  · exact remaining_length_zero_dir (Finset.not_mem_empty _)
  · decide

/-- Claim C9 (corrected): for the 1×1 maze the search does pop the start
node at once and hand the degenerate edge `((0,0),(0,0))` to the move
compressor, and `a_star_solution` indeed returns no result — but not
through the claimed panic at the final instruction emission: the first
compressor iteration falls through with direction `(0,0)` and the
corridor scan `remaining_length` never terminates (`none` at every
fuel), so the final `match_diff` is never reached.  (Only a wall set
containing the degenerate self-edge would let the scan exit and the
final emission fail.) -/
theorem claim_C9 (sel : Sel) (walls : Finset Edge) (fuel : Nat)
    (hsel : ValidSel sel)
    (hw : ((((0 : Int), (0 : Int)), ((0 : Int), (0 : Int))) : Edge) ∉ walls) :
    (∀ f2, a_star_loop sel walls 1 1 (f2 + 1) ([start_node 1 1], []) =
      some (start_node 1 1, [start_node 1 1])) ∧
    trace_path (fuel + 1) (start_node 1 1) [start_node 1 1] =
      some [(((0 : Int), (0 : Int)), ((0 : Int), (0 : Int)))] ∧
    (∀ (f : Nat) (dist : Int), remaining_length_go 1 1 ((0 : Int), (0 : Int))
      ((0 : Int), (0 : Int)) walls f dist = none) ∧
    a_star_solution sel walls 1 1 fuel = none := by
  refine ⟨?_, rfl, remaining_length_zero_dir hw, a_star_one_one_aux hsel walls fuel⟩
  intro f2
  have hsel1 : sel [start_node 1 1] (start_node 1 1) = start_node 1 1 :=
    sel_singleton hsel _ _
  have hstep : a_star_step sel walls 1 1 ([start_node 1 1], []) =
      Sum.inl (start_node 1 1, [start_node 1 1]) := by
    rw [a_star_step]
    dsimp only
    rw [hsel1]
    rw [if_pos (show (start_node 1 1).xy = ((1 : Int) - 1, (1 : Int) - 1)
      from by decide)]
  rw [a_star_loop]
  simp only [hstep]

theorem claim_C9_witness :
    ValidSel selFirstMin ∧ a_star_solution selFirstMin ∅ 1 1 5 = none :=
  ⟨validSel_selPrio [],
    (claim_C9 selFirstMin ∅ 5 (validSel_selPrio [])
      (Finset.not_mem_empty _)).2.2.2⟩

/-! ## Claim C2: an unreachable goal makes the search loop forever -/

/-- A wall set under which the goal `(1,0)` of a 2×1 maze is cut off
from the origin. -/
def c2walls : Finset Edge := {(((0 : Int), (0 : Int)), ((1 : Int), (0 : Int)))}

lemma c2_stuck {sel : Sel} (hsel : ValidSel sel) :
    ∀ (fuel : Nat) (cl : List AStarNode),
      a_star_loop sel c2walls 2 1 fuel ([], cl) = none := by
  intro fuel
  induction fuel with
  | zero => intro cl; rfl
  | succ f ih =>
    intro cl
    rw [a_star_loop]
    have hstep : a_star_step sel c2walls 2 1 ([], cl) =
        Sum.inr ([], start_node 2 1 :: cl) := by
      simp [a_star_step, sel_nil hsel, start_node, openRemove, all_neighbours,
        succ_neighbours, a_star_for_neighbours, c2walls]
      decide
    rw [hstep]
    exact ih _

/-- Claim C2 (the code is wrong): on a wall set that cuts the goal off,
the search never terminates — for every fuel bound the main loop (and
hence `a_star_solution`) fails to return, because an exhausted frontier
makes `unwrap_or(start_node)` re-select the start node forever instead
of reporting an `Unsolvable` error. -/
theorem claim_C2 (sel : Sel) (hsel : ValidSel sel) :
    ∀ fuel, a_star_solution sel c2walls 2 1 fuel = none := by
  intro fuel
  cases fuel with
  | zero => rfl
  | succ f =>
    have hstep : a_star_step sel c2walls 2 1 ([start_node 2 1], []) =
        Sum.inr ([], [start_node 2 1]) := by
      simp [a_star_step, sel_singleton hsel, start_node, openRemove,
        all_neighbours, succ_neighbours, a_star_for_neighbours, c2walls]
      decide
    have hloop : a_star_loop sel c2walls 2 1 (f + 1) ([start_node 2 1], []) = none := by
      rw [a_star_loop, hstep]
      exact c2_stuck hsel f _
    simp [a_star_solution, hloop]

theorem claim_C2_witness :
    a_star_solution selFirstMin c2walls 2 1 25 = none :=
  claim_C2 selFirstMin (validSel_selPrio []) 25

/-! ## Claim C10: every frontier node has the constant f-cost W+H-2 -/

/-- The state reached after `k` iterations of the main loop (`none`
when the loop has already stopped within `k` iterations). -/
def a_star_reach (sel : Sel) (walls : Finset Edge) (width height : Int) :
    Nat → List AStarNode × List AStarNode → Option (List AStarNode × List AStarNode)
  | 0, st => some st
  | k + 1, st =>
    match a_star_reach sel walls width height k st with
    | none => none
    | some st1 =>
      match a_star_step sel walls width height st1 with
      | Sum.inl _ => none
      | Sum.inr st2 => some st2

lemma openInsert_mem {l : List AStarNode} {m n : AStarNode}
    (h : n ∈ openInsert l m) : n ∈ l ∨ n = m := by
  unfold openInsert at h
  split at h
  · exact Or.inl h
  · rcases List.mem_cons.mp h with h1 | h1
    · exact Or.inr h1
    · exact Or.inl h1

lemma a_star_for_neighbours_mem {best : AStarNode} {walls : Finset Edge}
    {goal : Point} {cl : List AStarNode} :
    ∀ (nbs : List Point) (op : List AStarNode) (n : AStarNode),
      n ∈ a_star_for_neighbours nbs best walls goal op cl →
      n ∈ op ∨ ∃ nb : Point, n =
        ⟨nb, best.xy, nb.1 + nb.2 + (goal.1 - nb.1 + goal.2 - nb.2), nb.1 + nb.2⟩ := by
  intro nbs
  induction nbs with
  | nil => intro op n h; exact Or.inl h
  | cons nb nbs ih =>
    intro op n h
    rw [a_star_for_neighbours, List.foldl_cons] at h
    have h' := ih _ n h
    rcases h' with h' | h'
    · -- membership in the one-step-updated accumulator
      by_cases hw : (best.xy, nb) ∈ walls ∨ (nb, best.xy) ∈ walls
      · simp only [hw, if_true] at h'
        exact Or.inl h'
      · simp only [hw, if_false] at h'
        split at h'
        · exact Or.inl h'
        · split at h'
          · rcases openInsert_mem h' with h2 | h2
            · exact Or.inl h2
            · exact Or.inr ⟨nb, h2⟩
          · exact Or.inl h'
    · exact Or.inr h'

lemma openRemove_subset {l : List AStarNode} {m n : AStarNode}
    (h : n ∈ openRemove l m) : n ∈ l := (List.mem_filter.mp h).1

lemma a_star_step_inl_spec {sel : Sel} {walls : Finset Edge} {width height : Int}
    {st : List AStarNode × List AStarNode} {r : AStarNode × List AStarNode}
    (hstep : a_star_step sel walls width height st = Sum.inl r) :
    (sel st.1 (start_node width height)).xy = (width - 1, height - 1) ∧
    r = (sel st.1 (start_node width height),
      sel st.1 (start_node width height) :: st.2) := by
  simp only [a_star_step] at hstep
  split at hstep
  · rename_i hcond
    injection hstep with hstep
    exact ⟨hcond, hstep.symm⟩
  · exact Sum.noConfusion hstep

lemma a_star_step_inr_spec {sel : Sel} {walls : Finset Edge} {width height : Int}
    {st st2 : List AStarNode × List AStarNode}
    (hstep : a_star_step sel walls width height st = Sum.inr st2) :
    (sel st.1 (start_node width height)).xy ≠ (width - 1, height - 1) ∧
    st2 = (a_star_for_neighbours
        (all_neighbours (sel st.1 (start_node width height)).xy width height)
        (sel st.1 (start_node width height)) walls (width - 1, height - 1)
        (openRemove st.1 (sel st.1 (start_node width height)))
        (sel st.1 (start_node width height) :: st.2),
      sel st.1 (start_node width height) :: st.2) := by
  simp only [a_star_step] at hstep
  split at hstep
  · exact Sum.noConfusion hstep
  · rename_i hcond
    injection hstep with hstep
    exact ⟨hcond, hstep.symm⟩

lemma a_star_reach_f_inv {sel : Sel} {walls : Finset Edge} {width height : Int}
    (hsel : ValidSel sel) :
    ∀ (k : Nat) (st : List AStarNode × List AStarNode)
      (opn cl : List AStarNode),
      (∀ n ∈ st.1, n.f_cost = width + height - 2) →
      (∀ n ∈ st.2, n.f_cost = width + height - 2) →
      a_star_reach sel walls width height k st = some (opn, cl) →
      (∀ n ∈ opn, n.f_cost = width + height - 2) ∧
        (∀ n ∈ cl, n.f_cost = width + height - 2) := by
  intro k
  induction k with
  | zero =>
    intro st opn cl h1 h2 hr
    rw [a_star_reach] at hr
    injection hr with hr
    subst hr
    exact ⟨h1, h2⟩
  | succ k ih =>
    intro st opn cl h1 h2 hr
    rw [a_star_reach] at hr
    cases hst1 : a_star_reach sel walls width height k st with
    | none => rw [hst1] at hr; exact Option.noConfusion hr
    | some st1 =>
      simp only [hst1] at hr
      obtain ⟨ho1, hc1⟩ := ih st st1.1 st1.2 h1 h2 (by rw [hst1])
      cases hstep : a_star_step sel walls width height st1 with
      | inl r =>
        simp only [hstep] at hr
        exact Option.noConfusion hr
      | inr st2 =>
        simp only [hstep] at hr
        injection hr with hr
        subst hr
        obtain ⟨-, hst2⟩ := a_star_step_inr_spec hstep
        set best := sel st1.1 (start_node width height) with hbest
        have hbf : best.f_cost = width + height - 2 := by
          rcases eq_or_ne st1.1 [] with he | he
          · rw [hbest, (hsel st1.1 _).1 he]; rfl
          · exact ho1 best ((hsel st1.1 _).2 he).1
        injection hst2 with hopn hcl
        subst hopn
        subst hcl
        constructor
        · intro n hn
          rcases a_star_for_neighbours_mem _ _ n hn with h | ⟨nb, hnb⟩
          · exact ho1 n (openRemove_subset h)
          · rw [hnb]; ring
        · intro n hn
          rcases List.mem_cons.mp hn with h | h
          · rw [h]; exact hbf
          · exact hc1 n h

/-- Claim C10 (confirmed): in every reachable state of the search,
every node on the open frontier — and every node ever finalised from
it, the start node included — has `f_cost` equal to the constant
`width + height - 2`, so minimum-f selection never discriminates
between frontier nodes. -/
theorem claim_C10 (sel : Sel) (walls : Finset Edge) (width height : Int)
    (k : Nat) (opn cl : List AStarNode) (hsel : ValidSel sel)
    (hreach : a_star_reach sel walls width height k
      ([start_node width height], []) = some (opn, cl)) :
    (start_node width height).f_cost = width + height - 2 ∧
    (∀ n ∈ opn, n.f_cost = width + height - 2) ∧
    (∀ n ∈ cl, n.f_cost = width + height - 2) := by
  have h := a_star_reach_f_inv hsel k ([start_node width height], []) opn cl
    (by intro n hn; simp at hn; rw [hn]; rfl) (by intro n hn; simp at hn) hreach
  exact ⟨rfl, h.1, h.2⟩

theorem claim_C10_witness :
    a_star_reach selFirstMin ∅ 2 1 1 ([start_node 2 1], []) =
      some ([(⟨((1 : Int), (0 : Int)), ((0 : Int), (0 : Int)), 1, 1⟩ : AStarNode)],
        [start_node 2 1]) ∧
    ∀ n ∈ [(⟨((1 : Int), (0 : Int)), ((0 : Int), (0 : Int)), 1, 1⟩ : AStarNode)],
      AStarNode.f_cost n = 2 + 1 - 2 := by
  constructor
  · decide
  · exact (claim_C10 selFirstMin ∅ 2 1 1
      [(⟨((1 : Int), (0 : Int)), ((0 : Int), (0 : Int)), 1, 1⟩ : AStarNode)]
      [start_node 2 1] (validSel_selPrio []) (by decide)).2.1

/-! ## Claim C6: move count versus raw path length -/

/-- The coordinate difference along an edge. -/
def edgeDiff (e : Edge) : Point := (e.2.1 - e.1.1, e.2.2 - e.1.2)

/-- The four unit direction vectors. -/
def IsUnitVec (d : Point) : Prop :=
  d = ((1 : Int), (0 : Int)) ∨ d = ((-1 : Int), (0 : Int)) ∨
    d = ((0 : Int), (1 : Int)) ∨ d = ((0 : Int), (-1 : Int))

instance (d : Point) : Decidable (IsUnitVec d) := by
  unfold IsUnitVec; infer_instance

/-- `FwdChain a path b`: the edge list `path` runs from `a` to `b`,
each edge starting where the previous one ended. -/
def FwdChain : Point → List Edge → Point → Prop
  | a, [], b => a = b
  | a, e :: rest, b => e.1 = a ∧ FwdChain e.2 rest b

instance FwdChain.dec : (a : Point) → (l : List Edge) → (b : Point) →
    Decidable (FwdChain a l b)
  | a, [], b => inferInstanceAs (Decidable (a = b))
  | a, _ :: rest, b =>
    @instDecidableAnd _ _ _ (FwdChain.dec _ rest b)

lemma remaining_length_go_ge {width height : Int} {before old_diff : Point}
    {walls : Finset Edge} :
    ∀ (fuel : Nat) (dist v : Int),
      remaining_length_go width height before old_diff walls fuel dist = some v →
      dist ≤ v := by
  intro fuel
  induction fuel with
  | zero => intro dist v h; exact Option.noConfusion h
  | succ f ih =>
    intro dist v h
    rw [remaining_length_go] at h
    split at h
    · injection h with h; omega
    · have := ih (dist + 1) v h; omega

lemma remaining_length_ge_one {width height : Int} {before old_diff : Point}
    {walls : Finset Edge} {v : Int}
    (h : remaining_length width height before old_diff walls = some v) : 1 ≤ v :=
  remaining_length_go_ge _ _ _ h

/-- The corridor scan exits once some ray point within the fuel horizon
is out of bounds. -/
lemma remaining_length_go_isSome {width height : Int} {before d : Point}
    {walls : Finset Edge} :
    ∀ (fuel : Nat) (dist : Int),
      (∃ j : Int, 0 ≤ j ∧ j < (fuel : Int) ∧
        out_of_bounds (before.1 + d.1 * (dist + j), before.2 + d.2 * (dist + j))
          width height) →
      (remaining_length_go width height before d walls fuel dist).isSome = true := by
  intro fuel
  induction fuel with
  | zero =>
    intro dist h
    obtain ⟨j, hj0, hjf, -⟩ := h
    exact absurd hjf (by push_cast; omega)
  | succ f ih =>
    intro dist h
    rw [remaining_length_go]
    split
    · rfl
    · rename_i hcond
      push_neg at hcond
      obtain ⟨j, hj0, hjf, hout⟩ := h
      have hjne : j ≠ 0 := by
        intro h0
        subst h0
        apply hcond.1
        rw [show dist + (0 : Int) = dist from by ring] at hout
        exact hout
      apply ih (dist + 1)
      refine ⟨j - 1, by omega, by push_cast at hjf ⊢; omega, ?_⟩
      rw [show dist + 1 + (j - 1) = dist + j from by ring]
      exact hout

/-- For a unit direction the corridor scan always terminates within the
`width.toNat + height.toNat + 2` fuel that `remaining_length` uses. -/
lemma remaining_length_isSome (width height : Int) (before : Point)
    (walls : Finset Edge) {d : Point} (hd : IsUnitVec d) :
    (remaining_length width height before d walls).isSome = true := by
  unfold remaining_length rlFuel
  have htw : (width : Int) ≤ width.toNat := Int.self_le_toNat width
  have hth : (height : Int) ≤ height.toNat := Int.self_le_toNat height
  rcases hd with h | h | h | h <;> subst h
  · have hred : ∀ t : Int, (before.1 + ((1 : Int), (0 : Int)).1 * t,
        before.2 + ((1 : Int), (0 : Int)).2 * t) = (before.1 + t, before.2) := by
      intro t
      norm_num
    by_cases hneg : before.1 + 1 < 0
    · refine remaining_length_go_isSome _ 1 ⟨0, by omega, by push_cast; omega, ?_⟩
      rw [hred, out_of_bounds]
      dsimp only
      omega
    · by_cases hwide : 1 ≤ width - before.1
      · refine remaining_length_go_isSome _ 1
          ⟨width - before.1 - 1, by omega, by push_cast; omega, ?_⟩
        rw [hred, out_of_bounds]
        dsimp only
        omega
      · refine remaining_length_go_isSome _ 1 ⟨0, by omega, by push_cast; omega, ?_⟩
        rw [hred, out_of_bounds]
        dsimp only
        omega
  · have hred : ∀ t : Int, (before.1 + ((-1 : Int), (0 : Int)).1 * t,
        before.2 + ((-1 : Int), (0 : Int)).2 * t) = (before.1 - t, before.2) := by
      intro t
      norm_num
      ring
    by_cases hneg : width ≤ before.1 - 1
    · refine remaining_length_go_isSome _ 1 ⟨0, by omega, by push_cast; omega, ?_⟩
      rw [hred, out_of_bounds]
      dsimp only
      omega
    · by_cases hwide : 1 ≤ before.1 + 1
      · refine remaining_length_go_isSome _ 1
          ⟨before.1, by omega, by push_cast; omega, ?_⟩
        rw [hred, out_of_bounds]
        dsimp only
        omega
      · refine remaining_length_go_isSome _ 1 ⟨0, by omega, by push_cast; omega, ?_⟩
        rw [hred, out_of_bounds]
        dsimp only
        omega
  · have hred : ∀ t : Int, (before.1 + ((0 : Int), (1 : Int)).1 * t,
        before.2 + ((0 : Int), (1 : Int)).2 * t) = (before.1, before.2 + t) := by
      intro t
      norm_num
    by_cases hneg : before.2 + 1 < 0
    · refine remaining_length_go_isSome _ 1 ⟨0, by omega, by push_cast; omega, ?_⟩
      rw [hred, out_of_bounds]
      dsimp only
      omega
    · by_cases hwide : 1 ≤ height - before.2
      · refine remaining_length_go_isSome _ 1
          ⟨height - before.2 - 1, by omega, by push_cast; omega, ?_⟩
        rw [hred, out_of_bounds]
        dsimp only
        omega
      · refine remaining_length_go_isSome _ 1 ⟨0, by omega, by push_cast; omega, ?_⟩
        rw [hred, out_of_bounds]
        dsimp only
        omega
  · have hred : ∀ t : Int, (before.1 + ((0 : Int), (-1 : Int)).1 * t,
        before.2 + ((0 : Int), (-1 : Int)).2 * t) = (before.1, before.2 - t) := by
      intro t
      norm_num
      ring
    by_cases hneg : height ≤ before.2 - 1
    · refine remaining_length_go_isSome _ 1 ⟨0, by omega, by push_cast; omega, ?_⟩
      rw [hred, out_of_bounds]
      dsimp only
      omega
    · by_cases hwide : 1 ≤ before.2 + 1
      · refine remaining_length_go_isSome _ 1
          ⟨before.2, by omega, by push_cast; omega, ?_⟩
        rw [hred, out_of_bounds]
        dsimp only
        omega
      · refine remaining_length_go_isSome _ 1 ⟨0, by omega, by push_cast; omega, ?_⟩
        rw [hred, out_of_bounds]
        dsimp only
        omega

/-- The first compressor iteration on an origin-anchored unit step
falls through the turn logic as a no-op: `to_use` is zero and the
corridor scan succeeds, so only the direction gets recorded. -/
lemma get_moves_first_step {width height : Int} {walls : Finset Edge}
    {e : Edge} (he1 : e.1 = ((0 : Int), (0 : Int)))
    (hd : IsUnitVec (e.2.1 - e.1.1, e.2.2 - e.1.2)) :
    get_moves_step width height walls ⟨0, [], none, ((0 : Int), (0 : Int))⟩ e =
      some ⟨0, [], some (e.2.1 - e.1.1, e.2.2 - e.1.2), ((0 : Int), (0 : Int))⟩ := by
  have h11 : e.1.1 = 0 := by rw [he1]
  have h12 : e.1.2 = 0 := by rw [he1]
  rw [get_moves_step]
  dsimp only
  rw [get_moves_turn]
  dsimp only
  obtain ⟨v, hv⟩ := Option.isSome_iff_exists.mp
    (remaining_length_isSome width height e.1 walls hd)
  rw [hv]
  dsimp only
  have hv1 : 1 ≤ v := remaining_length_ge_one hv
  rw [show ((0 : Int), (0 : Int)).1 - e.1.1 = 0 from by omega,
    show ((0 : Int), (0 : Int)).2 - e.1.2 = 0 from by omega]
  rw [show ((0 : Int) : Int).natAbs = 0 from rfl]
  rw [if_pos rfl]
  rw [if_neg (by
    intro hcontra
    omega)]
  rw [if_pos (by omega)]
  rw [he1]

lemma get_moves_fold_bound {width height : Int} {walls : Finset Edge} {goal : Point} :
    ∀ (rest : List Edge) (st : MoveState) (pos d : Point) (steps k : Nat)
      (res : MoveState),
      (∀ e ∈ rest, IsUnitVec (edgeDiff e)) →
      FwdChain pos rest goal →
      st.prev_diff = some d →
      IsUnitVec d →
      pos.1 = st.prev_turn_point.1 + k * d.1 →
      pos.2 = st.prev_turn_point.2 + k * d.2 →
      1 ≤ k →
      0 ≤ st.n_moves →
      st.n_moves ≤ (steps : Int) →
      rest.foldlM (get_moves_step width height walls) st = some res →
      0 ≤ res.n_moves ∧ res.n_moves + 1 ≤ (steps : Int) + k + rest.length := by
  intro rest
  induction rest with
  | nil =>
    intro st pos d steps k res _ _ _ _ _ _ hk hnn hle hfold
    have hres : st = res := by
      simpa using hfold
    subst hres
    refine ⟨hnn, ?_⟩
    push_cast
    omega
  | cons e rest ih =>
    intro st pos d steps k res hunit hchain hprev hd hx hy hk hnn hle hfold
    obtain ⟨he1, hchain'⟩ := hchain
    have hunit_e : IsUnitVec (edgeDiff e) := hunit e (List.mem_cons_self _ _)
    rw [List.foldlM_cons] at hfold
    cases hstep : get_moves_step width height walls st e with
    | none => rw [hstep] at hfold; exact Option.noConfusion hfold
    | some st1 =>
      rw [hstep] at hfold
      replace hfold : rest.foldlM (get_moves_step width height walls) st1 = some res :=
        hfold
      -- characterise the step
      rw [get_moves_step, hprev] at hstep
      dsimp only at hstep
      by_cases hsame : d = (e.2.1 - e.1.1, e.2.2 - e.1.2)
      · -- same direction: state unchanged, run length grows
        rw [if_pos hsame] at hstep
        injection hstep with hstep
        subst hstep
        have hx' : (e.2).1 = st.prev_turn_point.1 + (k + 1 : Nat) * d.1 := by
          have : e.2.1 = e.1.1 + d.1 := by
            have := congrArg Prod.fst hsame
            simp at this
            rw [he1] at this ⊢
            omega
          rw [this, he1, hx]; push_cast; ring
        have hy' : (e.2).2 = st.prev_turn_point.2 + (k + 1 : Nat) * d.2 := by
          have : e.2.2 = e.1.2 + d.2 := by
            have := congrArg Prod.snd hsame
            simp at this
            rw [he1] at this ⊢
            omega
          rw [this, he1, hy]; push_cast; ring
        have := ih st e.2 d steps (k + 1) res
          (fun f hf => hunit f (List.mem_cons_of_mem _ hf)) hchain' hprev hd
          hx' hy' (by omega) hnn hle hfold
        refine ⟨this.1, ?_⟩
        have h2 := this.2
        simp only [List.length_cons] at h2 ⊢
        push_cast at h2 ⊢
        omega
      · -- a turn
        rw [if_neg hsame] at hstep
        rw [get_moves_turn] at hstep
        dsimp only at hstep
        -- to_use equals k
        have hto :
            (if (st.prev_turn_point.1 - e.1.1).natAbs = 0 then
              (((st.prev_turn_point.2 - e.1.2).natAbs : Nat) : Int)
            else
              (((st.prev_turn_point.1 - e.1.1).natAbs : Nat) : Int)) = (k : Int) := by
          rcases hd with h | h | h | h <;>
            · subst h
              rw [← he1] at hx hy
              dsimp only at hx hy
              split <;> rename_i hcond <;> omega
        rw [hto] at hstep
        cases hrl : remaining_length width height e.1 d walls with
        | none => rw [hrl] at hstep; exact Option.noConfusion hstep
        | some dist =>
          rw [hrl] at hstep
          dsimp only at hstep
          have hdist1 : 1 ≤ dist := remaining_length_ge_one hrl
          -- the new state in every surviving branch has
          -- n_moves ≤ steps + k, turn point e.1, direction = new diff
          have hmain : ∀ st1' : MoveState,
              st1'.prev_diff = some (e.2.1 - e.1.1, e.2.2 - e.1.2) →
              st1'.prev_turn_point = e.1 →
              0 ≤ st1'.n_moves →
              st1'.n_moves ≤ (steps : Int) + k →
              List.foldlM (get_moves_step width height walls) st1' rest = some res →
              0 ≤ res.n_moves ∧
                res.n_moves + 1 ≤ (steps : Int) + k + (e :: rest).length := by
            intro st1' hprev1 hturn1 hnn1 hle1 hfold'
            have hx1 : (e.2).1 = st1'.prev_turn_point.1 +
                (1 : Nat) * (e.2.1 - e.1.1, e.2.2 - e.1.2).1 := by
              rw [hturn1]; push_cast; ring
            have hy1 : (e.2).2 = st1'.prev_turn_point.2 +
                (1 : Nat) * (e.2.1 - e.1.1, e.2.2 - e.1.2).2 := by
              rw [hturn1]; push_cast; ring
            have hdunit : IsUnitVec (e.2.1 - e.1.1, e.2.2 - e.1.2) := by
              have := hunit_e
              unfold edgeDiff at this
              exact this
            have := ih st1' e.2 _ (steps + k) 1 res
              (fun f hf => hunit f (List.mem_cons_of_mem _ hf)) hchain' hprev1
              hdunit hx1 hy1 (le_refl _) hnn1 (by push_cast; push_cast at hle1; omega)
              hfold'
            refine ⟨this.1, ?_⟩
            have h2 := this.2
            simp only [List.length_cons] at h2 ⊢
            push_cast at h2 ⊢
            omega
          split at hstep
          · -- stepwise branch: 0 < k ∧ k ≤ dist
            rename_i hbr
            cases hmd : match_diff d false (k : Int) with
            | none => rw [hmd] at hstep; exact Option.noConfusion hstep
            | some instr =>
              rw [hmd] at hstep
              dsimp only at hstep
              injection hstep with hstep
              refine hmain st1 ?_ ?_ ?_ ?_ hfold <;> rw [← hstep]
              · dsimp only
                omega
              · dsimp only
                push_cast
                omega
          · split at hstep
            · -- absorbed branch: k ≤ dist with ¬(0 < k ∧ k ≤ dist): impossible
              rename_i hbr1 hbr2
              exfalso
              have : ¬ ((0 : Int) < k ∧ (k : Int) ≤ dist) := hbr1
              push_neg at this
              have hk' : (0 : Int) < k := by exact_mod_cast hk
              have := this hk'
              omega
            · -- maximal branch: dist < k
              rename_i hbr1 hbr2
              push_neg at hbr2
              cases hmd : match_diff d true 1 with
              | none => rw [hmd] at hstep; exact Option.noConfusion hstep
              | some instr =>
                rw [hmd] at hstep
                dsimp only at hstep
                split at hstep
                · injection hstep with hstep
                  refine hmain st1 ?_ ?_ ?_ ?_ hfold <;> rw [← hstep]
                  · dsimp only
                    omega
                  · dsimp only
                    push_cast
                    omega
                · cases hmd2 : match_diff (-d.1, -d.2) false (dist - 1) with
                  | none => rw [hmd2] at hstep; exact Option.noConfusion hstep
                  | some instr2 =>
                    rw [hmd2] at hstep
                    dsimp only at hstep
                    injection hstep with hstep
                    refine hmain st1 ?_ ?_ ?_ ?_ hfold <;> rw [← hstep]
                    · dsimp only
                      omega
                    · dsimp only
                      push_cast
                      omega

/-- Claim C6 (refuted in its lower-bound half): the straight 4-step
path of the 5×1 maze is accepted with a total move count of 1, and
`1 < W + H - 2 = 4`.  (The upper bound `count ≤ raw length` does hold,
see the amended theorem.) -/
theorem claim_C6_counterexample :
    get_moves 5 1
      [(((0 : Int), (0 : Int)), ((1 : Int), (0 : Int))),
       (((1 : Int), (0 : Int)), ((2 : Int), (0 : Int))),
       (((2 : Int), (0 : Int)), ((3 : Int), (0 : Int))),
       (((3 : Int), (0 : Int)), ((4 : Int), (0 : Int)))] ∅ =
      some (1, ["⇉ Max right (+1)"]) ∧
    ¬ ((5 : Int) + 1 - 2 ≤ 1) := by
  constructor
  · decide
  · decide

/-- Claim C6 as amended: for every accepted path that is a chain of
unit steps from the origin, the reported move count (which includes the
one extra unit for the mandatory final step into the goal) satisfies
`1 ≤ count ≤ raw path length`; the claimed extra lower bound `W + H - 2`
does not hold, because a maximal run counts as a single move. -/
theorem claim_C6 (width height : Int) (walls : Finset Edge) (path : List Edge)
    (goal : Point) (n : Int) (instrs : List String)
    (hchain : FwdChain ((0 : Int), (0 : Int)) path goal)
    (hunit : ∀ e ∈ path, IsUnitVec (edgeDiff e))
    (hacc : get_moves width height path walls = some (n, instrs)) :
    1 ≤ n ∧ n ≤ path.length := by
  match path, hchain with
  | [], _ =>
    exact absurd hacc (by simp [get_moves])
  | e :: rest, ⟨he1, hchain'⟩ =>
    rw [get_moves] at hacc
    cases hfold : (e :: rest).foldlM (get_moves_step width height walls)
        ⟨0, [], none, ((0 : Int), (0 : Int))⟩ with
    | none => rw [hfold] at hacc; exact Option.noConfusion hacc
    | some stF =>
      rw [hfold] at hacc
      dsimp only at hacc
      -- peel the first fold step: it only records the direction
      rw [List.foldlM_cons] at hfold
      have hd : IsUnitVec (e.2.1 - e.1.1, e.2.2 - e.1.2) := by
        have := hunit e (List.mem_cons_self _ _)
        unfold edgeDiff at this
        exact this
      have hstep0 : get_moves_step width height walls
          ⟨0, [], none, ((0 : Int), (0 : Int))⟩ e =
          some ⟨0, [], some (e.2.1 - e.1.1, e.2.2 - e.1.2), ((0 : Int), (0 : Int))⟩ :=
        get_moves_first_step he1 hd
      rw [hstep0] at hfold
      replace hfold : rest.foldlM (get_moves_step width height walls)
          ⟨0, [], some (e.2.1 - e.1.1, e.2.2 - e.1.2), ((0 : Int), (0 : Int))⟩ =
          some stF := hfold
      have hbound := get_moves_fold_bound rest
        ⟨0, [], some (e.2.1 - e.1.1, e.2.2 - e.1.2), ((0 : Int), (0 : Int))⟩
        e.2 (e.2.1 - e.1.1, e.2.2 - e.1.2) 0 1 stF
        (fun f hf => hunit f (List.mem_cons_of_mem _ hf)) hchain' rfl hd
        (by dsimp only
            have h1 : e.1.1 = 0 := by rw [he1]
            push_cast
            omega)
        (by dsimp only
            have h1 : e.1.2 = 0 := by rw [he1]
            push_cast
            omega)
        (le_refl _) (le_refl _) (by norm_num) hfold
      -- the final instruction adds exactly one move
      cases hpd : stF.prev_diff with
      | none => rw [hpd] at hacc; exact Option.noConfusion hacc
      | some pd =>
        rw [hpd] at hacc
        dsimp only at hacc
        cases hmd : match_diff pd
            (decide (stF.prev_turn_point ≠ (width - 2, height - 1) ∧
              stF.prev_turn_point ≠ (width - 1, height - 2))) 1 with
        | none => rw [hmd] at hacc; exact Option.noConfusion hacc
        | some instr =>
          rw [hmd] at hacc
          dsimp only at hacc
          injection hacc with hacc
          have hn : n = stF.n_moves + 1 := by
            have := congrArg Prod.fst hacc
            simpa using this.symm
          obtain ⟨hb0, hb1⟩ := hbound
          constructor
          · omega
          · rw [hn]
            simp only [List.length_cons] at hb1 ⊢
            push_cast at hb1 ⊢
            omega

theorem claim_C6_witness :
    get_moves 2 2
      [(((0 : Int), (0 : Int)), ((1 : Int), (0 : Int))),
       (((1 : Int), (0 : Int)), ((1 : Int), (1 : Int)))] ∅ =
      some (2, ["⇾ 1 right (+1)", "↓ 1 down (+1)"]) ∧
    (1 ≤ (2 : Int) ∧ (2 : Int) ≤
      ([(((0 : Int), (0 : Int)), ((1 : Int), (0 : Int))),
        (((1 : Int), (0 : Int)), ((1 : Int), (1 : Int)))] : List Edge).length) := by
  constructor
  · decide
  · exact claim_C6 2 2 ∅ _ ((1 : Int), (1 : Int)) 2
      ["⇾ 1 right (+1)", "↓ 1 down (+1)"] (by decide) (by decide) (by decide)

/-! ## Claim C7: the 5×1 scenario -/

/-- The nodes finalised, in order, by any run of the search on the
empty-walled 5×1 maze. -/
def c7n1 : AStarNode := ⟨((1 : Int), (0 : Int)), ((0 : Int), (0 : Int)), 4, 1⟩

def c7n2 : AStarNode := ⟨((2 : Int), (0 : Int)), ((1 : Int), (0 : Int)), 4, 2⟩

def c7n3 : AStarNode := ⟨((3 : Int), (0 : Int)), ((2 : Int), (0 : Int)), 4, 3⟩

def c7n4 : AStarNode := ⟨((4 : Int), (0 : Int)), ((3 : Int), (0 : Int)), 4, 4⟩

/-- The path returned for the 5×1 maze (edge list in goal-to-origin
order, each edge oriented origin-side first). -/
def c7path : List Edge :=
  [(((3 : Int), (0 : Int)), ((4 : Int), (0 : Int))),
   (((2 : Int), (0 : Int)), ((3 : Int), (0 : Int))),
   (((1 : Int), (0 : Int)), ((2 : Int), (0 : Int))),
   (((0 : Int), (0 : Int)), ((1 : Int), (0 : Int)))]

/-- Claim C7 (confirmed): for W=5, H=1 every edge-visitation order
yields an empty wall set (all 4 edges join the spanning tree), and
every valid tie-break order makes `a_star_solution` return exactly one
instruction, flagged maximal, with a total move count of 1, over the
straight 4-step run (listed from the goal back to the origin). -/
theorem claim_C7 (es : List Edge) (sel : Sel) (f : Nat)
    (hes : es.Perm (canonicalEdges 5 1)) (hsel : ValidSel sel) :
    generate_edges 5 1 es = some (∅, ∅) ∧
    a_star_solution sel ∅ 5 1 (f + 5) =
      some (1, ["⇉ Max right (+1)"], c7path) := by
  constructor
  · have hmem : es ∈ (canonicalEdges 5 1).permutations' :=
      List.mem_permutations'.mpr hes
    have hall : ∀ l ∈ (canonicalEdges 5 1).permutations',
        generate_edges 5 1 l = some (∅, ∅) := by decide
    exact hall es hmem
  · have hs := sel_singleton hsel
    have h0 : a_star_step sel ∅ 5 1 ([start_node 5 1], []) =
        Sum.inr ([c7n1], [start_node 5 1]) := by
      simp only [a_star_step, hs]
      decide
    have h1 : a_star_step sel ∅ 5 1 ([c7n1], [start_node 5 1]) =
        Sum.inr ([c7n2], [c7n1, start_node 5 1]) := by
      simp only [a_star_step, hs]
      decide
    have h2 : a_star_step sel ∅ 5 1 ([c7n2], [c7n1, start_node 5 1]) =
        Sum.inr ([c7n3], [c7n2, c7n1, start_node 5 1]) := by
      simp only [a_star_step, hs]
      decide
    have h3 : a_star_step sel ∅ 5 1 ([c7n3], [c7n2, c7n1, start_node 5 1]) =
        Sum.inr ([c7n4], [c7n3, c7n2, c7n1, start_node 5 1]) := by
      simp only [a_star_step, hs]
      decide
    have h4 : a_star_step sel ∅ 5 1 ([c7n4], [c7n3, c7n2, c7n1, start_node 5 1]) =
        Sum.inl (c7n4, [c7n4, c7n3, c7n2, c7n1, start_node 5 1]) := by
      simp only [a_star_step, hs]
      decide
    have l4 : a_star_loop sel ∅ 5 1 (f + 1)
        ([c7n4], [c7n3, c7n2, c7n1, start_node 5 1]) =
        some (c7n4, [c7n4, c7n3, c7n2, c7n1, start_node 5 1]) := by
      rw [a_star_loop]
      simp only [h4]
    have l3 : a_star_loop sel ∅ 5 1 (f + 2)
        ([c7n3], [c7n2, c7n1, start_node 5 1]) =
        some (c7n4, [c7n4, c7n3, c7n2, c7n1, start_node 5 1]) := by
      rw [show f + 2 = (f + 1) + 1 from rfl, a_star_loop]
      simp only [h3]
      exact l4
    have l2 : a_star_loop sel ∅ 5 1 (f + 3)
        ([c7n2], [c7n1, start_node 5 1]) =
        some (c7n4, [c7n4, c7n3, c7n2, c7n1, start_node 5 1]) := by
      rw [show f + 3 = (f + 2) + 1 from rfl, a_star_loop]
      simp only [h2]
      exact l3
    have l1 : a_star_loop sel ∅ 5 1 (f + 4) ([c7n1], [start_node 5 1]) =
        some (c7n4, [c7n4, c7n3, c7n2, c7n1, start_node 5 1]) := by
      rw [show f + 4 = (f + 3) + 1 from rfl, a_star_loop]
      simp only [h1]
      exact l2
    have l0 : a_star_loop sel ∅ 5 1 (f + 5) ([start_node 5 1], []) =
        some (c7n4, [c7n4, c7n3, c7n2, c7n1, start_node 5 1]) := by
      rw [show f + 5 = (f + 4) + 1 from rfl, a_star_loop]
      simp only [h0]
      exact l1
    have t3 : trace_path (f + 2) c7n1 [c7n4, c7n3, c7n2, c7n1, start_node 5 1] =
        some [(((0 : Int), (0 : Int)), ((1 : Int), (0 : Int)))] := by
      rw [show f + 2 = (f + 1) + 1 from rfl, trace_path]
      simp [closedFind, c7n1, c7n2, c7n3, c7n4, start_node]
    have t2 : trace_path (f + 3) c7n2 [c7n4, c7n3, c7n2, c7n1, start_node 5 1] =
        some [(((1 : Int), (0 : Int)), ((2 : Int), (0 : Int))),
          (((0 : Int), (0 : Int)), ((1 : Int), (0 : Int)))] := by
      rw [show f + 3 = (f + 2) + 1 from rfl, trace_path]
      have : closedFind [c7n4, c7n3, c7n2, c7n1, start_node 5 1] c7n2.parent =
          some c7n1 := by decide
      rw [this]
      simp only [t3]
      decide
    have t1 : trace_path (f + 4) c7n3 [c7n4, c7n3, c7n2, c7n1, start_node 5 1] =
        some [(((2 : Int), (0 : Int)), ((3 : Int), (0 : Int))),
          (((1 : Int), (0 : Int)), ((2 : Int), (0 : Int))),
          (((0 : Int), (0 : Int)), ((1 : Int), (0 : Int)))] := by
      rw [show f + 4 = (f + 3) + 1 from rfl, trace_path]
      have : closedFind [c7n4, c7n3, c7n2, c7n1, start_node 5 1] c7n3.parent =
          some c7n2 := by decide
      rw [this]
      simp only [t2]
      decide
    have t0 : trace_path (f + 5) c7n4 [c7n4, c7n3, c7n2, c7n1, start_node 5 1] =
        some c7path := by
      rw [show f + 5 = (f + 4) + 1 from rfl, trace_path]
      have : closedFind [c7n4, c7n3, c7n2, c7n1, start_node 5 1] c7n4.parent =
          some c7n3 := by decide
      rw [this]
      simp only [t1]
      decide
    have hmoves : get_moves 5 1 c7path.reverse ∅ =
        some (1, ["⇉ Max right (+1)"]) := by decide
    rw [a_star_solution]
    simp only [l0, t0, hmoves]

theorem claim_C7_witness :
    generate_edges 5 1 (canonicalEdges 5 1) = some (∅, ∅) ∧
    a_star_solution selFirstMin ∅ 5 1 (0 + 5) =
      some (1, ["⇉ Max right (+1)"], c7path) :=
  claim_C7 (canonicalEdges 5 1) selFirstMin 0 (List.Perm.refl _)
    (validSel_selPrio [])

/-! ## Claims C4, C5, C8: counterexamples from adversarial tie-breaks

Every frontier node has the same f-cost (claim C10), so `min_by` is
decided entirely by the hash-iteration order; any priority order is a
legitimate refinement of it. -/

/-- A tie-break priority realising a winding search of the empty 2×5
maze: down the right column, across, then down the left column. -/
def c5badPrio : List Point :=
  [((0 : Int), (0 : Int)), ((1 : Int), (0 : Int)), ((1 : Int), (1 : Int)),
   ((1 : Int), (2 : Int)), ((0 : Int), (2 : Int)), ((0 : Int), (3 : Int)),
   ((0 : Int), (4 : Int)), ((1 : Int), (4 : Int))]

/-- A tie-break priority realising the straight search of the same maze. -/
def c5goodPrio : List Point :=
  [((0 : Int), (0 : Int)), ((1 : Int), (0 : Int)), ((1 : Int), (1 : Int)),
   ((1 : Int), (2 : Int)), ((1 : Int), (3 : Int)), ((1 : Int), (4 : Int))]

/-- The length-7 path returned by the winding run (goal-to-origin order). -/
def c5badPath : List Edge :=
  [(((0 : Int), (4 : Int)), ((1 : Int), (4 : Int))),
   (((0 : Int), (3 : Int)), ((0 : Int), (4 : Int))),
   (((0 : Int), (2 : Int)), ((0 : Int), (3 : Int))),
   (((1 : Int), (2 : Int)), ((0 : Int), (2 : Int))),
   (((1 : Int), (1 : Int)), ((1 : Int), (2 : Int))),
   (((1 : Int), (0 : Int)), ((1 : Int), (1 : Int))),
   (((0 : Int), (0 : Int)), ((1 : Int), (0 : Int)))]

/-- A valid 5-step route of the empty 2×5 maze, origin to goal. -/
def c5shortPath : List Edge :=
  [(((0 : Int), (0 : Int)), ((1 : Int), (0 : Int))),
   (((1 : Int), (0 : Int)), ((1 : Int), (1 : Int))),
   (((1 : Int), (1 : Int)), ((1 : Int), (2 : Int))),
   (((1 : Int), (2 : Int)), ((1 : Int), (3 : Int))),
   (((1 : Int), (3 : Int)), ((1 : Int), (4 : Int)))]

set_option maxRecDepth 10000 in
/-- Claim C4 (refuted as stated): on the empty 3×1 maze the returned
path is `[((1,0),(2,0)), ((0,0),(1,0))]`, which as an ordered sequence
runs from the goal back to the origin (only the copy handed to the move
compressor is reversed), not "from the origin to the goal". -/
theorem claim_C4_counterexample :
    a_star_solution selFirstMin ∅ 3 1 20 =
      some (1, ["⇉ Max right (+1)"],
        [(((1 : Int), (0 : Int)), ((2 : Int), (0 : Int))),
         (((0 : Int), (0 : Int)), ((1 : Int), (0 : Int)))]) ∧
    ¬ FwdChain ((0 : Int), (0 : Int))
        [(((1 : Int), (0 : Int)), ((2 : Int), (0 : Int))),
         (((0 : Int), (0 : Int)), ((1 : Int), (0 : Int)))] ((2 : Int), (0 : Int)) := by
  constructor
  · decide
  · decide

set_option maxRecDepth 10000 in
/-- Claim C5 (refuted as stated): with a legitimate tie-break order the
search on the *empty* 2×5 maze returns a path of length 7, although a
valid route of length 5 = W+H-2 exists — the returned path need not be
shortest (g is the coordinate sum, not a real path cost, so all f-costs
are equal and the search degenerates to arbitrary-order flooding). -/
theorem claim_C5_counterexample :
    ValidSel (selPrio c5badPrio) ∧
    a_star_solution (selPrio c5badPrio) ∅ 2 5 20 =
      some (6, ["⇾ 1 right (+1)", "↓ 2 down (+2)", "⇽ 1 left (+1)",
        "⇊ Max down (+1)", "⇾ 1 right (+1)"], c5badPath) ∧
    c5badPath.length = 7 ∧
    FwdChain ((0 : Int), (0 : Int)) c5shortPath ((1 : Int), (4 : Int)) ∧
    (∀ e ∈ c5shortPath, IsUnitVec (edgeDiff e) ∧
      e ∉ (∅ : Finset Edge) ∧ (e.2, e.1) ∉ (∅ : Finset Edge)) ∧
    c5shortPath.length = 5 ∧ (5 : Nat) < 7 := by
  refine ⟨validSel_selPrio _, by decide, by decide, by decide, by decide,
    by decide, by decide⟩

set_option maxRecDepth 10000 in
/-- Claim C8 (refuted as stated): two invocations of the solver on the
same wall set (the empty 2×5 maze) with two legitimate tie-break orders
return different move counts (2 versus 6) and different path lengths
(5 versus 7). -/
theorem claim_C8_counterexample :
    ValidSel (selPrio c5goodPrio) ∧ ValidSel (selPrio c5badPrio) ∧
    (a_star_solution (selPrio c5goodPrio) ∅ 2 5 20).map
      (fun r => (r.1, r.2.2.length)) = some (2, 5) ∧
    (a_star_solution (selPrio c5badPrio) ∅ 2 5 20).map
      (fun r => (r.1, r.2.2.length)) = some (6, 7) ∧
    (((2 : Int), (5 : Nat)) ≠ ((6 : Int), (7 : Nat))) := by
  refine ⟨validSel_selPrio _, validSel_selPrio _, by decide, by decide, by decide⟩

/-! ## Claim C1: Kruskal produces a spanning tree

### Parent-pointer chasing (specification of `find_and_cache_parent`) -/

/-- Follow parent pointers without compressing, stopping at a root. -/
def chase : Nat → UFMap → Point → Option Point
  | 0, _, _ => none
  | fuel + 1, m, p =>
    match m p with
    | none => none
    | some n => if n.parent = p then some p else chase fuel m n.parent

/-- `p` is its own parent in `m`. -/
def IsRootP (m : UFMap) (p : Point) : Prop := ∃ n, m p = some n ∧ n.parent = p

/-- The parent chain from `p` terminates at the representative `r`. -/
def Reaches (m : UFMap) (p r : Point) : Prop := ∃ k, chase k m p = some r

/-- `p` and `q` have the same representative. -/
def SameRoot (m : UFMap) (p q : Point) : Prop :=
  ∃ r, Reaches m p r ∧ Reaches m q r

lemma chase_isRoot {m : UFMap} :
    ∀ {k p r}, chase k m p = some r → IsRootP m r := by
  intro k
  induction k with
  | zero => intro p r h; exact Option.noConfusion h
  | succ k ih =>
    intro p r h
    rw [chase] at h
    cases hm : m p with
    | none => rw [hm] at h; exact Option.noConfusion h
    | some n =>
      rw [hm] at h
      dsimp only at h
      split at h
      · injection h with h; subst h; exact ⟨n, hm, by assumption⟩
      · exact ih h

lemma chase_root_self {m : UFMap} {r : Point} (h : IsRootP m r) :
    ∀ {k}, 1 ≤ k → chase k m r = some r := by
  intro k hk
  obtain ⟨n, hn, hp⟩ := h
  match k, hk with
  | k + 1, _ =>
    rw [chase, hn]
    simp [hp]

lemma chase_mono {m : UFMap} :
    ∀ {k k' p r}, k ≤ k' → chase k m p = some r → chase k' m p = some r := by
  intro k
  induction k with
  | zero => intro k' p r _ h; exact Option.noConfusion h
  | succ k ih =>
    intro k' p r hk h
    match k', hk with
    | k' + 1, hk =>
      rw [chase] at h ⊢
      cases hm : m p with
      | none => rw [hm] at h; exact Option.noConfusion h
      | some n =>
        rw [hm] at h
        dsimp only at h ⊢
        split at h
        · simpa [*] using h
        · rw [if_neg (by assumption)]
          exact ih (Nat.succ_le_succ_iff.mp hk) h

lemma chase_det {m : UFMap} :
    ∀ {k j p r s}, chase k m p = some r → chase j m p = some s → r = s := by
  intro k
  induction k with
  | zero => intro j p r s h; exact Option.noConfusion h
  | succ k ih =>
    intro j p r s h1 h2
    match j with
    | 0 => exact Option.noConfusion h2
    | j + 1 =>
      rw [chase] at h1 h2
      cases hm : m p with
      | none => rw [hm] at h1; exact Option.noConfusion h1
      | some n =>
        rw [hm] at h1 h2
        dsimp only at h1 h2
        split at h1
        · rw [if_pos (by assumption)] at h2
          injection h1 with h1
          injection h2 with h2
          rw [← h1, ← h2]
        · rw [if_neg (by assumption)] at h2
          exact ih h1 h2

lemma reaches_det {m : UFMap} {p r s : Point}
    (h1 : Reaches m p r) (h2 : Reaches m p s) : r = s := by
  obtain ⟨k, hk⟩ := h1
  obtain ⟨j, hj⟩ := h2
  exact chase_det hk hj

lemma reaches_isRoot {m : UFMap} {p r : Point} (h : Reaches m p r) :
    IsRootP m r := by
  obtain ⟨k, hk⟩ := h
  exact chase_isRoot hk

lemma reaches_self {m : UFMap} {r : Point} (h : IsRootP m r) : Reaches m r r :=
  ⟨1, chase_root_self h (le_refl 1)⟩

lemma reaches_of_root {m : UFMap} {r s : Point} (hr : IsRootP m r)
    (h : Reaches m r s) : s = r :=
  reaches_det h (reaches_self hr)

lemma reaches_step {m : UFMap} {p s : Point} {n : UFNode}
    (hm : m p = some n) (hne : n.parent ≠ p) (h : Reaches m n.parent s) :
    Reaches m p s := by
  obtain ⟨k, hk⟩ := h
  exact ⟨k + 1, by rw [chase, hm]; simpa [hne] using hk⟩

/-! ### Pigeonhole: a grid-sized fuel always suffices -/

/-- Walk exactly `n` parent steps (no stopping at roots). -/
def walkN : Nat → UFMap → Point → Option Point
  | 0, _, p => some p
  | n + 1, m, p =>
    match m p with
    | none => none
    | some nd => walkN n m nd.parent

lemma walkN_add (m : UFMap) :
    ∀ (a b : Nat) (p : Point),
      walkN (a + b) m p = (walkN a m p).bind (walkN b m) := by
  intro a
  induction a with
  | zero =>
    intro b p
    simp [walkN, Nat.zero_add]
  | succ a ih =>
    intro b p
    rw [show a + 1 + b = (a + b) + 1 from by omega]
    rw [walkN, walkN]
    cases hm : m p with
    | none => simp
    | some nd =>
      dsimp only
      exact ih b nd.parent

lemma walkN_root {m : UFMap} {r : Point} (h : IsRootP m r) :
    ∀ n, walkN n m r = some r := by
  intro n
  induction n with
  | zero => rfl
  | succ n ih =>
    obtain ⟨nd, hm, hp⟩ := h
    rw [walkN, hm]
    dsimp only
    rw [hp]
    exact ih

lemma chase_to_walkN {m : UFMap} :
    ∀ {k p r}, chase k m p = some r → ∃ j < k, walkN j m p = some r := by
  intro k
  induction k with
  | zero => intro p r h; exact Option.noConfusion h
  | succ k ih =>
    intro p r h
    rw [chase] at h
    cases hm : m p with
    | none => rw [hm] at h; exact Option.noConfusion h
    | some n =>
      rw [hm] at h
      dsimp only at h
      split at h
      · injection h with h
        exact ⟨0, by omega, by rw [← h]; rfl⟩
      · obtain ⟨j, hj, hw⟩ := ih h
        refine ⟨j + 1, by omega, ?_⟩
        rw [walkN, hm]
        exact hw

lemma walkN_to_chase {m : UFMap} :
    ∀ {j p r}, walkN j m p = some r → IsRootP m r → chase (j + 1) m p = some r := by
  intro j
  induction j with
  | zero =>
    intro p r h hr
    injection h with h
    subst h
    exact chase_root_self hr (le_refl 1)
  | succ j ih =>
    intro p r h hr
    rw [walkN] at h
    cases hm : m p with
    | none => rw [hm] at h; exact Option.noConfusion h
    | some nd =>
      rw [hm] at h
      dsimp only at h
      by_cases hp : nd.parent = p
      · -- p is a root, the walk stays put
        have hro : IsRootP m p := ⟨nd, hm, hp⟩
        rw [hp] at h
        rw [walkN_root hro j] at h
        injection h with h
        subst h
        exact chase_root_self hro (by omega)
      · rw [show j + 1 + 1 = (j + 1) + 1 from rfl, chase, hm]
        dsimp only
        rw [if_neg hp]
        exact ih h hr

lemma walkN_isSome_of_le {m : UFMap} {j i : Nat} {p r : Point}
    (hij : i ≤ j) (h : walkN j m p = some r) : (walkN i m p).isSome := by
  obtain ⟨d, rfl⟩ := Nat.exists_eq_add_of_le hij
  rw [walkN_add] at h
  cases hi : walkN i m p with
  | none => rw [hi] at h; exact Option.noConfusion h
  | some q => simp

/-- Pigeonhole bound: when every key of `m` lies in `S`, any chain that
terminates at all terminates within `S.card + 1` fuel. -/
theorem chase_bound {S : Finset Point} {m : UFMap}
    (hdom : ∀ q n, m q = some n → q ∈ S)
    {k : Nat} {p r : Point} (h : chase k m p = some r) :
    chase (S.card + 1) m p = some r := by
  classical
  obtain ⟨j, hjk, hw⟩ := chase_to_walkN h
  have hroot : IsRootP m r := chase_isRoot h
  have hex : ∃ i, ∃ s, walkN i m p = some s ∧ IsRootP m s := ⟨j, r, hw, hroot⟩
  have hdec : DecidablePred fun i => ∃ s, walkN i m p = some s ∧ IsRootP m s :=
    fun _ => Classical.dec _
  let j0 := Nat.find hex
  obtain ⟨r0, hw0, hr0⟩ : ∃ s, walkN j0 m p = some s ∧ IsRootP m s :=
    Nat.find_spec hex
  have hj0_min : ∀ i < j0, ¬ ∃ s, walkN i m p = some s ∧ IsRootP m s :=
    fun i hi => Nat.find_min hex hi
  have hj0j : j0 ≤ j := Nat.find_min' hex ⟨r, hw, hroot⟩
  -- the value found at the minimal index is r itself
  have hr0r : r0 = r := by
    have : walkN j m p = some r0 := by
      have hsplit : walkN (j0 + (j - j0)) m p = (walkN j0 m p).bind (walkN (j - j0) m) :=
        walkN_add m j0 (j - j0) p
      rw [show j0 + (j - j0) = j from by omega] at hsplit
      rw [hsplit, hw0]
      simpa using walkN_root hr0 (j - j0)
    rw [this] at hw
    exact Option.some.inj hw
  -- the prefix of the walk is injective on [0, j0]
  have hinj : ∀ i1 ∈ Finset.range (j0 + 1), ∀ i2 ∈ Finset.range (j0 + 1),
      walkN i1 m p = walkN i2 m p → i1 = i2 := by
    intro i1 h1 i2 h2 heq
    by_contra hne
    -- assume wlog i1 < i2
    rcases Nat.lt_or_ge i1 i2 with hlt | hge
    · have key : walkN (i1 + (j0 - i2)) m p = some r0 := by
        have e1 : walkN (i1 + (j0 - i2)) m p =
            (walkN i1 m p).bind (walkN (j0 - i2) m) := walkN_add m i1 (j0 - i2) p
        have e2 : walkN (i2 + (j0 - i2)) m p =
            (walkN i2 m p).bind (walkN (j0 - i2) m) := walkN_add m i2 (j0 - i2) p
        rw [show i2 + (j0 - i2) = j0 from by
          simp at h2; omega] at e2
        rw [e1, heq, ← e2, hw0]
      have hlt0 : i1 + (j0 - i2) < j0 := by
        simp at h1 h2
        omega
      exact hj0_min _ hlt0 ⟨r0, key, hr0⟩
    · have hlt : i2 < i1 := by omega
      have key : walkN (i2 + (j0 - i1)) m p = some r0 := by
        have e1 : walkN (i2 + (j0 - i1)) m p =
            (walkN i2 m p).bind (walkN (j0 - i1) m) := walkN_add m i2 (j0 - i1) p
        have e2 : walkN (i1 + (j0 - i1)) m p =
            (walkN i1 m p).bind (walkN (j0 - i1) m) := walkN_add m i1 (j0 - i1) p
        rw [show i1 + (j0 - i1) = j0 from by
          simp at h1; omega] at e2
        rw [e1, ← heq, ← e2, hw0]
      have hlt0 : i2 + (j0 - i1) < j0 := by
        simp at h1 h2
        omega
      exact hj0_min _ hlt0 ⟨r0, key, hr0⟩
  -- all walk values lie in S
  have hmem : ∀ i ∈ Finset.range (j0 + 1),
      (walkN i m p).getD ((0 : Int), (0 : Int)) ∈ S := by
    intro i hi
    simp only [Finset.mem_range] at hi
    have hsome : (walkN i m p).isSome := by
      refine walkN_isSome_of_le ?_ hw0
      omega
    obtain ⟨q, hq⟩ := Option.isSome_iff_exists.mp hsome
    rw [hq]
    simp only [Option.getD_some]
    by_cases hij0 : i = j0
    · subst hij0
      rw [hq] at hw0
      injection hw0 with hw0
      subst hw0
      obtain ⟨nd, hnd, -⟩ := hr0
      exact hdom q nd hnd
    · have hi1 : (walkN (i + 1) m p).isSome := by
        refine walkN_isSome_of_le ?_ hw0
        omega
      rw [walkN_add m i 1 p, hq] at hi1
      simp only [Option.some_bind] at hi1
      rw [walkN] at hi1
      cases hmq : m q with
      | none => rw [hmq] at hi1; simp at hi1
      | some nd => exact hdom q nd hmq
  -- pigeonhole: j0 + 1 ≤ S.card
  have hcard : j0 + 1 ≤ S.card := by
    have hinj2 : Set.InjOn (fun i => (walkN i m p).getD ((0 : Int), (0 : Int)))
        (Finset.range (j0 + 1)) := by
      intro i1 h1 i2 h2 heq
      simp only [Finset.mem_coe] at h1 h2
      dsimp only at heq
      have s1 : (walkN i1 m p).isSome := by
        have := Finset.mem_range.mp h1
        exact walkN_isSome_of_le (by omega) hw0
      have s2 : (walkN i2 m p).isSome := by
        have := Finset.mem_range.mp h2
        exact walkN_isSome_of_le (by omega) hw0
      obtain ⟨q1, hq1⟩ := Option.isSome_iff_exists.mp s1
      obtain ⟨q2, hq2⟩ := Option.isSome_iff_exists.mp s2
      rw [hq1, hq2] at heq
      simp only [Option.getD_some] at heq
      exact hinj i1 h1 i2 h2 (by rw [hq1, hq2, heq])
    have := Finset.card_le_card_of_injOn _ hmem hinj2
    simpa using this
  have hch : chase (j0 + 1) m p = some r := by
    rw [← hr0r]
    exact walkN_to_chase hw0 hr0
  exact chase_mono (by omega) hch

/-! ### The specification of `find_and_cache_parent` -/

lemma chase_update_to_root {m1 : UFMap} {p r : Point} {rk : Nat}
    (hroot : IsRootP m1 r) (hRr : Reaches m1 p r) (hnp : ¬ IsRootP m1 p)
    (hne : r ≠ p) :
    ∀ {k q s}, chase k m1 q = some s →
      chase k (fun x => if x = p then some ⟨r, rk⟩ else m1 x) q = some s := by
  intro k
  induction k with
  | zero => intro q s h; exact Option.noConfusion h
  | succ k ih =>
    intro q s h
    by_cases hq : q = p
    · subst hq
      have hs : s = r := by
        refine reaches_det ⟨k + 1, h⟩ hRr
      subst hs
      -- the chain from q had at least two entries, so k ≥ 1
      rw [chase] at h
      cases hm : m1 q with
      | none => rw [hm] at h; exact Option.noConfusion h
      | some n =>
        rw [hm] at h
        dsimp only at h
        rw [if_neg (fun hp => hnp ⟨n, hm, hp⟩)] at h
        have hk1 : 1 ≤ k := by
          match k, h with
          | k + 1, _ => omega
        rw [chase]
        rw [show (if q = q then some (⟨s, rk⟩ : UFNode) else m1 q) =
          some ⟨s, rk⟩ from if_pos rfl]
        dsimp only
        rw [if_neg hne]
        have hr2 : IsRootP (fun x => if x = q then some ⟨s, rk⟩ else m1 x) s := by
          obtain ⟨nr, hnr, hpr⟩ := hroot
          exact ⟨nr, by dsimp only; rw [if_neg hne]; exact hnr, hpr⟩
        exact chase_root_self hr2 hk1
    · rw [chase] at h
      cases hm : m1 q with
      | none => rw [hm] at h; exact Option.noConfusion h
      | some n =>
        rw [hm] at h
        dsimp only at h
        rw [chase]
        simp only [if_neg hq]
        rw [hm]
        dsimp only
        split at h
        · rw [if_pos (by assumption)]
          exact h
        · rw [if_neg (by assumption)]
          exact ih h

lemma chase_update_back {m1 : UFMap} {p r : Point} {rk : Nat}
    (hroot : IsRootP m1 r) (hRr : Reaches m1 p r) :
    ∀ {k q s}, chase k (fun x => if x = p then some ⟨r, rk⟩ else m1 x) q = some s →
      Reaches m1 q s := by
  intro k
  induction k with
  | zero => intro q s h; exact Option.noConfusion h
  | succ k ih =>
    intro q s h
    rw [chase] at h
    by_cases hq : q = p
    · subst hq
      rw [show (if q = q then some (⟨r, rk⟩ : UFNode) else m1 q) =
        some ⟨r, rk⟩ from if_pos rfl] at h
      dsimp only at h
      by_cases hrp : r = q
      · rw [if_pos hrp] at h
        injection h with h
        subst h
        exact hrp ▸ hRr
      · rw [if_neg hrp] at h
        have hrs : Reaches m1 r s := ih h
        have : s = r := reaches_of_root hroot hrs
        subst this
        exact hRr
    · simp only [if_neg hq] at h
      cases hm : m1 q with
      | none => rw [hm] at h; exact Option.noConfusion h
      | some n =>
        rw [hm] at h
        dsimp only at h
        split at h
        · injection h with h
          subst h
          exact reaches_self ⟨n, hm, by assumption⟩
        · exact reaches_step hm (by assumption) (ih h)

theorem find_spec {m : UFMap} :
    ∀ (fuel : Nat) (p r : Point), chase fuel m p = some r →
    ∃ (rk : Nat) (m1 : UFMap),
      find_and_cache_parent fuel m p = some (⟨r, rk⟩, m1) ∧
      (∀ q, (m1 q).isSome ↔ (m q).isSome) ∧
      (∀ q, IsRootP m1 q ↔ IsRootP m q) ∧
      (∀ q, IsRootP m q → m1 q = m q) ∧
      (∀ k q s, chase k m q = some s → chase k m1 q = some s) ∧
      (∀ q s, Reaches m1 q s → Reaches m q s) ∧
      (∀ q n1, m1 q = some n1 →
        ∃ n0, m q = some n0 ∧ (n1.parent = n0.parent ∨ n1.parent = r)) := by
  intro fuel
  induction fuel with
  | zero => intro p r h; exact Option.noConfusion h
  | succ fuel ih =>
    intro p r h
    rw [chase] at h
    cases hm : m p with
    | none => rw [hm] at h; exact Option.noConfusion h
    | some fnd =>
      rw [hm] at h
      dsimp only at h
      by_cases hpar : fnd.parent = p
      · rw [if_pos hpar] at h
        injection h with h
        refine ⟨fnd.rank, m, ?_, fun q => Iff.rfl, fun q => Iff.rfl,
          fun q _ => rfl, fun k q s hc => hc, fun q s hc => hc,
          fun q n1 h1 => ⟨n1, h1, Or.inl rfl⟩⟩
        rw [find_and_cache_parent, hm]
        dsimp only
        rw [if_pos hpar]
        have : fnd = ⟨r, fnd.rank⟩ := by
          rcases fnd with ⟨fp, fr⟩
          simp only at hpar
          simp only [UFNode.mk.injEq]
          exact ⟨hpar.trans h, trivial⟩
        rw [← this]
      · rw [if_neg hpar] at h
        obtain ⟨rk', m1, hfind, hdom1, hroots1, hrootpres1, hchase1, hback1, hpar1⟩ :=
          ih fnd.parent r h
        have hproot : IsRootP m r := chase_isRoot h
        have hroot1 : IsRootP m1 r := (hroots1 r).mpr hproot
        have hnp : ¬ IsRootP m p := by
          rintro ⟨n, hn, hp⟩
          rw [hm] at hn
          injection hn with hn
          exact hpar (by rw [hn]; exact hp)
        have hnp1 : ¬ IsRootP m1 p := fun hr => hnp ((hroots1 p).mp hr)
        have hRp : Reaches m p r := by
          refine ⟨fuel + 1, ?_⟩
          rw [chase, hm]
          dsimp only
          rw [if_neg hpar]
          exact h
        have hRp1 : Reaches m1 p r := by
          obtain ⟨k, hk⟩ := hRp
          exact ⟨k, hchase1 k p r hk⟩
        have hner : r ≠ p := fun he => hnp (he ▸ hproot)
        refine ⟨fnd.rank, fun q => if q = p then some ⟨r, fnd.rank⟩ else m1 q,
          ?_, ?_, ?_, ?_, ?_, ?_, ?_⟩
        · rw [find_and_cache_parent, hm]
          dsimp only
          rw [if_neg hpar, hfind]
        · intro q
          by_cases hq : q = p
          · subst hq
            simp [hm]
          · simp only [if_neg hq]
            exact hdom1 q
        · intro q
          by_cases hq : q = p
          · subst hq
            constructor
            · rintro ⟨n, hn, hp⟩
              dsimp only at hn
              rw [if_pos rfl] at hn
              injection hn with hn
              rw [← hn] at hp
              dsimp only at hp
              exact absurd hp hner
            · intro hq
              exact absurd hq hnp
          · simp only [IsRootP, if_neg hq]
            exact hroots1 q
        · intro q hq
          have hqp : q ≠ p := fun he => hnp (he ▸ hq)
          simp only [if_neg hqp]
          exact hrootpres1 q hq
        · intro k q s hc
          exact chase_update_to_root hroot1 hRp1 hnp1 hner (hchase1 k q s hc)
        · intro q s hc
          obtain ⟨k, hk⟩ := hc
          exact hback1 q s (chase_update_back hroot1 hRp1 hk)
        · intro q n1 h1
          by_cases hq : q = p
          · subst hq
            dsimp only at h1
            rw [if_pos rfl] at h1
            injection h1 with h1
            exact ⟨fnd, hm, Or.inr (by rw [← h1])⟩
          · dsimp only at h1
            rw [if_neg hq] at h1
            exact hpar1 q n1 h1

/-! ### The specification of `union_subtrees` -/

/-- Decidable root test. -/
def isRootB (m : UFMap) (p : Point) : Bool :=
  match m p with
  | none => false
  | some n => n.parent = p

lemma isRootB_iff {m : UFMap} {p : Point} : isRootB m p = true ↔ IsRootP m p := by
  unfold isRootB IsRootP
  cases hm : m p with
  | none => simp
  | some n => simp

/-- The roots of `m` among `S`. -/
def RootsOf (m : UFMap) (S : Finset Point) : Finset Point :=
  S.filter fun p => isRootB m p = true

lemma mem_RootsOf {m : UFMap} {S : Finset Point} {p : Point} :
    p ∈ RootsOf m S ↔ p ∈ S ∧ IsRootP m p := by
  unfold RootsOf
  rw [Finset.mem_filter, isRootB_iff]

lemma sameRoot_iff_eq_roots {m : UFMap} {p q rp rq : Point}
    (hp : Reaches m p rp) (hq : Reaches m q rq) :
    SameRoot m p q ↔ rp = rq := by
  constructor
  · rintro ⟨r, h1, h2⟩
    rw [reaches_det hp h1, reaches_det hq h2]
  · intro h
    exact ⟨rp, hp, h ▸ hq⟩

lemma link_forward {m2 : UFMap} {rl rw0 : Point} {rk : Nat}
    (hl : IsRootP m2 rl) (hw : IsRootP m2 rw0) (hne : rl ≠ rw0) :
    ∀ {k q s}, chase k m2 q = some s →
      Reaches (fun x => if x = rl then some ⟨rw0, rk⟩ else m2 x) q
        (if s = rl then rw0 else s) := by
  intro k
  induction k with
  | zero => intro q s h; exact Option.noConfusion h
  | succ k ih =>
    intro q s h
    by_cases hq : q = rl
    · subst hq
      have hs : s = q := reaches_det ⟨k + 1, h⟩ (reaches_self hl)
      subst hs
      rw [if_pos rfl]
      refine ⟨2, ?_⟩
      rw [chase]
      rw [show (if s = s then some (⟨rw0, rk⟩ : UFNode) else m2 s) =
        some ⟨rw0, rk⟩ from if_pos rfl]
      dsimp only
      rw [if_neg (show ¬ (rw0 = s) from fun he => hne he.symm)]
      have : IsRootP (fun x => if x = s then some ⟨rw0, rk⟩ else m2 x) rw0 := by
        obtain ⟨nw, hnw, hpw⟩ := hw
        exact ⟨nw, by dsimp only; rw [if_neg (fun he => hne he.symm)]; exact hnw, hpw⟩
      exact chase_root_self this (by omega)
    · rw [chase] at h
      cases hm : m2 q with
      | none => rw [hm] at h; exact Option.noConfusion h
      | some n =>
        rw [hm] at h
        dsimp only at h
        split at h
        · -- q is a root distinct from rl, untouched
          injection h with h
          subst h
          rw [if_neg hq]
          refine reaches_self ⟨n, ?_, by assumption⟩
          dsimp only
          rw [if_neg hq]
          exact hm
        · have hstep := ih h
          refine reaches_step ?_ (by assumption) hstep
          dsimp only
          rw [if_neg hq]
          exact hm

lemma link_back {m2 : UFMap} {rl rw0 : Point} {rk : Nat}
    (hl : IsRootP m2 rl) (hw : IsRootP m2 rw0) (hne : rl ≠ rw0) :
    ∀ {k q s}, chase k (fun x => if x = rl then some ⟨rw0, rk⟩ else m2 x) q = some s →
      ∃ s0, Reaches m2 q s0 ∧ s = (if s0 = rl then rw0 else s0) := by
  intro k
  induction k with
  | zero => intro q s h; exact Option.noConfusion h
  | succ k ih =>
    intro q s h
    rw [chase] at h
    by_cases hq : q = rl
    · subst hq
      rw [show (if q = q then some (⟨rw0, rk⟩ : UFNode) else m2 q) =
        some ⟨rw0, rk⟩ from if_pos rfl] at h
      dsimp only at h
      rw [if_neg (fun he => hne he.symm)] at h
      have hwroot : IsRootP (fun x => if x = q then some ⟨rw0, rk⟩ else m2 x) rw0 := by
        obtain ⟨nw, hnw, hpw⟩ := hw
        exact ⟨nw, by dsimp only; rw [if_neg (fun he => hne he.symm)]; exact hnw, hpw⟩
      have hk1 : 1 ≤ k := by
        match k, h with
        | k + 1, _ => omega
      have hs : s = rw0 := chase_det h (chase_root_self hwroot hk1)
      exact ⟨q, reaches_self hl, by rw [if_pos rfl, hs]⟩
    · rw [show (if q = rl then some (⟨rw0, rk⟩ : UFNode) else m2 q) = m2 q
        from if_neg hq] at h
      cases hm : m2 q with
      | none => rw [hm] at h; exact Option.noConfusion h
      | some n =>
        rw [hm] at h
        dsimp only at h
        split at h
        · injection h with h
          subst h
          refine ⟨q, reaches_self ⟨n, hm, by assumption⟩, ?_⟩
          rw [if_neg hq]
        · obtain ⟨s0, hr0, hs0⟩ := ih h
          exact ⟨s0, reaches_step hm (by assumption) hr0, hs0⟩

lemma link_root_iff {m2 : UFMap} {rl rw0 : Point} {rk : Nat} (hne : rl ≠ rw0) :
    ∀ q, IsRootP (fun x => if x = rl then some ⟨rw0, rk⟩ else m2 x) q ↔
      (IsRootP m2 q ∧ q ≠ rl) := by
  intro q
  by_cases hq : q = rl
  · subst hq
    constructor
    · rintro ⟨n, hn, hp⟩
      dsimp only at hn
      rw [if_pos rfl] at hn
      injection hn with hn
      rw [← hn] at hp
      dsimp only at hp
      exact absurd hp (fun he => hne he.symm)
    · rintro ⟨-, hq⟩
      exact absurd rfl hq
  · constructor
    · rintro ⟨n, hn, hp⟩
      dsimp only at hn
      rw [if_neg hq] at hn
      exact ⟨⟨n, hn, hp⟩, hq⟩
    · rintro ⟨⟨n, hn, hp⟩, -⟩
      exact ⟨n, by dsimp only; rw [if_neg hq]; exact hn, hp⟩

lemma collapse_eq_iff {rp rq rl rw0 : Point} (hne : rl ≠ rw0) :
    ((if rp = rl then rw0 else rp) = (if rq = rl then rw0 else rq)) ↔
      (rp = rq ∨ (rp = rl ∧ rq = rw0) ∨ (rp = rw0 ∧ rq = rl)) := by
  by_cases h1 : rp = rl <;> by_cases h2 : rq = rl
  · subst h1; subst h2
    simp
  · subst h1
    rw [if_pos rfl, if_neg h2]
    constructor
    · intro h; exact Or.inr (Or.inl ⟨rfl, h.symm⟩)
    · rintro (h | ⟨-, h⟩ | ⟨h, h2'⟩)
      · exact absurd h.symm h2
      · exact h.symm
      · exact absurd h2' h2
  · subst h2
    rw [if_neg h1, if_pos rfl]
    constructor
    · intro h; exact Or.inr (Or.inr ⟨h, rfl⟩)
    · rintro (h | ⟨h1', -⟩ | ⟨h, -⟩)
      · exact absurd h h1
      · exact absurd h1' h1
      · exact h
  · rw [if_neg h1, if_neg h2]
    constructor
    · intro h; exact Or.inl h
    · rintro (h | ⟨h1', -⟩ | ⟨-, h2'⟩)
      · exact h
      · exact absurd h1' h1
      · exact absurd h2' h2

lemma linked_spec {S : Finset Point} {m2 : UFMap}
    (hdom2 : ∀ q, (m2 q).isSome ↔ q ∈ S)
    (hcl2 : ∀ q n, m2 q = some n → n.parent ∈ S)
    (hreach2 : ∀ q ∈ S, ∃ rr, Reaches m2 q rr)
    {rl rw0 : Point} {rkx : Nat} (hl : IsRootP m2 rl) (hw : IsRootP m2 rw0)
    (hne : rl ≠ rw0) (hlS : rl ∈ S) (hwS : rw0 ∈ S) :
    (∀ q, (((fun p => if p = rl then some (⟨rw0, rkx⟩ : UFNode) else m2 p)) q).isSome
      ↔ q ∈ S) ∧
    (∀ q n, (fun p => if p = rl then some (⟨rw0, rkx⟩ : UFNode) else m2 p) q = some n →
      n.parent ∈ S) ∧
    (∀ q ∈ S, ∃ rr,
      Reaches (fun p => if p = rl then some (⟨rw0, rkx⟩ : UFNode) else m2 p) q rr) ∧
    (∀ p rp q rq, Reaches m2 p rp → Reaches m2 q rq →
      (SameRoot (fun x => if x = rl then some (⟨rw0, rkx⟩ : UFNode) else m2 x) p q ↔
        (if rp = rl then rw0 else rp) = (if rq = rl then rw0 else rq))) ∧
    (RootsOf (fun p => if p = rl then some (⟨rw0, rkx⟩ : UFNode) else m2 p) S).card + 1 =
      (RootsOf m2 S).card := by
  refine ⟨?_, ?_, ?_, ?_, ?_⟩
  · intro q
    by_cases hq : q = rl
    · subst hq; simp [hlS]
    · simp only [if_neg hq]
      exact hdom2 q
  · intro q n hq
    by_cases hq' : q = rl
    · subst hq'
      dsimp only at hq
      rw [if_pos rfl] at hq
      injection hq with hq
      rw [← hq]
      exact hwS
    · dsimp only at hq
      rw [if_neg hq'] at hq
      exact hcl2 q n hq
  · intro q hq
    obtain ⟨rr, k, hk⟩ := hreach2 q hq
    exact ⟨if rr = rl then rw0 else rr, link_forward hl hw hne hk⟩
  · intro p rp q rq hRp hRq
    constructor
    · rintro ⟨r, ⟨k1, hk1⟩, ⟨k2, hk2⟩⟩
      obtain ⟨s1, hs1, he1⟩ := link_back hl hw hne hk1
      obtain ⟨s2, hs2, he2⟩ := link_back hl hw hne hk2
      rw [reaches_det hs1 hRp] at he1
      rw [reaches_det hs2 hRq] at he2
      rw [← he1, ← he2]
    · intro heq
      obtain ⟨k1, hk1⟩ := hRp
      obtain ⟨k2, hk2⟩ := hRq
      exact ⟨if rp = rl then rw0 else rp, link_forward hl hw hne hk1,
        heq ▸ link_forward hl hw hne hk2⟩
  · have hset : RootsOf (fun p => if p = rl then some (⟨rw0, rkx⟩ : UFNode) else m2 p) S =
        (RootsOf m2 S).erase rl := by
      apply Finset.ext
      intro x
      rw [mem_RootsOf, Finset.mem_erase, mem_RootsOf, link_root_iff hne x]
      constructor
      · rintro ⟨hx, hr, hne'⟩; exact ⟨hne', hx, hr⟩
      · rintro ⟨hne', hx, hr⟩; exact ⟨hx, hr, hne'⟩
    rw [hset]
    have hmem : rl ∈ RootsOf m2 S := mem_RootsOf.mpr ⟨hlS, hl⟩
    have hpos : 0 < (RootsOf m2 S).card := Finset.card_pos.mpr ⟨rl, hmem⟩
    rw [Finset.card_erase_of_mem hmem]
    omega

theorem union_spec {S : Finset Point} {m : UFMap}
    (hdom : ∀ q, (m q).isSome ↔ q ∈ S)
    (hcl : ∀ q n, m q = some n → n.parent ∈ S)
    (hreach : ∀ q ∈ S, ∃ rr, Reaches m q rr)
    {a b : Point} (ha : a ∈ S) (hb : b ∈ S) :
    ∃ flag m2,
      union_subtrees (S.card + 1) m a b = some (flag, m2) ∧
      (∀ q, (m2 q).isSome ↔ q ∈ S) ∧
      (∀ q n, m2 q = some n → n.parent ∈ S) ∧
      (∀ q ∈ S, ∃ rr, Reaches m2 q rr) ∧
      ((flag = false ∧ SameRoot m a b ∧
          (∀ p q, SameRoot m2 p q ↔ SameRoot m p q) ∧
          RootsOf m2 S = RootsOf m S) ∨
        (flag = true ∧ ¬ SameRoot m a b ∧
          (∀ p ∈ S, ∀ q ∈ S, SameRoot m2 p q ↔ (SameRoot m p q ∨
            (SameRoot m p a ∧ SameRoot m b q) ∨
            (SameRoot m p b ∧ SameRoot m a q))) ∧
          (RootsOf m2 S).card + 1 = (RootsOf m S).card)) := by
  have hdom' : ∀ q n, m q = some n → q ∈ S := by
    intro q n hq
    exact (hdom q).mp (by rw [hq]; rfl)
  obtain ⟨ra, hRa⟩ := hreach a ha
  obtain ⟨ka, hka⟩ := hRa
  have hka' : chase (S.card + 1) m a = some ra := chase_bound hdom' hka
  obtain ⟨rka, m1, hfind1, hdom1, hroots1, hrootpres1, hchase1, hback1, hpar1⟩ :=
    find_spec (S.card + 1) a ra hka'
  have hRa : Reaches m a ra := ⟨ka, hka⟩
  obtain ⟨rb, hRb⟩ := hreach b hb
  obtain ⟨kb, hkb⟩ := hRb
  have hRb : Reaches m b rb := ⟨kb, hkb⟩
  have hdom1' : ∀ q n, m1 q = some n → q ∈ S := by
    intro q n hq
    exact (hdom q).mp ((hdom1 q).mp (by rw [hq]; rfl))
  have hkb1 : chase (S.card + 1) m1 b = some rb :=
    chase_bound hdom1' (hchase1 kb b rb hkb)
  obtain ⟨rkb, m2, hfind2, hdom2, hroots2, hrootpres2, hchase2, hback2, hpar2⟩ :=
    @find_spec m1 (S.card + 1) b rb hkb1
  have hra_root : IsRootP m ra := reaches_isRoot hRa
  have hrb_root : IsRootP m rb := reaches_isRoot hRb
  have hra_root2 : IsRootP m2 ra := (hroots2 ra).mpr ((hroots1 ra).mpr hra_root)
  have hrb_root2 : IsRootP m2 rb := (hroots2 rb).mpr ((hroots1 rb).mpr hrb_root)
  have hraS : ra ∈ S := by
    obtain ⟨n, hn, -⟩ := hra_root
    exact hdom' ra n hn
  have hrbS : rb ∈ S := by
    obtain ⟨n, hn, -⟩ := hrb_root
    exact hdom' rb n hn
  have hdom2' : ∀ q, (m2 q).isSome ↔ q ∈ S :=
    fun q => (hdom2 q).trans ((hdom1 q).trans (hdom q))
  have hcl2 : ∀ q n, m2 q = some n → n.parent ∈ S := by
    intro q n hq
    obtain ⟨n1, hn1, hor⟩ := hpar2 q n hq
    rcases hor with h | h
    · obtain ⟨n0, hn0, hor0⟩ := hpar1 q n1 hn1
      rcases hor0 with h0 | h0
      · rw [h, h0]; exact hcl q n0 hn0
      · rw [h, h0]; exact hraS
    · rw [h]; exact hrbS
  have htrans2 : ∀ q s, Reaches m q s → Reaches m2 q s := by
    rintro q s ⟨k, hk⟩
    exact ⟨k, hchase2 k q s (hchase1 k q s hk)⟩
  have hback12 : ∀ q s, Reaches m2 q s → Reaches m q s := by
    rintro q s h
    exact hback1 q s (hback2 q s h)
  have hreach2 : ∀ q ∈ S, ∃ rr, Reaches m2 q rr := by
    intro q hq
    obtain ⟨rr, h⟩ := hreach q hq
    exact ⟨rr, htrans2 q rr h⟩
  have hroots12 : ∀ q, IsRootP m2 q ↔ IsRootP m q :=
    fun q => (hroots2 q).trans (hroots1 q)
  have hRootsOf12 : RootsOf m2 S = RootsOf m S := by
    apply Finset.ext
    intro x
    rw [mem_RootsOf, mem_RootsOf, hroots12 x]
  have hsame12 : ∀ p q, SameRoot m2 p q ↔ SameRoot m p q := by
    intro p q
    constructor
    · rintro ⟨r, h1, h2⟩; exact ⟨r, hback12 p r h1, hback12 q r h2⟩
    · rintro ⟨r, h1, h2⟩; exact ⟨r, htrans2 p r h1, htrans2 q r h2⟩
  have hRa2 : Reaches m2 a ra := htrans2 a ra hRa
  have hRb2 : Reaches m2 b rb := htrans2 b rb hRb
  by_cases hrarb : ra = rb
  · -- already joined
    refine ⟨false, m2, ?_, hdom2', hcl2, hreach2,
      Or.inl ⟨rfl, (sameRoot_iff_eq_roots hRa hRb).mpr hrarb, hsame12, hRootsOf12⟩⟩
    simp only [union_subtrees, hfind1, hfind2]
    dsimp only
    rw [if_pos hrarb]
  · -- genuinely merge; the rank comparison selects the winner
    have hne_ba : rb ≠ ra := fun he => hrarb he.symm
    have hnsame : ¬ SameRoot m a b :=
      fun hs => hrarb ((sameRoot_iff_eq_roots hRa hRb).mp hs)
    by_cases hrk : rkb ≤ (if rka = rkb then rka + 1 else rka)
    · -- b's root is attached under a's root
      obtain ⟨hd3, hc3, hr3, hj3, hcard3⟩ :=
        @linked_spec S m2 hdom2' hcl2 hreach2 rb ra
          (if rka = rkb then rka + 1 else rka) hrb_root2 hra_root2 hne_ba hrbS hraS
      refine ⟨true, _, ?_, hd3, hc3, hr3, Or.inr ⟨rfl, hnsame, ?_, ?_⟩⟩
      · simp only [union_subtrees, hfind1, hfind2]
        dsimp only
        rw [if_neg hrarb]
        rw [show (if (⟨ra, rka⟩ : UFNode).rank = (⟨rb, rkb⟩ : UFNode).rank then
            (⟨(⟨ra, rka⟩ : UFNode).parent, (⟨ra, rka⟩ : UFNode).rank + 1⟩ : UFNode)
          else ⟨ra, rka⟩) = ⟨ra, if rka = rkb then rka + 1 else rka⟩ from by
            dsimp only
            split <;> rfl]
        dsimp only
        rw [if_pos hrk]
      · intro p hp q hq
        obtain ⟨rp, hRp⟩ := hreach p hp
        obtain ⟨rq, hRq⟩ := hreach q hq
        rw [hj3 p rp q rq (htrans2 p rp hRp) (htrans2 q rq hRq)]
        rw [collapse_eq_iff hne_ba]
        rw [sameRoot_iff_eq_roots hRp hRq, sameRoot_iff_eq_roots hRp hRa,
          sameRoot_iff_eq_roots hRb hRq, sameRoot_iff_eq_roots hRp hRb,
          sameRoot_iff_eq_roots hRa hRq]
        constructor
        · rintro (h | ⟨h1, h2⟩ | ⟨h1, h2⟩)
          · exact Or.inl h
          · exact Or.inr (Or.inr ⟨h1, h2.symm⟩)
          · exact Or.inr (Or.inl ⟨h1, h2.symm⟩)
        · rintro (h | ⟨h1, h2⟩ | ⟨h1, h2⟩)
          · exact Or.inl h
          · exact Or.inr (Or.inr ⟨h1, h2.symm⟩)
          · exact Or.inr (Or.inl ⟨h1, h2.symm⟩)
      · rw [← hRootsOf12]
        exact hcard3
    · -- a's root is attached under b's root
      obtain ⟨hd3, hc3, hr3, hj3, hcard3⟩ :=
        @linked_spec S m2 hdom2' hcl2 hreach2 ra rb rkb hra_root2 hrb_root2 hrarb hraS hrbS
      refine ⟨true, _, ?_, hd3, hc3, hr3, Or.inr ⟨rfl, hnsame, ?_, ?_⟩⟩
      · simp only [union_subtrees, hfind1, hfind2]
        dsimp only
        rw [if_neg hrarb]
        rw [show (if (⟨ra, rka⟩ : UFNode).rank = (⟨rb, rkb⟩ : UFNode).rank then
            (⟨(⟨ra, rka⟩ : UFNode).parent, (⟨ra, rka⟩ : UFNode).rank + 1⟩ : UFNode)
          else ⟨ra, rka⟩) = ⟨ra, if rka = rkb then rka + 1 else rka⟩ from by
            dsimp only
            split <;> rfl]
        dsimp only
        rw [if_neg hrk]
      · intro p hp q hq
        obtain ⟨rp, hRp⟩ := hreach p hp
        obtain ⟨rq, hRq⟩ := hreach q hq
        rw [hj3 p rp q rq (htrans2 p rp hRp) (htrans2 q rq hRq)]
        rw [collapse_eq_iff hrarb]
        rw [sameRoot_iff_eq_roots hRp hRq, sameRoot_iff_eq_roots hRp hRa,
          sameRoot_iff_eq_roots hRb hRq, sameRoot_iff_eq_roots hRp hRb,
          sameRoot_iff_eq_roots hRa hRq]
        constructor
        · rintro (h | ⟨h1, h2⟩ | ⟨h1, h2⟩)
          · exact Or.inl h
          · exact Or.inr (Or.inl ⟨h1, h2.symm⟩)
          · exact Or.inr (Or.inr ⟨h1, h2.symm⟩)
        · rintro (h | ⟨h1, h2⟩ | ⟨h1, h2⟩)
          · exact Or.inl h
          · exact Or.inr (Or.inl ⟨h1, h2.symm⟩)
          · exact Or.inr (Or.inr ⟨h1, h2.symm⟩)
      · rw [← hRootsOf12]
        exact hcard3

/-! ### Connectivity through an edge set -/

/-- Two points are adjacent through the edge set `A`, in either
orientation (the wall-set convention of `util.rs::wall_between`). -/
def adjVia (A : Finset Edge) (p q : Point) : Prop := (p, q) ∈ A ∨ (q, p) ∈ A

/-- Connectivity through the edge set `A`: the reflexive-transitive
closure of adjacency. -/
def connVia (A : Finset Edge) : Point → Point → Prop :=
  Relation.ReflTransGen (adjVia A)

lemma adjVia_symm {A : Finset Edge} {p q : Point} (h : adjVia A p q) :
    adjVia A q p :=
  h.elim Or.inr Or.inl

lemma adjVia_mono {A B : Finset Edge} (hAB : A ⊆ B) {p q : Point}
    (h : adjVia A p q) : adjVia B p q :=
  h.elim (fun h1 => Or.inl (hAB h1)) (fun h1 => Or.inr (hAB h1))

lemma connVia_refl {A : Finset Edge} (p : Point) : connVia A p p :=
  Relation.ReflTransGen.refl

lemma connVia_single {A : Finset Edge} {p q : Point} (h : adjVia A p q) :
    connVia A p q :=
  Relation.ReflTransGen.single h

lemma connVia_trans {A : Finset Edge} {p q r : Point} (h1 : connVia A p q)
    (h2 : connVia A q r) : connVia A p r :=
  Relation.ReflTransGen.trans h1 h2

lemma connVia_symm {A : Finset Edge} {p q : Point} (h : connVia A p q) :
    connVia A q p := by
  induction h with
  | refl => exact connVia_refl p
  | tail _ hbc ih =>
    exact connVia_trans (connVia_single (adjVia_symm hbc)) ih

lemma connVia_mono {A B : Finset Edge} (hAB : A ⊆ B) {p q : Point}
    (h : connVia A p q) : connVia B p q := by
  induction h with
  | refl => exact connVia_refl p
  | tail _ hbc ih => exact Relation.ReflTransGen.tail ih (adjVia_mono hAB hbc)

lemma connVia_empty {p q : Point} : connVia (∅ : Finset Edge) p q ↔ p = q := by
  constructor
  · intro h
    induction h with
    | refl => rfl
    | tail _ hbc ih =>
      rcases hbc with hm | hm <;> exact absurd hm (Finset.not_mem_empty _)
  · rintro rfl
    exact connVia_refl p

/-- Split a walk through `insert e A` at its uses of the inserted edge. -/
lemma connVia_insert {A : Finset Edge} {e : Edge} {p q : Point}
    (h : connVia (insert e A) p q) :
    connVia A p q ∨
      (connVia A p e.1 ∧ connVia A e.2 q) ∨
      (connVia A p e.2 ∧ connVia A e.1 q) := by
  induction h with
  | refl => exact Or.inl (connVia_refl p)
  | tail _ hbc ih =>
    rename_i b c _
    have hstep : adjVia A b c ∨ (b = e.1 ∧ c = e.2) ∨ (b = e.2 ∧ c = e.1) := by
      rcases hbc with hm | hm
      · rcases Finset.mem_insert.mp hm with he | hA
        · exact Or.inr (Or.inl ⟨congrArg Prod.fst he, congrArg Prod.snd he⟩)
        · exact Or.inl (Or.inl hA)
      · rcases Finset.mem_insert.mp hm with he | hA
        · exact Or.inr (Or.inr ⟨congrArg Prod.snd he, congrArg Prod.fst he⟩)
        · exact Or.inl (Or.inr hA)
    rcases hstep with hadj | ⟨hb, hc⟩ | ⟨hb, hc⟩
    · rcases ih with h1 | ⟨h1, h2⟩ | ⟨h1, h2⟩
      · exact Or.inl (Relation.ReflTransGen.tail h1 hadj)
      · exact Or.inr (Or.inl ⟨h1, Relation.ReflTransGen.tail h2 hadj⟩)
      · exact Or.inr (Or.inr ⟨h1, Relation.ReflTransGen.tail h2 hadj⟩)
    · subst hb; subst hc
      rcases ih with h1 | ⟨h1, h2⟩ | ⟨h1, h2⟩
      · exact Or.inr (Or.inl ⟨h1, connVia_refl e.2⟩)
      · exact Or.inr (Or.inl ⟨h1, connVia_refl e.2⟩)
      · exact Or.inl h1
    · subst hb; subst hc
      rcases ih with h1 | ⟨h1, h2⟩ | ⟨h1, h2⟩
      · exact Or.inr (Or.inr ⟨h1, connVia_refl e.1⟩)
      · exact Or.inl h1
      · exact Or.inr (Or.inr ⟨h1, connVia_refl e.1⟩)

lemma connVia_insert_iff {A : Finset Edge} {e : Edge} {p q : Point} :
    connVia (insert e A) p q ↔
      (connVia A p q ∨
        (connVia A p e.1 ∧ connVia A e.2 q) ∨
        (connVia A p e.2 ∧ connVia A e.1 q)) := by
  have hsub : A ⊆ insert e A := Finset.subset_insert e A
  have hedge : connVia (insert e A) e.1 e.2 :=
    connVia_single (Or.inl (by rw [Finset.mem_insert]; exact Or.inl rfl))
  constructor
  · exact connVia_insert
  · rintro (h | ⟨h1, h2⟩ | ⟨h1, h2⟩)
    · exact connVia_mono hsub h
    · exact connVia_trans (connVia_mono hsub h1)
        (connVia_trans hedge (connVia_mono hsub h2))
    · exact connVia_trans (connVia_mono hsub h1)
        (connVia_trans (connVia_symm hedge) (connVia_mono hsub h2))

/-! ### SameRoot is an equivalence on reachable nodes -/

lemma sameRoot_symm {m : UFMap} {p q : Point} (h : SameRoot m p q) :
    SameRoot m q p := by
  obtain ⟨r, h1, h2⟩ := h
  exact ⟨r, h2, h1⟩

lemma sameRoot_trans {m : UFMap} {p q r : Point} (h1 : SameRoot m p q)
    (h2 : SameRoot m q r) : SameRoot m p r := by
  obtain ⟨s, hp, hq⟩ := h1
  obtain ⟨t, hq', hr⟩ := h2
  rw [reaches_det hq hq'] at hp
  exact ⟨t, hp, hr⟩

lemma sameRoot_refl_of_reach {m : UFMap} {p : Point}
    (h : ∃ r, Reaches m p r) : SameRoot m p p := by
  obtain ⟨r, hr⟩ := h
  exact ⟨r, hr, hr⟩

/-! ### The freshly initialised union-find graph -/

lemma graphNew_aux (L : List Point) :
    ∀ (m0 : UFMap) (p : Point),
      (L.foldl (fun m n => fun p => if p = n then some ⟨n, 0⟩ else m p) m0) p =
        if p ∈ L then some ⟨p, 0⟩ else m0 p := by
  induction L with
  | nil =>
    intro m0 p
    rw [List.foldl_nil, if_neg (List.not_mem_nil p)]
  | cons n L ih =>
    intro m0 p
    rw [List.foldl_cons, ih]
    by_cases hp : p ∈ L
    · rw [if_pos hp, if_pos (List.mem_cons_of_mem n hp)]
    · rw [if_neg hp]
      by_cases hpn : p = n
      · subst hpn
        rw [if_pos rfl, if_pos (List.mem_cons_self p L)]
      · rw [if_neg hpn, if_neg (fun hmem => by
          rcases List.mem_cons.mp hmem with h | h
          · exact hpn h
          · exact hp h)]

lemma graphNew_eq (L : List Point) (p : Point) :
    graphNew L p = if p ∈ L then some ⟨p, 0⟩ else none :=
  graphNew_aux L (fun _ => none) p

lemma graphNew_isRoot {L : List Point} {p : Point} (hp : p ∈ L) :
    IsRootP (graphNew L) p :=
  ⟨⟨p, 0⟩, by rw [graphNew_eq, if_pos hp], rfl⟩

lemma graphNew_sameRoot {L : List Point} {p q : Point} (hp : p ∈ L)
    (hq : q ∈ L) : SameRoot (graphNew L) p q ↔ p = q := by
  constructor
  · rintro ⟨r, hpr, hqr⟩
    rw [reaches_of_root (graphNew_isRoot hp) hpr] at hqr
    exact reaches_of_root (graphNew_isRoot hq) hqr
  · rintro rfl
    exact ⟨p, reaches_self (graphNew_isRoot hp), reaches_self (graphNew_isRoot hp)⟩

/-! ### The invariant carried through the Kruskal fold

`S` is the node set, `m` the union-find state, `A` the corridors
accepted so far and `walls` the rejected (cycle) edges. -/

structure KInv (S : Finset Point) (m : UFMap) (A walls : Finset Edge) : Prop where
  dom : ∀ q, (m q).isSome ↔ q ∈ S
  cl : ∀ q n, m q = some n → n.parent ∈ S
  reach : ∀ q ∈ S, ∃ rr, Reaches m q rr
  same : ∀ p ∈ S, ∀ q ∈ S, (SameRoot m p q ↔ connVia A p q)
  aS : ∀ e ∈ A, e.1 ∈ S ∧ e.2 ∈ S
  bridge : ∀ e ∈ A, ¬ connVia (A.erase e) e.1 e.2
  wallsSame : ∀ e ∈ walls, SameRoot m e.1 e.2
  wallsS : ∀ e ∈ walls, e.1 ∈ S ∧ e.2 ∈ S
  count : (RootsOf m S).card + A.card = S.card

/-- The invariant holds at the start of the fold. -/
lemma kinv_init (L : List Point) :
    KInv L.toFinset (graphNew L) ∅ ∅ := by
  refine ⟨?_, ?_, ?_, ?_, ?_, ?_, ?_, ?_, ?_⟩
  · intro q
    rw [graphNew_eq, List.mem_toFinset]
    by_cases hq : q ∈ L
    · simp [hq]
    · simp [hq]
  · intro q n hq
    rw [graphNew_eq] at hq
    by_cases hmem : q ∈ L
    · rw [if_pos hmem] at hq
      injection hq with hq
      rw [← hq, List.mem_toFinset]
      exact hmem
    · rw [if_neg hmem] at hq
      exact absurd hq (Option.noConfusion)
  · intro q hq
    exact ⟨q, reaches_self (graphNew_isRoot (List.mem_toFinset.mp hq))⟩
  · intro p hp q hq
    rw [graphNew_sameRoot (List.mem_toFinset.mp hp) (List.mem_toFinset.mp hq),
      connVia_empty]
  · intro e he
    exact absurd he (Finset.not_mem_empty e)
  · intro e he
    exact absurd he (Finset.not_mem_empty e)
  · intro e he
    exact absurd he (Finset.not_mem_empty e)
  · intro e he
    exact absurd he (Finset.not_mem_empty e)
  · have h1 : RootsOf (graphNew L) L.toFinset = L.toFinset := by
      apply Finset.ext
      intro x
      rw [mem_RootsOf]
      constructor
      · rintro ⟨hx, -⟩
        exact hx
      · intro hx
        exact ⟨hx, graphNew_isRoot (List.mem_toFinset.mp hx)⟩
    rw [h1, Finset.card_empty, Nat.add_zero]

/-- Walking the edge list preserves the invariant: each visited edge is
classified as a corridor (successful union, added to `A`) or a wall
(cycle, added to `walls`), and together they exhaust the visited edges. -/
lemma kruskalFold_spec {S : Finset Point} :
    ∀ (es : List Edge) (m : UFMap) (A walls : Finset Edge),
      KInv S m A walls →
      es.Nodup →
      (∀ e ∈ es, e.1 ∈ S ∧ e.2 ∈ S) →
      (∀ e ∈ es, e ∉ A ∧ e ∉ walls) →
      Disjoint A walls →
      ∃ m1 A1 walls1,
        kruskalFold (S.card + 1) es (m, walls) = some (m1, walls1) ∧
        KInv S m1 A1 walls1 ∧
        Disjoint A1 walls1 ∧
        A1 ∪ walls1 = (A ∪ walls) ∪ es.toFinset := by
  intro es
  induction es with
  | nil =>
    intro m A walls hinv _ _ _ hdisj
    exact ⟨m, A, walls, rfl, hinv, hdisj, by simp⟩
  | cons e es ih =>
    intro m A walls hinv hnd hes hnew hdisj
    obtain ⟨he1, he2⟩ := hes e (List.mem_cons_self e es)
    obtain ⟨heA, heW⟩ := hnew e (List.mem_cons_self e es)
    have heES : e ∉ es := (List.nodup_cons.mp hnd).1
    have hndes : es.Nodup := (List.nodup_cons.mp hnd).2
    have hes' : ∀ f ∈ es, f.1 ∈ S ∧ f.2 ∈ S :=
      fun f hf => hes f (List.mem_cons_of_mem e hf)
    obtain ⟨flag, m2, hunion, hdom2, hcl2, hreach2, hcase⟩ :=
      union_spec hinv.dom hinv.cl hinv.reach he1 he2
    rcases hcase with ⟨hflag, hsame_ab, hpres, hroots_eq⟩ |
        ⟨hflag, hnsame, hjoin, hcard⟩
    · -- the edge closes a cycle and becomes a wall
      subst hflag
      have hinv2 : KInv S m2 A (insert e walls) := by
        refine ⟨hdom2, hcl2, hreach2, ?_, hinv.aS, hinv.bridge, ?_, ?_, ?_⟩
        · intro p hp q hq
          rw [hpres p q]
          exact hinv.same p hp q hq
        · intro f hf
          rcases Finset.mem_insert.mp hf with rfl | hf
          · exact (hpres f.1 f.2).mpr hsame_ab
          · exact (hpres f.1 f.2).mpr (hinv.wallsSame f hf)
        · intro f hf
          rcases Finset.mem_insert.mp hf with rfl | hf
          · exact ⟨he1, he2⟩
          · exact hinv.wallsS f hf
        · rw [hroots_eq]
          exact hinv.count
      have hnew' : ∀ f ∈ es, f ∉ A ∧ f ∉ insert e walls := by
        intro f hf
        obtain ⟨hfA, hfW⟩ := hnew f (List.mem_cons_of_mem e hf)
        refine ⟨hfA, fun hmem => ?_⟩
        rcases Finset.mem_insert.mp hmem with h | h
        · exact heES (h ▸ hf)
        · exact hfW h
      have hdisj' : Disjoint A (insert e walls) :=
        Finset.disjoint_insert_right.mpr ⟨heA, hdisj⟩
      obtain ⟨m1, A1, walls1, hfold, hinv1, hdisj1, hun1⟩ :=
        ih m2 A (insert e walls) hinv2 hndes hes' hnew' hdisj'
      refine ⟨m1, A1, walls1, ?_, hinv1, hdisj1, ?_⟩
      · simp only [kruskalFold]
        simp only [hunion]
        rw [if_neg Bool.false_ne_true]
        exact hfold
      · rw [hun1, List.toFinset_cons]
        apply Finset.ext
        intro x
        simp only [Finset.mem_union, Finset.mem_insert]
        tauto
    · -- the edge joins two components and becomes a corridor
      subst hflag
      have hnconn : ¬ connVia A e.1 e.2 :=
        fun hc => hnsame ((hinv.same e.1 he1 e.2 he2).mpr hc)
      have hinv2 : KInv S m2 (insert e A) walls := by
        refine ⟨hdom2, hcl2, hreach2, ?_, ?_, ?_, ?_, hinv.wallsS, ?_⟩
        · intro p hp q hq
          rw [hjoin p hp q hq, connVia_insert_iff, hinv.same p hp q hq,
            hinv.same p hp e.1 he1, hinv.same e.2 he2 q hq,
            hinv.same p hp e.2 he2, hinv.same e.1 he1 q hq]
        · intro f hf
          rcases Finset.mem_insert.mp hf with rfl | hf
          · exact ⟨he1, he2⟩
          · exact hinv.aS f hf
        · intro f hf
          rcases Finset.mem_insert.mp hf with rfl | hf
          · rw [Finset.erase_insert heA]
            exact hnconn
          · have hfe : f ≠ e := fun hfe => heA (hfe ▸ hf)
            rw [Finset.erase_insert_of_ne (fun hef => hfe hef.symm)]
            intro hconn
            have hsub : A.erase f ⊆ A := Finset.erase_subset f A
            rcases connVia_insert hconn with h | ⟨h1, h2⟩ | ⟨h1, h2⟩
            · exact hinv.bridge f hf h
            · exact hnconn (connVia_trans (connVia_symm (connVia_mono hsub h1))
                (connVia_trans (connVia_single (Or.inl hf))
                  (connVia_symm (connVia_mono hsub h2))))
            · exact hnconn (connVia_trans (connVia_mono hsub h2)
                (connVia_trans (connVia_symm (connVia_single (Or.inl hf)))
                  (connVia_mono hsub h1)))
        · intro f hf
          obtain ⟨hf1, hf2⟩ := hinv.wallsS f hf
          exact (hjoin f.1 hf1 f.2 hf2).mpr (Or.inl (hinv.wallsSame f hf))
        · have h0 := hinv.count
          rw [Finset.card_insert_of_not_mem heA]
          omega
      have hnew' : ∀ f ∈ es, f ∉ insert e A ∧ f ∉ walls := by
        intro f hf
        obtain ⟨hfA, hfW⟩ := hnew f (List.mem_cons_of_mem e hf)
        refine ⟨fun hmem => ?_, hfW⟩
        rcases Finset.mem_insert.mp hmem with h | h
        · exact heES (h ▸ hf)
        · exact hfA h
      have hdisj' : Disjoint (insert e A) walls :=
        Finset.disjoint_insert_left.mpr ⟨heW, hdisj⟩
      obtain ⟨m1, A1, walls1, hfold, hinv1, hdisj1, hun1⟩ :=
        ih m2 (insert e A) walls hinv2 hndes hes' hnew' hdisj'
      refine ⟨m1, A1, walls1, ?_, hinv1, hdisj1, ?_⟩
      · simp only [kruskalFold]
        simp only [hunion]
        rw [if_pos trivial]
        exact hfold
      · rw [hun1, List.toFinset_cons]
        apply Finset.ext
        intro x
        simp only [Finset.mem_union, Finset.mem_insert]
        tauto

/-! ### Grid enumeration lemmas -/

lemma mem_gridNodesList {width height : Int} {p : Point} :
    p ∈ gridNodesList width height ↔
      0 ≤ p.1 ∧ p.1 < width ∧ 0 ≤ p.2 ∧ p.2 < height := by
  unfold gridNodesList
  rw [List.mem_flatMap]
  constructor
  · rintro ⟨x, hx, hmem⟩
    rw [List.mem_map] at hmem
    obtain ⟨y, hy, rfl⟩ := hmem
    rw [List.mem_range] at hx hy
    exact ⟨Int.natCast_nonneg x, by omega, Int.natCast_nonneg y, by omega⟩
  · rintro ⟨h1, h2, h3, h4⟩
    refine ⟨p.1.toNat, by rw [List.mem_range]; omega, ?_⟩
    rw [List.mem_map]
    refine ⟨p.2.toNat, by rw [List.mem_range]; omega, ?_⟩
    rw [Int.toNat_of_nonneg h1, Int.toNat_of_nonneg h3]

lemma mem_succ_neighbours {width height : Int} {p q : Point} :
    q ∈ succ_neighbours p width height ↔
      (p.1 + 1 < width ∧ q = (p.1 + 1, p.2)) ∨
        (p.2 + 1 < height ∧ q = (p.1, p.2 + 1)) := by
  by_cases h1 : p.1 + 1 < width <;> by_cases h2 : p.2 + 1 < height <;>
    simp [succ_neighbours, h1, h2]

lemma gridNodesList_nodup (width height : Int) :
    (gridNodesList width height).Nodup := by
  unfold gridNodesList
  rw [List.nodup_flatMap]
  constructor
  · intro x hx
    apply List.Nodup.map
    · intro y1 y2 h
      exact Int.natCast_inj.mp (congrArg Prod.snd h)
    · exact List.nodup_range _
  · refine List.Pairwise.imp ?_ (List.nodup_range _)
    intro a b hab p hp1 hp2
    rw [List.mem_map] at hp1 hp2
    obtain ⟨y1, _, rfl⟩ := hp1
    obtain ⟨y2, _, h⟩ := hp2
    exact hab (Int.natCast_inj.mp (congrArg Prod.fst h)).symm

lemma sum_const_range (c : ℕ) : ∀ n, ((List.range n).map fun _ => c).sum = n * c := by
  intro n
  induction n with
  | zero => simp
  | succ n ih =>
    rw [List.range_succ, List.map_append, List.sum_append, ih]
    simp [Nat.succ_mul]

lemma gridNodesList_length (width height : Int) :
    (gridNodesList width height).length = width.toNat * height.toNat := by
  unfold gridNodesList
  rw [List.length_flatMap]
  simp only [Function.comp_def]
  have h1 : ((List.range width.toNat).map fun x =>
      ((List.range height.toNat).map fun y => (((x : ℕ) : Int), ((y : ℕ) : Int))).length) =
      (List.range width.toNat).map fun _ => height.toNat := by
    apply List.map_congr_left
    intro x _
    rw [List.length_map, List.length_range]
  rw [h1, sum_const_range]

lemma mem_canonicalEdges {width height : Int} {e : Edge} :
    e ∈ canonicalEdges width height ↔
      e.1 ∈ gridNodesList width height ∧
        e.2 ∈ succ_neighbours e.1 width height := by
  unfold canonicalEdges
  rw [List.mem_flatMap]
  constructor
  · rintro ⟨node, hn, hmem⟩
    rw [List.mem_map] at hmem
    obtain ⟨nb, hnb, rfl⟩ := hmem
    exact ⟨hn, hnb⟩
  · rintro ⟨h1, h2⟩
    exact ⟨e.1, h1, List.mem_map.mpr ⟨e.2, h2, rfl⟩⟩

lemma canonicalEdges_endpoints {width height : Int} {e : Edge}
    (he : e ∈ canonicalEdges width height) :
    e.1 ∈ gridNodesList width height ∧ e.2 ∈ gridNodesList width height := by
  obtain ⟨h1, h2⟩ := mem_canonicalEdges.mp he
  refine ⟨h1, ?_⟩
  obtain ⟨hb1, hb2, hb3, hb4⟩ := mem_gridNodesList.mp h1
  rcases mem_succ_neighbours.mp h2 with ⟨hc, he2⟩ | ⟨hc, he2⟩ <;>
    rw [he2, mem_gridNodesList] <;> dsimp only <;> omega

lemma canonicalEdges_nodup (width height : Int) :
    (canonicalEdges width height).Nodup := by
  unfold canonicalEdges
  rw [List.nodup_flatMap]
  constructor
  · intro node hn
    apply List.Nodup.map
    · intro a b h
      exact congrArg Prod.snd h
    · unfold succ_neighbours
      by_cases h1 : node.1 + 1 < width <;> by_cases h2 : node.2 + 1 < height <;>
        simp [h1, h2, Prod.ext_iff] <;> omega
  · refine List.Pairwise.imp ?_ (gridNodesList_nodup width height)
    intro a b hab p hp1 hp2
    rw [List.mem_map] at hp1 hp2
    obtain ⟨n1, _, rfl⟩ := hp1
    obtain ⟨n2, _, h⟩ := hp2
    exact hab (congrArg Prod.fst h).symm

lemma succ_neighbours_length {width height : Int} (p : Point) :
    (succ_neighbours p width height).length =
      (if p.1 + 1 < width then 1 else 0) + (if p.2 + 1 < height then 1 else 0) := by
  by_cases h1 : p.1 + 1 < width <;> by_cases h2 : p.2 + 1 < height <;>
    simp [succ_neighbours, h1, h2]

lemma sum_map_add_nat (f g : ℕ → ℕ) :
    ∀ l : List ℕ, (l.map fun y => f y + g y).sum = (l.map f).sum + (l.map g).sum := by
  intro l
  induction l with
  | nil => rfl
  | cons a l ih =>
    rw [List.map_cons, List.map_cons, List.map_cons, List.sum_cons, List.sum_cons,
      List.sum_cons, ih]
    omega

lemma sum_range_ind (c : ℕ) : ∀ n : ℕ,
    ((List.range n).map fun y => if y + 1 < n then c else 0).sum = (n - 1) * c := by
  intro n
  cases n with
  | zero => simp
  | succ n =>
    rw [List.range_succ, List.map_append, List.sum_append]
    have h1 : ((List.range n).map fun y => if y + 1 < n + 1 then c else 0) =
        (List.range n).map fun _ => c := by
      apply List.map_congr_left
      intro y hy
      rw [List.mem_range] at hy
      rw [if_pos (by omega)]
    rw [h1, sum_const_range]
    simp

lemma sum_flatMap_nat {α : Type} (f : α → List ℕ) :
    ∀ l : List α, (l.flatMap f).sum = (l.map fun a => (f a).sum).sum := by
  intro l
  induction l with
  | nil => rfl
  | cons a l ih =>
    rw [List.flatMap_cons, List.sum_append, List.map_cons, List.sum_cons, ih]

lemma canonicalEdges_length {width height : Int} (hw : 1 ≤ width) (hh : 1 ≤ height) :
    (canonicalEdges width height).length =
      (width.toNat - 1) * height.toNat + (height.toNat - 1) * width.toNat := by
  unfold canonicalEdges gridNodesList
  rw [List.length_flatMap]
  simp only [Function.comp_def]
  rw [List.map_flatMap, sum_flatMap_nat]
  have hinner : ∀ x ∈ List.range width.toNat,
      ((((List.range height.toNat).map fun y => (((x : ℕ) : Int), ((y : ℕ) : Int))).map
          fun node => ((succ_neighbours node width height).map fun nbour =>
            (node, nbour)).length).sum) =
        (if x + 1 < width.toNat then height.toNat else 0) + (height.toNat - 1) := by
    intro x hx
    rw [List.map_map]
    have h1 : (((List.range height.toNat)).map
        ((fun node => ((succ_neighbours node width height).map fun nbour =>
          (node, nbour)).length) ∘ fun y => (((x : ℕ) : Int), ((y : ℕ) : Int)))) =
        (List.range height.toNat).map fun y =>
          (if x + 1 < width.toNat then 1 else 0) + (if y + 1 < height.toNat then 1 else 0) := by
      apply List.map_congr_left
      intro y hy
      rw [List.mem_range] at hy
      show ((succ_neighbours ((x : Int), (y : Int)) width height).map fun nbour =>
        ((((x : ℕ) : Int), ((y : ℕ) : Int)), nbour)).length = _
      rw [List.length_map, succ_neighbours_length]
      dsimp only
      have e1 : ((x : Int) + 1 < width) ↔ (x + 1 < width.toNat) := by omega
      have e2 : ((y : Int) + 1 < height) ↔ (y + 1 < height.toNat) := by omega
      by_cases hc1 : x + 1 < width.toNat <;> by_cases hc2 : y + 1 < height.toNat <;>
        simp [e1, e2, hc1, hc2]
    rw [h1, sum_map_add_nat (fun _ => if x + 1 < width.toNat then 1 else 0)
      (fun y => if y + 1 < height.toNat then 1 else 0), sum_const_range, sum_range_ind]
    by_cases hc1 : x + 1 < width.toNat <;> simp [hc1] <;> omega
  rw [List.map_congr_left hinner,
    sum_map_add_nat (fun x => if x + 1 < width.toNat then height.toNat else 0)
      (fun _ => height.toNat - 1),
    sum_range_ind, sum_const_range]
  ring_nf

/-! ### The canonical edge set connects the whole grid -/

lemma grid_connected_aux {width height : Int} :
    ∀ n : Nat, ∀ p : Point, p ∈ gridNodesList width height →
      (p.1 + p.2).toNat = n →
      connVia (canonicalEdges width height).toFinset ((0 : Int), (0 : Int)) p := by
  intro n
  induction n using Nat.strong_induction_on with
  | _ n ih =>
    intro p hp hn
    obtain ⟨h1, h2, h3, h4⟩ := mem_gridNodesList.mp hp
    by_cases hx : 0 < p.1
    · have hq : ((p.1 - 1, p.2) : Point) ∈ gridNodesList width height := by
        rw [mem_gridNodesList]
        dsimp only
        omega
      have hedge : (((p.1 - 1, p.2) : Point), p) ∈
          (canonicalEdges width height).toFinset := by
        rw [List.mem_toFinset, mem_canonicalEdges]
        refine ⟨hq, ?_⟩
        rw [mem_succ_neighbours]
        left
        dsimp only
        refine ⟨by omega, ?_⟩
        apply Prod.ext <;> dsimp only <;> omega
      have hconn := ih (p.1 - 1 + p.2).toNat (by omega) (p.1 - 1, p.2) hq rfl
      exact Relation.ReflTransGen.tail hconn (Or.inl hedge)
    · by_cases hy : 0 < p.2
      · have hq : ((p.1, p.2 - 1) : Point) ∈ gridNodesList width height := by
          rw [mem_gridNodesList]
          dsimp only
          omega
        have hedge : (((p.1, p.2 - 1) : Point), p) ∈
            (canonicalEdges width height).toFinset := by
          rw [List.mem_toFinset, mem_canonicalEdges]
          refine ⟨hq, ?_⟩
          rw [mem_succ_neighbours]
          right
          dsimp only
          refine ⟨by omega, ?_⟩
          apply Prod.ext <;> dsimp only <;> omega
        have hconn := ih (p.1 + (p.2 - 1)).toNat (by omega) (p.1, p.2 - 1) hq rfl
        exact Relation.ReflTransGen.tail hconn (Or.inl hedge)
      · have hp0 : p = ((0 : Int), (0 : Int)) := Prod.ext (by omega) (by omega)
        rw [hp0]
        exact connVia_refl _

lemma grid_connected {width height : Int} {p q : Point}
    (hp : p ∈ gridNodesList width height)
    (hq : q ∈ gridNodesList width height) :
    connVia (canonicalEdges width height).toFinset p q :=
  connVia_trans (connVia_symm (grid_connected_aux _ p hp rfl))
    (grid_connected_aux _ q hq rfl)

/-- If every edge of `B` joins nodes with a common representative, any
`B`-walk stays inside one representative class. -/
lemma sameRoot_of_connVia {S : Finset Point} {m : UFMap} {B : Finset Edge}
    (hreach : ∀ q ∈ S, ∃ rr, Reaches m q rr)
    (hedges : ∀ e ∈ B, SameRoot m e.1 e.2)
    {p q : Point} (hp : p ∈ S) (h : connVia B p q) :
    SameRoot m p q := by
  induction h with
  | refl => exact sameRoot_refl_of_reach (hreach p hp)
  | tail _ hbc ih =>
    refine sameRoot_trans ih ?_
    rcases hbc with hm | hm
    · exact hedges _ hm
    · exact sameRoot_symm (hedges _ hm)

set_option maxRecDepth 10000 in
/-- Claim C1 (corrected): for every width ≥ 1, height ≥ 1 whose i32
edge-capacity computation does not overflow ((W−1)·H + (H−1)·W < 2³¹ —
at 65536×65536 it wraps negative and `with_capacity` aborts instead)
and every order in which the grid-adjacency edges are visited,
`generate_edges` succeeds and returns a wall set with
|walls| = ((W-1)·H + (H-1)·W) − (W·H − 1); its complement in the
canonical edge set — the corridors, i.e. exactly W·H − 1 successful
unions — connects every pair of grid cells, and every corridor is a
bridge (so the complement is acyclic): a spanning tree. -/
theorem claim_C1 (width height : Int) (hw : 1 ≤ width) (hh : 1 ≤ height)
    (hcap : (width - 1) * height + (height - 1) * width < 2 ^ 31)
    (es : List Edge) (hperm : es.Perm (canonicalEdges width height)) :
    ∃ walls : Finset Edge,
      generate_edges width height es = some (walls, ∅) ∧
      walls ⊆ (canonicalEdges width height).toFinset ∧
      (walls.card : Int) =
        ((width - 1) * height + (height - 1) * width) - (width * height - 1) ∧
      (((canonicalEdges width height).toFinset \ walls).card : Int) =
        width * height - 1 ∧
      (∀ p ∈ gridNodesList width height, ∀ q ∈ gridNodesList width height,
        connVia ((canonicalEdges width height).toFinset \ walls) p q) ∧
      (∀ e ∈ (canonicalEdges width height).toFinset \ walls,
        ¬ connVia (((canonicalEdges width height).toFinset \ walls).erase e)
          e.1 e.2) := by
  have hwn : (width.toNat : Int) = width := Int.toNat_of_nonneg (by omega)
  have hhn : (height.toNat : Int) = height := Int.toNat_of_nonneg (by omega)
  have hw1 : 1 ≤ width.toNat := by omega
  have hh1 : 1 ≤ height.toNat := by omega
  have hLnodup := gridNodesList_nodup width height
  have hScard : (gridNodesList width height).toFinset.card =
      width.toNat * height.toNat := by
    rw [List.toFinset_card_of_nodup hLnodup, gridNodesList_length]
  have hesnodup : es.Nodup :=
    (hperm.nodup_iff).mpr (canonicalEdges_nodup width height)
  have hes : ∀ e ∈ es, e.1 ∈ (gridNodesList width height).toFinset ∧
      e.2 ∈ (gridNodesList width height).toFinset := by
    intro e he
    obtain ⟨ha, hb⟩ := canonicalEdges_endpoints (hperm.mem_iff.mp he)
    exact ⟨List.mem_toFinset.mpr ha, List.mem_toFinset.mpr hb⟩
  obtain ⟨m1, A1, walls1, hfold, hinv1, hdisj1, hun1⟩ :=
    kruskalFold_spec es (graphNew (gridNodesList width height)) ∅ ∅
      (kinv_init (gridNodesList width height)) hesnodup hes
      (fun e _ => ⟨Finset.not_mem_empty e, Finset.not_mem_empty e⟩)
      (Finset.disjoint_empty_left ∅)
  rw [hScard] at hfold
  have htFeq : es.toFinset = (canonicalEdges width height).toFinset := by
    apply Finset.ext
    intro x
    rw [List.mem_toFinset, List.mem_toFinset]
    exact hperm.mem_iff
  have hunion_eq : A1 ∪ walls1 = (canonicalEdges width height).toFinset := by
    rw [hun1, htFeq]
    simp
  have hA1eq : A1 = (canonicalEdges width height).toFinset \ walls1 := by
    apply Finset.ext
    intro x
    rw [Finset.mem_sdiff, ← hunion_eq, Finset.mem_union]
    constructor
    · intro hx
      exact ⟨Or.inl hx, Finset.disjoint_left.mp hdisj1 hx⟩
    · rintro ⟨hor, hnw⟩
      rcases hor with h | h
      · exact h
      · exact absurd h hnw
  have hwsub : walls1 ⊆ (canonicalEdges width height).toFinset := by
    intro x hx
    rw [← hunion_eq]
    exact Finset.mem_union_right A1 hx
  have hceSame : ∀ e ∈ (canonicalEdges width height).toFinset,
      SameRoot m1 e.1 e.2 := by
    intro e he
    rw [← hunion_eq, Finset.mem_union] at he
    rcases he with h | h
    · exact (hinv1.same e.1 (hinv1.aS e h).1 e.2 (hinv1.aS e h).2).mpr
        (connVia_single (Or.inl h))
    · exact hinv1.wallsSame e h
  have hallSame : ∀ p ∈ (gridNodesList width height).toFinset,
      ∀ q ∈ (gridNodesList width height).toFinset, SameRoot m1 p q := by
    intro p hp q hq
    exact sameRoot_of_connVia hinv1.reach hceSame hp
      (grid_connected (List.mem_toFinset.mp hp) (List.mem_toFinset.mp hq))
  have hconnA1 : ∀ p ∈ gridNodesList width height,
      ∀ q ∈ gridNodesList width height, connVia A1 p q := by
    intro p hp q hq
    exact (hinv1.same p (List.mem_toFinset.mpr hp) q
      (List.mem_toFinset.mpr hq)).mp
      (hallSame p (List.mem_toFinset.mpr hp) q (List.mem_toFinset.mpr hq))
  have h00 : ((0 : Int), (0 : Int)) ∈ gridNodesList width height := by
    rw [mem_gridNodesList]
    dsimp only
    omega
  have h00S : ((0 : Int), (0 : Int)) ∈ (gridNodesList width height).toFinset :=
    List.mem_toFinset.mpr h00
  obtain ⟨r0, hr0⟩ := hinv1.reach _ h00S
  have hr0root : IsRootP m1 r0 := reaches_isRoot hr0
  have hr0S : r0 ∈ (gridNodesList width height).toFinset := by
    obtain ⟨n, hn, -⟩ := hr0root
    exact (hinv1.dom r0).mp (by rw [hn]; rfl)
  have hroots1 : RootsOf m1 (gridNodesList width height).toFinset = {r0} := by
    apply Finset.ext
    intro x
    rw [mem_RootsOf, Finset.mem_singleton]
    constructor
    · rintro ⟨hxS, hxroot⟩
      obtain ⟨r, hx_r, h00_r⟩ := hallSame x hxS _ h00S
      exact (reaches_of_root hxroot hx_r) ▸ (reaches_det h00_r hr0)
    · rintro rfl
      exact ⟨hr0S, hr0root⟩
  have hA1card : A1.card = width.toNat * height.toNat - 1 := by
    have hc := hinv1.count
    rw [hroots1, Finset.card_singleton, hScard] at hc
    omega
  have hcecard : (canonicalEdges width height).toFinset.card =
      (width.toNat - 1) * height.toNat + (height.toNat - 1) * width.toNat := by
    rw [List.toFinset_card_of_nodup (canonicalEdges_nodup width height),
      canonicalEdges_length hw hh]
  have hsplit : A1.card + walls1.card =
      (width.toNat - 1) * height.toNat + (height.toNat - 1) * width.toNat := by
    rw [← hcecard, ← hunion_eq, Finset.card_union_of_disjoint hdisj1]
  have hzA : (A1.card : Int) = width * height - 1 := by
    rw [hA1card, Nat.cast_sub (by nlinarith), Nat.cast_mul, hwn, hhn, Nat.cast_one]
  have hzsplit : (A1.card : Int) + (walls1.card : Int) =
      (width - 1) * height + (height - 1) * width := by
    have hz := congrArg (Nat.cast : ℕ → ℤ) hsplit
    rw [Nat.cast_add, Nat.cast_add, Nat.cast_mul, Nat.cast_mul,
      Nat.cast_sub hw1, Nat.cast_sub hh1, Nat.cast_one, hwn, hhn] at hz
    exact hz
  have ha0 : 0 ≤ (width - 1) * height := mul_nonneg (by omega) (by omega)
  have hb0 : 0 ≤ (height - 1) * width := mul_nonneg (by omega) (by omega)
  have ha1 : width - 1 ≤ (width - 1) * height := le_mul_of_one_le_right (by omega) hh
  have hb1 : height - 1 ≤ (height - 1) * width := le_mul_of_one_le_right (by omega) hw
  have hcapEq : wrap32 (wrap32 (wrap32 (width - 1) * height) +
      wrap32 (wrap32 (height - 1) * width)) =
      (width - 1) * height + (height - 1) * width := by
    rw [@wrap32_eq_self (width - 1) (by linarith) (by linarith),
      @wrap32_eq_self ((width - 1) * height) (by linarith) (by linarith),
      @wrap32_eq_self (height - 1) (by linarith) (by linarith),
      @wrap32_eq_self ((height - 1) * width) (by linarith) (by linarith),
      @wrap32_eq_self ((width - 1) * height + (height - 1) * width)
        (by linarith) (by linarith)]
  have hgen : generate_edges width height es = some (walls1, ∅) := by
    unfold generate_edges ufFuel
    rw [hcapEq, if_neg (not_lt.mpr (by linarith)), hfold]
    rfl
  refine ⟨walls1, hgen, hwsub, ?_, ?_, ?_, ?_⟩
  · linarith [hzA, hzsplit]
  · rw [← hA1eq]
    exact hzA
  · rw [← hA1eq]
    exact hconnA1
  · rw [← hA1eq]
    exact hinv1.bridge

/-- Witness for C1 at width 2, height 2 with the canonical visitation
order. -/
theorem claim_C1_witness :
    ∃ walls : Finset Edge,
      generate_edges 2 2 (canonicalEdges 2 2) = some (walls, ∅) ∧
      walls ⊆ (canonicalEdges 2 2).toFinset ∧
      (walls.card : Int) = ((2 - 1) * 2 + (2 - 1) * 2) - (2 * 2 - 1) ∧
      (((canonicalEdges 2 2).toFinset \ walls).card : Int) = 2 * 2 - 1 ∧
      (∀ p ∈ gridNodesList 2 2, ∀ q ∈ gridNodesList 2 2,
        connVia ((canonicalEdges 2 2).toFinset \ walls) p q) ∧
      (∀ e ∈ (canonicalEdges 2 2).toFinset \ walls,
        ¬ connVia (((canonicalEdges 2 2).toFinset \ walls).erase e)
          e.1 e.2) :=
  claim_C1 2 2 (by decide) (by decide) (by decide) (canonicalEdges 2 2)
    (List.Perm.refl _)

/-- Claim C1 refuted at overflow scale: at width = height = 65536 the
i32 capacity computation (W−1)·H + (H−1)·W wraps to a negative value,
`Vec::with_capacity` aborts, and `generate_edges` produces no wall set
at all — for every visitation order. -/
theorem claim_C1_counterexample :
    (1 : Int) ≤ 65536 ∧ ∀ es : List Edge, generate_edges 65536 65536 es = none := by
  refine ⟨by norm_num, fun es => ?_⟩
  unfold generate_edges
  rw [if_pos (by decide)]

/-! ## The returned path: closed-list bookkeeping (claims C4, C5, C8) -/

lemma closedFind_isSome_iff {cl : List AStarNode} {p : Point} :
    (closedFind cl p).isSome ↔ p ∈ cl.map AStarNode.xy := by
  rw [closedFind, List.find?_isSome]
  constructor
  · rintro ⟨n, hn, hp⟩
    rw [List.mem_map]
    exact ⟨n, hn, of_decide_eq_true hp⟩
  · intro hp
    rw [List.mem_map] at hp
    obtain ⟨n, hn, hp⟩ := hp
    exact ⟨n, hn, decide_eq_true hp⟩

lemma closedFind_eq_some {cl : List AStarNode} {p : Point} {n : AStarNode}
    (h : closedFind cl p = some n) : n ∈ cl ∧ n.xy = p := by
  rw [closedFind] at h
  have h2 := @List.find?_some AStarNode (fun m => decide (m.xy = p)) n cl h
  exact ⟨List.mem_of_find?_eq_some h, of_decide_eq_true h2⟩

lemma closed_key_unique {cl : List AStarNode}
    (h : (cl.map AStarNode.xy).Nodup) {a b : AStarNode} (ha : a ∈ cl)
    (hb : b ∈ cl) (hxy : a.xy = b.xy) : a = b :=
  List.inj_on_of_nodup_map h ha hb hxy

lemma mem_all_neighbours {width height : Int} {p q : Point} :
    q ∈ all_neighbours p width height ↔
      (p.1 + 1 < width ∧ q = (p.1 + 1, p.2)) ∨
      (p.2 + 1 < height ∧ q = (p.1, p.2 + 1)) ∨
      (0 < p.1 ∧ q = (p.1 - 1, p.2)) ∨
      (0 < p.2 ∧ q = (p.1, p.2 - 1)) := by
  unfold all_neighbours
  rw [List.mem_append, mem_succ_neighbours, List.mem_append]
  by_cases h3 : 0 < p.1 <;> by_cases h4 : 0 < p.2 <;>
    simp [h3, h4] <;> tauto

lemma all_neighbours_spec {width height : Int} {p q : Point}
    (hq : q ∈ all_neighbours p width height)
    (hp : ¬ out_of_bounds p width height) :
    IsUnitVec (edgeDiff (p, q)) ∧ ¬ out_of_bounds q width height := by
  rw [out_of_bounds] at hp
  push_neg at hp
  rcases mem_all_neighbours.mp hq with ⟨hc, rfl⟩ | ⟨hc, rfl⟩ | ⟨hc, rfl⟩ | ⟨hc, rfl⟩ <;>
    constructor <;>
    simp [edgeDiff, IsUnitVec, out_of_bounds, Prod.ext_iff] <;>
    omega

lemma fwdChain_snoc {e : Edge} :
    ∀ (l : List Edge) (a b : Point), FwdChain a l b → e.1 = b →
      FwdChain a (l ++ [e]) e.2 := by
  intro l
  induction l with
  | nil =>
    intro a b h he
    rw [FwdChain] at h
    subst h
    exact ⟨he, rfl⟩
  | cons f l ih =>
    intro a b h he
    obtain ⟨hf, hrest⟩ := h
    exact ⟨hf, ih _ _ hrest he⟩

lemma fwdChain_manhattan_le :
    ∀ (l : List Edge) (a b : Point), FwdChain a l b →
      (∀ e ∈ l, IsUnitVec (edgeDiff e)) →
      (b.1 - a.1).natAbs + (b.2 - a.2).natAbs ≤ l.length := by
  intro l
  induction l with
  | nil =>
    intro a b h _
    rw [FwdChain] at h
    subst h
    simp
  | cons e l ih =>
    intro a b h hu
    obtain ⟨he, hrest⟩ := h
    have h1 := ih e.2 b hrest (fun f hf => hu f (List.mem_cons_of_mem e hf))
    have h2 := hu e (List.mem_cons_self e l)
    rw [List.length_cons]
    unfold IsUnitVec at h2
    have ha1 : e.1.1 = a.1 := congrArg Prod.fst he
    have ha2 : e.1.2 = a.2 := congrArg Prod.snd he
    rcases h2 with h2 | h2 | h2 | h2 <;>
      (have hx := congrArg Prod.fst h2
       have hy := congrArg Prod.snd h2
       simp only [edgeDiff] at hx hy
       omega)

lemma fwdChain_parity :
    ∀ (l : List Edge) (a b : Point), FwdChain a l b →
      (∀ e ∈ l, IsUnitVec (edgeDiff e)) →
      (l.length : Int) % 2 = (b.1 + b.2 - a.1 - a.2) % 2 := by
  intro l
  induction l with
  | nil =>
    intro a b h _
    rw [FwdChain] at h
    subst h
    simp
  | cons e l ih =>
    intro a b h hu
    obtain ⟨he, hrest⟩ := h
    have h1 := ih e.2 b hrest (fun f hf => hu f (List.mem_cons_of_mem e hf))
    have h2 := hu e (List.mem_cons_self e l)
    rw [List.length_cons]
    unfold IsUnitVec at h2
    have ha1 : e.1.1 = a.1 := congrArg Prod.fst he
    have ha2 : e.1.2 = a.2 := congrArg Prod.snd he
    push_cast
    rcases h2 with h2 | h2 | h2 | h2 <;>
      (have hx := congrArg Prod.fst h2
       have hy := congrArg Prod.snd h2
       simp only [edgeDiff] at hx hy
       omega)

/-- The per-node facts recorded when a search node is created: its
parent edge is a unit step inside the grid that crosses no wall. -/
def EdgeOkN (walls : Finset Edge) (width height : Int) (n : AStarNode) : Prop :=
  IsUnitVec (edgeDiff (n.parent, n.xy)) ∧
  ¬ wall_between walls n.parent n.xy ∧
  ¬ out_of_bounds n.xy width height ∧
  ¬ out_of_bounds n.parent width height

/-- Every node of the closed list (most recent first) other than the
start refers to a strictly older closed node as its parent. -/
def ParentsOlder : List AStarNode → Prop
  | [] => True
  | c :: rest =>
    (c.xy ≠ ((0 : Int), (0 : Int)) → ∃ m ∈ rest, m.xy = c.parent) ∧
      ParentsOlder rest

lemma parentsOlder_suffix :
    ∀ (pre : List AStarNode) {cl suf : List AStarNode} {c : AStarNode},
      ParentsOlder cl → cl = pre ++ c :: suf →
      c.xy ≠ ((0 : Int), (0 : Int)) → ∃ m ∈ suf, m.xy = c.parent := by
  intro pre
  induction pre with
  | nil =>
    intro cl suf c h hcl hc
    subst hcl
    exact h.1 hc
  | cons d pre ih =>
    intro cl suf c h hcl hc
    subst hcl
    exact ih h.2 rfl hc

/-- Correctness of `trace_path` over a well-formed closed list: a
successful trace from a node at suffix `suf` of the closed list yields a
goal-to-origin edge list whose reverse chains from the origin, whose
edges are legal unit steps, and whose cells never repeat. -/
lemma trace_path_spec {walls : Finset Edge} {width height : Int}
    {cl : List AStarNode}
    (hkeys : (cl.map AStarNode.xy).Nodup)
    (hpo : ParentsOlder cl)
    (hedge : ∀ n ∈ cl, n.xy ≠ ((0 : Int), (0 : Int)) →
      EdgeOkN walls width height n) :
    ∀ (N : Nat) (suf : List AStarNode), suf.length ≤ N →
      ∀ (fuel : Nat) (cur : AStarNode) (pre : List AStarNode) (path : List Edge),
      cl = pre ++ cur :: suf →
      cur.xy ≠ ((0 : Int), (0 : Int)) →
      trace_path fuel cur cl = some path →
      FwdChain ((0 : Int), (0 : Int)) path.reverse cur.xy ∧
      (∀ e ∈ path, IsUnitVec (edgeDiff e) ∧ ¬ wall_between walls e.1 e.2 ∧
        ¬ out_of_bounds e.1 width height ∧ ¬ out_of_bounds e.2 width height) ∧
      (path.map Prod.snd ++ [((0 : Int), (0 : Int))]).Nodup ∧
      (∀ c ∈ path.map Prod.snd, c = cur.xy ∨ c ∈ suf.map AStarNode.xy) ∧
      path ≠ [] := by
  intro N
  induction N with
  | zero =>
    intro suf hlen fuel cur pre path hcl hcur htr
    have hsuf0 : suf = [] := List.eq_nil_of_length_eq_zero (Nat.le_zero.mp hlen)
    obtain ⟨m, hm, -⟩ := parentsOlder_suffix pre hpo hcl hcur
    rw [hsuf0] at hm
    exact absurd hm (List.not_mem_nil m)
  | succ N ih =>
    intro suf hlen fuel cur pre path hcl hcur htr
    have hcurmem : cur ∈ cl := by
      rw [hcl]
      exact List.mem_append_right _ (List.mem_cons_self cur suf)
    have hE := hedge cur hcurmem hcur
    have hcur_not_suf : cur.xy ∉ suf.map AStarNode.xy := by
      have hk := hkeys
      rw [hcl, List.map_append, List.map_cons] at hk
      exact (List.nodup_cons.mp (hk.of_append_right)).1
    cases fuel with
    | zero =>
      rw [trace_path] at htr
      exact Option.noConfusion htr
    | succ f =>
      rw [trace_path] at htr
      cases hfind : closedFind cl cur.parent with
      | none =>
        rw [hfind] at htr
        exact Option.noConfusion htr
      | some pn =>
        obtain ⟨hpnmem, hpnxy⟩ := closedFind_eq_some hfind
        simp only [hfind] at htr
        by_cases hpn0 : pn.xy = ((0 : Int), (0 : Int))
        · rw [if_pos hpn0] at htr
          injection htr with htr
          subst htr
          refine ⟨⟨hpn0, rfl⟩, ?_, ?_, ?_, by simp⟩
          · intro e he
            rw [List.mem_singleton] at he
            subst he
            rw [show ((pn.xy, cur.xy) : Edge) = (cur.parent, cur.xy) from by
              rw [hpnxy]]
            exact ⟨hE.1, hE.2.1, hE.2.2.2, hE.2.2.1⟩
          · refine List.nodup_cons.mpr ⟨?_, List.nodup_singleton _⟩
            intro hmem
            exact hcur (List.mem_singleton.mp hmem)
          · intro c hc
            simp only [List.map_cons, List.map_nil, List.mem_singleton] at hc
            exact Or.inl hc
        · rw [if_neg hpn0] at htr
          cases hrec : trace_path f pn cl with
          | none =>
            rw [hrec] at htr
            exact Option.noConfusion htr
          | some rest =>
            rw [hrec] at htr
            injection htr with htr
            subst htr
            obtain ⟨m, hmsuf, hmxy⟩ := parentsOlder_suffix pre hpo hcl hcur
            have hmcl : m ∈ cl := by
              rw [hcl]
              exact List.mem_append_right _ (List.mem_cons_of_mem cur hmsuf)
            have hpm : pn = m :=
              closed_key_unique hkeys hpnmem hmcl (by rw [hpnxy, hmxy])
            subst hpm
            obtain ⟨s1, suf', hsuf⟩ := List.append_of_mem hmsuf
            have hcl' : cl = (pre ++ cur :: s1) ++ pn :: suf' := by
              rw [hcl, hsuf]
              simp
            have hlen' : suf'.length ≤ N := by
              have : suf.length = s1.length + (suf'.length + 1) := by
                rw [hsuf]
                simp
              omega
            obtain ⟨ih1, ih2, ih3, ih4, ih5⟩ :=
              ih suf' hlen' f pn (pre ++ cur :: s1) rest hcl' hpn0 hrec
            have hpn_suf : pn.xy ∈ suf.map AStarNode.xy :=
              List.mem_map_of_mem AStarNode.xy hmsuf
            have hsuf'_sub : ∀ c, c ∈ suf'.map AStarNode.xy →
                c ∈ suf.map AStarNode.xy := by
              intro c hc
              rw [hsuf, List.map_append, List.map_cons]
              exact List.mem_append_right _ (List.mem_cons_of_mem pn.xy hc)
            refine ⟨?_, ?_, ?_, ?_, by simp⟩
            · rw [List.reverse_cons]
              exact fwdChain_snoc rest.reverse _ pn.xy ih1 rfl
            · intro e he
              rcases List.mem_cons.mp he with rfl | he
              · rw [show ((pn.xy, cur.xy) : Edge) = (cur.parent, cur.xy) from by
                  rw [hpnxy]]
                exact ⟨hE.1, hE.2.1, hE.2.2.2, hE.2.2.1⟩
              · exact ih2 e he
            · rw [List.map_cons, List.cons_append, List.nodup_cons]
              refine ⟨?_, ih3⟩
              intro hmem
              rcases List.mem_append.mp hmem with hmem | hmem
              · rcases ih4 _ hmem with h | h
                · apply hcur_not_suf
                  have h2 : cur.xy = pn.xy := h
                  rw [h2]
                  exact hpn_suf
                · exact hcur_not_suf (hsuf'_sub _ h)
              · rw [List.mem_singleton] at hmem
                exact hcur hmem
            · intro c hc
              rw [List.map_cons] at hc
              rcases List.mem_cons.mp hc with rfl | hc
              · exact Or.inl rfl
              · rcases ih4 c hc with h | h
                · refine Or.inr ?_
                  rw [h]
                  exact hpn_suf
                · exact Or.inr (hsuf'_sub c h)

lemma openContains_mem_keys {op : List AStarNode} {n : AStarNode}
    (h : openContains op n = true) : n.xy ∈ op.map AStarNode.xy := by
  unfold openContains at h
  rw [List.any_eq_true] at h
  obtain ⟨m, hm, hxy⟩ := h
  rw [List.mem_map]
  exact ⟨m, hm, of_decide_eq_true hxy⟩

lemma openRemove_mem {op : List AStarNode} {best n : AStarNode}
    (h : n ∈ openRemove op best) : n ∈ op ∧ n.xy ≠ best.xy := by
  unfold openRemove at h
  rw [List.mem_filter] at h
  exact ⟨h.1, of_decide_eq_true h.2⟩

/-- Strong membership: a node of the expanded frontier either was
already there or is a freshly built neighbour node that passed the wall
check and the closed check. -/
lemma a_star_for_neighbours_mem2 {best : AStarNode} {walls : Finset Edge}
    {goal : Point} {cl : List AStarNode} :
    ∀ (nbs : List Point) (op : List AStarNode) (n : AStarNode),
      n ∈ a_star_for_neighbours nbs best walls goal op cl →
      n ∈ op ∨ ∃ nb ∈ nbs,
        ¬ ((best.xy, nb) ∈ walls ∨ (nb, best.xy) ∈ walls) ∧
        ¬ (closedFind cl nb).isSome = true ∧
        n = ⟨nb, best.xy, nb.1 + nb.2 + (goal.1 - nb.1 + goal.2 - nb.2),
          nb.1 + nb.2⟩ := by
  intro nbs
  induction nbs with
  | nil =>
    intro op n h
    exact Or.inl h
  | cons nb nbs ih =>
    intro op n h
    rw [a_star_for_neighbours, List.foldl_cons] at h
    have h' := ih _ n h
    rcases h' with h' | ⟨nb', hnb', hw', hc', he'⟩
    · by_cases hw : (best.xy, nb) ∈ walls ∨ (nb, best.xy) ∈ walls
      · simp only [hw, if_true] at h'
        exact Or.inl h'
      · simp only [hw, if_false] at h'
        split at h'
        · exact Or.inl h'
        · rename_i hcl2
          split at h'
          · rcases openInsert_mem h' with h2 | h2
            · exact Or.inl h2
            · exact Or.inr ⟨nb, List.mem_cons_self nb nbs, hw, hcl2, h2⟩
          · exact Or.inl h'
    · exact Or.inr ⟨nb', List.mem_cons_of_mem nb hnb', hw', hc', he'⟩

/-- The expansion never drops a frontier key. -/
lemma a_star_for_neighbours_keys {best : AStarNode} {walls : Finset Edge}
    {goal : Point} {cl : List AStarNode} :
    ∀ (nbs : List Point) (op : List AStarNode) (p : Point),
      p ∈ op.map AStarNode.xy →
      p ∈ (a_star_for_neighbours nbs best walls goal op cl).map AStarNode.xy := by
  intro nbs
  induction nbs with
  | nil =>
    intro op p h
    exact h
  | cons nb nbs ih =>
    intro op p h
    rw [a_star_for_neighbours, List.foldl_cons]
    refine ih _ p ?_
    by_cases hw : (best.xy, nb) ∈ walls ∨ (nb, best.xy) ∈ walls
    · simp only [hw, if_true]
      exact h
    · simp only [hw, if_false]
      split
      · exact h
      · split
        · unfold openInsert
          split
          · exact h
          · rw [List.map_cons]
            exact List.mem_cons_of_mem _ h
        · exact h

/-- Every processed neighbour that is neither walled off nor closed ends
up with its key on the frontier. -/
lemma a_star_for_neighbours_covers {best : AStarNode} {walls : Finset Edge}
    {goal : Point} {cl : List AStarNode} :
    ∀ (nbs : List Point) (op : List AStarNode) (nb : Point), nb ∈ nbs →
      ¬ ((best.xy, nb) ∈ walls ∨ (nb, best.xy) ∈ walls) →
      ¬ (closedFind cl nb).isSome = true →
      nb ∈ (a_star_for_neighbours nbs best walls goal op cl).map AStarNode.xy := by
  intro nbs
  induction nbs with
  | nil =>
    intro op nb h
    exact absurd h (List.not_mem_nil nb)
  | cons nb0 nbs ih =>
    intro op nb hmem hw hc
    rcases List.mem_cons.mp hmem with rfl | hmem
    · rw [a_star_for_neighbours, List.foldl_cons]
      refine a_star_for_neighbours_keys nbs _ nb ?_
      simp only [hw, if_false]
      rw [if_neg hc]
      split
      · unfold openInsert
        split
        · rename_i hcont
          exact openContains_mem_keys hcont
        · rw [List.map_cons]
          exact List.mem_cons_self _ _
      · rename_i hcond
        push_neg at hcond
        exact openContains_mem_keys hcond.2
    · rw [a_star_for_neighbours, List.foldl_cons]
      exact ih _ nb hmem hw hc

/-- When every neighbour is walled off or already closed, the expansion
leaves the frontier untouched. -/
lemma a_star_for_neighbours_skip {best : AStarNode} {walls : Finset Edge}
    {goal : Point} {cl : List AStarNode} :
    ∀ (nbs : List Point) (op : List AStarNode),
      (∀ nb ∈ nbs, ((best.xy, nb) ∈ walls ∨ (nb, best.xy) ∈ walls) ∨
        (closedFind cl nb).isSome = true) →
      a_star_for_neighbours nbs best walls goal op cl = op := by
  intro nbs
  induction nbs with
  | nil =>
    intro op _
    rfl
  | cons nb nbs ih =>
    intro op h
    have htail : ∀ nb ∈ nbs, ((best.xy, nb) ∈ walls ∨ (nb, best.xy) ∈ walls) ∨
        (closedFind cl nb).isSome = true :=
      fun nb hnb => h nb (List.mem_cons_of_mem _ hnb)
    rw [a_star_for_neighbours, List.foldl_cons]
    by_cases hw : (best.xy, nb) ∈ walls ∨ (nb, best.xy) ∈ walls
    · dsimp only
      rw [if_pos hw]
      exact ih op htail
    · rcases h nb (List.mem_cons_self nb nbs) with hw2 | hc
      · exact absurd hw2 hw
      · dsimp only
        rw [if_neg hw, if_pos hc]
        exact ih op htail

/-- The search-loop invariant over a live state `(open, closed)`. -/
structure AInv (walls : Finset Edge) (width height : Int)
    (st : List AStarNode × List AStarNode) : Prop where
  keysN : (st.2.map AStarNode.xy).Nodup
  po : ParentsOlder st.2
  cEdge : ∀ n ∈ st.2, n.xy ≠ ((0 : Int), (0 : Int)) →
    EdgeOkN walls width height n
  oEdge : ∀ n ∈ st.1, n.xy ≠ ((0 : Int), (0 : Int)) →
    EdgeOkN walls width height n ∧ n.parent ∈ st.2.map AStarNode.xy
  disj : ∀ n ∈ st.1, n.xy ∉ st.2.map AStarNode.xy
  closure : ∀ m ∈ st.2, ∀ nb ∈ all_neighbours m.xy width height,
    ¬ wall_between walls m.xy nb →
    nb ∈ st.2.map AStarNode.xy ∨ nb ∈ st.1.map AStarNode.xy
  origin : ((0 : Int), (0 : Int)) ∈ st.2.map AStarNode.xy ∨
    (st.1 = [start_node width height] ∧ st.2 = [])
  oBound : ∀ n ∈ st.1, ¬ out_of_bounds n.xy width height

/-- The absorbing dead state: the frontier is exhausted and every open
neighbour of the origin has been finalised, so the search can never
reach the goal again (it keeps re-selecting the default start node). -/
def DeadEnd (walls : Finset Edge) (width height : Int)
    (st : List AStarNode × List AStarNode) : Prop :=
  st.1 = [] ∧ ∀ nb ∈ all_neighbours ((0 : Int), (0 : Int)) width height,
    ¬ wall_between walls ((0 : Int), (0 : Int)) nb →
    nb ∈ st.2.map AStarNode.xy

/-- Closing a frontier node preserves the closed-list bookkeeping. -/
lemma close_best_inv {walls : Finset Edge} {width height : Int}
    {op cl : List AStarNode} {best : AStarNode}
    (hinv : AInv walls width height (op, cl)) (hbest : best ∈ op) :
    ((best :: cl).map AStarNode.xy).Nodup ∧ ParentsOlder (best :: cl) ∧
    (∀ n ∈ best :: cl, n.xy ≠ ((0 : Int), (0 : Int)) →
      EdgeOkN walls width height n) := by
  refine ⟨?_, ⟨?_, hinv.po⟩, ?_⟩
  · rw [List.map_cons, List.nodup_cons]
    exact ⟨hinv.disj best hbest, hinv.keysN⟩
  · intro hb0
    have h := (hinv.oEdge best hbest hb0).2
    rw [List.mem_map] at h
    obtain ⟨m, hm, hxy⟩ := h
    exact ⟨m, hm, hxy⟩
  · intro n hn hn0
    rcases List.mem_cons.mp hn with rfl | hn
    · exact (hinv.oEdge n hbest hn0).1
    · exact hinv.cEdge n hn hn0

/-- An exhausted frontier under the invariant means every open
neighbour of the origin is already finalised. -/
lemma ainv_exhausted {walls : Finset Edge} {width height : Int}
    {st : List AStarNode × List AStarNode}
    (hinv : AInv walls width height st) (hop : st.1 = []) :
    ∀ nb ∈ all_neighbours ((0 : Int), (0 : Int)) width height,
      ¬ wall_between walls ((0 : Int), (0 : Int)) nb →
      nb ∈ st.2.map AStarNode.xy := by
  intro nb hnb hwall
  rcases hinv.origin with h0 | ⟨h1, -⟩
  · rw [List.mem_map] at h0
    obtain ⟨m, hm, hmxy⟩ := h0
    rcases hinv.closure m hm nb (by rw [hmxy]; exact hnb)
        (by rw [hmxy]; exact hwall) with h | h
    · exact h
    · rw [hop] at h
      simp at h
  · rw [h1] at hop
    exact absurd hop (by simp)

/-- A step taken from an exhausted frontier keeps the search dead. -/
lemma dead_step {sel : Sel} {walls : Finset Edge} {width height : Int}
    (hsel : ValidSel sel)
    {st st2 : List AStarNode × List AStarNode}
    (hstep : a_star_step sel walls width height st = Sum.inr st2)
    (hop : st.1 = [])
    (hcl0 : ∀ nb ∈ all_neighbours ((0 : Int), (0 : Int)) width height,
      ¬ wall_between walls ((0 : Int), (0 : Int)) nb →
      nb ∈ st.2.map AStarNode.xy) :
    DeadEnd walls width height st2 := by
  obtain ⟨hne_goal, hst2⟩ := a_star_step_inr_spec hstep
  have hbst : sel st.1 (start_node width height) = start_node width height :=
    (hsel st.1 _).1 hop
  constructor
  · rw [hst2]
    dsimp only
    rw [hbst, hop]
    apply a_star_for_neighbours_skip
    intro nb hnb
    by_cases hwall : wall_between walls ((0 : Int), (0 : Int)) nb
    · exact Or.inl hwall
    · right
      rw [closedFind_isSome_iff, List.map_cons]
      exact List.mem_cons_of_mem _ (hcl0 nb hnb hwall)
  · intro nb hnb hwall
    rw [hst2]
    dsimp only
    rw [List.map_cons]
    exact List.mem_cons_of_mem _ (hcl0 nb hnb hwall)

/-- A live step (frontier non-empty, goal not yet reached) preserves the
full invariant. -/
lemma a_star_step_close {sel : Sel} {walls : Finset Edge} {width height : Int}
    (hsel : ValidSel sel)
    {st st2 : List AStarNode × List AStarNode}
    (hstep : a_star_step sel walls width height st = Sum.inr st2)
    (hinv : AInv walls width height st) (hop : st.1 ≠ []) :
    AInv walls width height st2 := by
  obtain ⟨hne_goal, hst2⟩ := a_star_step_inr_spec hstep
  have hbmem : sel st.1 (start_node width height) ∈ st.1 := ((hsel st.1 _).2 hop).1
  set best := sel st.1 (start_node width height) with hbestdef
  obtain ⟨hk', hpo', hce'⟩ := close_best_inv hinv hbmem
  rw [hst2]
  have hbbound : ¬ out_of_bounds best.xy width height := hinv.oBound best hbmem
  refine ⟨hk', hpo', hce', ?_, ?_, ?_, ?_, ?_⟩
  · intro n hn hn0
    rcases a_star_for_neighbours_mem2 _ _ n hn with h | ⟨nb, hnb, hwall, hcf, hnshape⟩
    · obtain ⟨hmem, hkey⟩ := openRemove_mem h
      obtain ⟨he, hp⟩ := hinv.oEdge n hmem hn0
      refine ⟨he, ?_⟩
      rw [List.map_cons]
      exact List.mem_cons_of_mem _ hp
    · obtain ⟨hunit, hbound⟩ := all_neighbours_spec hnb hbbound
      subst hnshape
      exact ⟨⟨hunit, hwall, hbound, hbbound⟩,
        by rw [List.map_cons]; exact List.mem_cons_self _ _⟩
  · intro n hn
    rcases a_star_for_neighbours_mem2 _ _ n hn with h | ⟨nb, hnb, hwall, hcf, hnshape⟩
    · obtain ⟨hmem, hkey⟩ := openRemove_mem h
      rw [List.map_cons, List.mem_cons]
      push_neg
      exact ⟨hkey, hinv.disj n hmem⟩
    · subst hnshape
      intro hmem
      apply hcf
      rw [closedFind_isSome_iff]
      exact hmem
  · intro m hm nb hnb hwall
    rcases List.mem_cons.mp hm with rfl | hm
    · by_cases hcf : (closedFind (best :: st.2) nb).isSome = true
      · left
        exact closedFind_isSome_iff.mp hcf
      · right
        exact a_star_for_neighbours_covers _ _ nb hnb hwall hcf
    · rcases hinv.closure m hm nb hnb hwall with h | h
      · left
        rw [List.map_cons]
        exact List.mem_cons_of_mem _ h
      · rw [List.mem_map] at h
        obtain ⟨o, ho, hoxy⟩ := h
        by_cases hob : o.xy = best.xy
        · left
          rw [List.map_cons, ← hoxy, hob]
          exact List.mem_cons_self _ _
        · right
          refine a_star_for_neighbours_keys _ _ nb ?_
          rw [List.mem_map]
          refine ⟨o, ?_, hoxy⟩
          unfold openRemove
          rw [List.mem_filter]
          exact ⟨ho, decide_eq_true hob⟩
  · left
    rcases hinv.origin with h | ⟨h1, h2⟩
    · rw [List.map_cons]
      exact List.mem_cons_of_mem _ h
    · rw [h1, List.mem_singleton] at hbmem
      rw [List.map_cons, hbmem]
      exact List.mem_cons_self _ _
  · intro n hn
    rcases a_star_for_neighbours_mem2 _ _ n hn with h | ⟨nb, hnb, hwall, hcf, hnshape⟩
    · exact hinv.oBound n (openRemove_mem h).1
    · subst hnshape
      exact (all_neighbours_spec hnb hbbound).2

lemma a_star_step_inr_inv {sel : Sel} {walls : Finset Edge} {width height : Int}
    (hsel : ValidSel sel)
    {st st2 : List AStarNode × List AStarNode}
    (hstep : a_star_step sel walls width height st = Sum.inr st2)
    (hinv : AInv walls width height st ∨ DeadEnd walls width height st) :
    AInv walls width height st2 ∨ DeadEnd walls width height st2 := by
  rcases hinv with hinv | hdead
  · rcases eq_or_ne st.1 [] with hop | hop
    · exact Or.inr (dead_step hsel hstep hop (ainv_exhausted hinv hop))
    · exact Or.inl (a_star_step_close hsel hstep hinv hop)
  · exact Or.inr (dead_step hsel hstep hdead.1 hdead.2)

lemma a_star_step_inl_inv {sel : Sel} {walls : Finset Edge} {width height : Int}
    (hsel : ValidSel sel)
    (hgoal : ((width - 1 : Int), (height - 1 : Int)) ≠ ((0 : Int), (0 : Int)))
    {st : List AStarNode × List AStarNode} {r : AStarNode × List AStarNode}
    (hstep : a_star_step sel walls width height st = Sum.inl r)
    (hinv : AInv walls width height st ∨ DeadEnd walls width height st) :
    r.1.xy = ((width - 1 : Int), (height - 1 : Int)) ∧
    r.2 = r.1 :: st.2 ∧
    (r.2.map AStarNode.xy).Nodup ∧ ParentsOlder r.2 ∧
    (∀ n ∈ r.2, n.xy ≠ ((0 : Int), (0 : Int)) → EdgeOkN walls width height n) := by
  obtain ⟨hxy, hr⟩ := a_star_step_inl_spec hstep
  have hop : st.1 ≠ [] := by
    intro hop
    rw [(hsel st.1 _).1 hop] at hxy
    exact hgoal hxy.symm
  rcases hinv with hinv | hdead
  · have hbmem : sel st.1 (start_node width height) ∈ st.1 := ((hsel st.1 _).2 hop).1
    obtain ⟨hk', hpo', hce'⟩ := close_best_inv hinv hbmem
    rw [hr]
    exact ⟨hxy, rfl, hk', hpo', hce'⟩
  · exact absurd hdead.1 hop

lemma a_star_loop_spec {sel : Sel} {walls : Finset Edge} {width height : Int}
    (hsel : ValidSel sel)
    (hgoal : ((width - 1 : Int), (height - 1 : Int)) ≠ ((0 : Int), (0 : Int))) :
    ∀ (fuel : Nat) (st : List AStarNode × List AStarNode)
      (r : AStarNode × List AStarNode),
      (AInv walls width height st ∨ DeadEnd walls width height st) →
      a_star_loop sel walls width height fuel st = some r →
      r.1.xy = ((width - 1 : Int), (height - 1 : Int)) ∧
      (∃ cl0, r.2 = r.1 :: cl0) ∧
      (r.2.map AStarNode.xy).Nodup ∧ ParentsOlder r.2 ∧
      (∀ n ∈ r.2, n.xy ≠ ((0 : Int), (0 : Int)) →
        EdgeOkN walls width height n) := by
  intro fuel
  induction fuel with
  | zero =>
    intro st r _ h
    rw [a_star_loop] at h
    exact Option.noConfusion h
  | succ f ih =>
    intro st r hinv h
    rw [a_star_loop] at h
    cases hstep : a_star_step sel walls width height st with
    | inl r0 =>
      simp only [hstep] at h
      injection h with h
      subst h
      obtain ⟨h1, h2, h3⟩ := a_star_step_inl_inv hsel hgoal hstep hinv
      exact ⟨h1, ⟨st.2, h2⟩, h3⟩
    | inr st1 =>
      simp only [hstep] at h
      exact ih st1 r (a_star_step_inr_inv hsel hstep hinv) h

/-- The invariant at the initial search state. -/
lemma ainv_init {walls : Finset Edge} {width height : Int}
    (hw : 1 ≤ width) (hh : 1 ≤ height) :
    AInv walls width height ([start_node width height], []) := by
  refine ⟨by simp, trivial, ?_, ?_, ?_, ?_, Or.inr ⟨rfl, rfl⟩, ?_⟩
  · intro n hn
    simp at hn
  · intro n hn hn0
    rw [List.mem_singleton] at hn
    subst hn
    exact absurd rfl hn0
  · intro n hn
    simp
  · intro m hm
    simp at hm
  · intro n hn
    rw [List.mem_singleton] at hn
    subst hn
    show ¬ out_of_bounds ((0 : Int), (0 : Int)) width height
    rw [out_of_bounds]
    push_neg
    refine ⟨by omega, by omega, by omega, by omega⟩

/-- What a successful solve says about the returned path: it is listed
goal-to-origin, its reverse chains from the origin to the goal, every
edge is a legal in-bounds unit step crossing no wall, and no cell
repeats. -/
lemma a_star_solution_path_spec {sel : Sel} {walls : Finset Edge}
    {width height : Int} {fuel : Nat} {count : Int} {instrs : List String}
    {path : List Edge} (hsel : ValidSel sel)
    (hw : 1 ≤ width) (hh : 1 ≤ height)
    (hrun : a_star_solution sel walls width height fuel =
      some (count, instrs, path)) :
    FwdChain ((0 : Int), (0 : Int)) path.reverse
      ((width - 1 : Int), (height - 1 : Int)) ∧
    (∀ e ∈ path, IsUnitVec (edgeDiff e) ∧ ¬ wall_between walls e.1 e.2 ∧
      ¬ out_of_bounds e.1 width height ∧ ¬ out_of_bounds e.2 width height) ∧
    (path.map Prod.snd ++ [((0 : Int), (0 : Int))]).Nodup ∧
    path ≠ [] := by
  by_cases hgoal : ((width - 1 : Int), (height - 1 : Int)) = ((0 : Int), (0 : Int))
  · have hwe := congrArg Prod.fst hgoal
    have hhe := congrArg Prod.snd hgoal
    dsimp only at hwe hhe
    have hw1 : width = 1 := by omega
    have hh1 : height = 1 := by omega
    rw [hw1, hh1, a_star_one_one_aux hsel walls fuel] at hrun
    exact Option.noConfusion hrun
  · rw [a_star_solution] at hrun
    cases hloop : a_star_loop sel walls width height fuel
        ([start_node width height], []) with
    | none =>
      rw [hloop] at hrun
      exact Option.noConfusion hrun
    | some r =>
      simp only [hloop] at hrun
      obtain ⟨hxy, ⟨cl0, hcl0⟩, hkeys, hpo, hedge⟩ :=
        a_star_loop_spec hsel hgoal fuel ([start_node width height], []) r
          (Or.inl (ainv_init hw hh)) hloop
      cases htr : trace_path fuel r.1 r.2 with
      | none =>
        rw [htr] at hrun
        exact Option.noConfusion hrun
      | some path0 =>
        simp only [htr] at hrun
        cases hget : get_moves width height path0.reverse walls with
        | none =>
          rw [hget] at hrun
          exact Option.noConfusion hrun
        | some pr =>
          obtain ⟨nm, mv⟩ := pr
          simp only [hget] at hrun
          injection hrun with hrun
          have hpath : path0 = path := congrArg (fun t => t.2.2) hrun
          subst hpath
          have hcur0 : r.1.xy ≠ ((0 : Int), (0 : Int)) := by
            rw [hxy]
            exact hgoal
          obtain ⟨h1, h2, h3, -, h5⟩ :=
            trace_path_spec hkeys hpo hedge cl0.length cl0 (le_refl _) fuel
              r.1 [] path0 (by rw [hcl0]; rfl) hcur0 htr
          rw [hxy] at h1
          exact ⟨h1, h2, h3, h5⟩

set_option maxRecDepth 10000 in
/-- C4 (corrected): on every successful solve the returned path is a
valid route, but it is listed goal-to-origin, each edge oriented
(parent, child): the REVERSE of the returned list chains from the
origin (0,0) to the goal (W-1,H-1); every edge is an in-bounds
grid-unit step crossing no wall in either orientation, and no
coordinate occurs twice along the traced cells. -/
theorem claim_C4 (sel : Sel) (walls : Finset Edge) (width height : Int)
    (fuel : Nat) (count : Int) (instrs : List String) (path : List Edge)
    (hsel : ValidSel sel) (hw : 1 ≤ width) (hh : 1 ≤ height)
    (hrun : a_star_solution sel walls width height fuel =
      some (count, instrs, path)) :
    path ≠ [] ∧
    FwdChain ((0 : Int), (0 : Int)) path.reverse
      ((width - 1 : Int), (height - 1 : Int)) ∧
    (∀ e ∈ path, IsUnitVec (edgeDiff e) ∧ ¬ wall_between walls e.1 e.2 ∧
      ¬ out_of_bounds e.1 width height ∧ ¬ out_of_bounds e.2 width height) ∧
    (path.map Prod.snd ++ [((0 : Int), (0 : Int))]).Nodup := by
  obtain ⟨h1, h2, h3, h4⟩ := a_star_solution_path_spec hsel hw hh hrun
  exact ⟨h4, h1, h2, h3⟩

set_option maxRecDepth 10000 in
theorem claim_C4_witness :
    ([(((0 : Int), (0 : Int)), ((1 : Int), (0 : Int)))] : List Edge) ≠ [] ∧
    FwdChain ((0 : Int), (0 : Int))
      ([(((0 : Int), (0 : Int)), ((1 : Int), (0 : Int)))] : List Edge).reverse
      ((2 - 1 : Int), (1 - 1 : Int)) ∧
    (∀ e ∈ ([(((0 : Int), (0 : Int)), ((1 : Int), (0 : Int)))] : List Edge),
      IsUnitVec (edgeDiff e) ∧ ¬ wall_between ∅ e.1 e.2 ∧
      ¬ out_of_bounds e.1 2 1 ∧ ¬ out_of_bounds e.2 2 1) ∧
    (([(((0 : Int), (0 : Int)), ((1 : Int), (0 : Int)))] : List Edge).map
      Prod.snd ++ [((0 : Int), (0 : Int))]).Nodup :=
  claim_C4 selFirstMin ∅ 2 1 5 1 ["⇾ 1 right (+1)"]
    [(((0 : Int), (0 : Int)), ((1 : Int), (0 : Int)))]
    (validSel_selPrio []) (by decide) (by decide) (by decide)

set_option maxRecDepth 10000 in
/-- C5 (corrected): every successfully returned route satisfies the
Manhattan lower bound W+H-2 on its length; it need NOT be a shortest
route, not even over an empty wall set (see
claim_C5_counterexample). -/
theorem claim_C5 (sel : Sel) (walls : Finset Edge) (width height : Int)
    (fuel : Nat) (count : Int) (instrs : List String) (path : List Edge)
    (hsel : ValidSel sel) (hw : 1 ≤ width) (hh : 1 ≤ height)
    (hrun : a_star_solution sel walls width height fuel =
      some (count, instrs, path)) :
    width + height - 2 ≤ (path.length : Int) := by
  obtain ⟨h1, h2, -, -⟩ := a_star_solution_path_spec hsel hw hh hrun
  have h3 := fwdChain_manhattan_le path.reverse _ _ h1
    (fun e he => (h2 e (List.mem_reverse.mp he)).1)
  rw [List.length_reverse] at h3
  dsimp only at h3
  omega

set_option maxRecDepth 10000 in
theorem claim_C5_witness :
    (2 : Int) + 1 - 2 ≤
      (([(((0 : Int), (0 : Int)), ((1 : Int), (0 : Int)))] : List Edge).length : Int) :=
  claim_C5 selFirstMin ∅ 2 1 5 1 ["⇾ 1 right (+1)"]
    [(((0 : Int), (0 : Int)), ((1 : Int), (0 : Int)))]
    (validSel_selPrio []) (by decide) (by decide) (by decide)

set_option maxRecDepth 10000 in
/-- C8 (corrected): two successful solves of the same wall set under
different (arbitrary valid) tie-break orders need not report the same
move count or path length (see claim_C8_counterexample); what does hold
is that the two path lengths always have the same parity, namely that
of W+H. -/
theorem claim_C8 (sel1 sel2 : Sel) (walls : Finset Edge) (width height : Int)
    (fuel1 fuel2 : Nat) (c1 c2 : Int) (i1 i2 : List String)
    (p1 p2 : List Edge)
    (hsel1 : ValidSel sel1) (hsel2 : ValidSel sel2)
    (hw : 1 ≤ width) (hh : 1 ≤ height)
    (h1 : a_star_solution sel1 walls width height fuel1 = some (c1, i1, p1))
    (h2 : a_star_solution sel2 walls width height fuel2 = some (c2, i2, p2)) :
    (p1.length : Int) % 2 = (p2.length : Int) % 2 := by
  obtain ⟨hc1, he1, -, -⟩ := a_star_solution_path_spec hsel1 hw hh h1
  obtain ⟨hc2, he2, -, -⟩ := a_star_solution_path_spec hsel2 hw hh h2
  have q1 := fwdChain_parity p1.reverse _ _ hc1
    (fun e he => (he1 e (List.mem_reverse.mp he)).1)
  have q2 := fwdChain_parity p2.reverse _ _ hc2
    (fun e he => (he2 e (List.mem_reverse.mp he)).1)
  rw [List.length_reverse] at q1 q2
  dsimp only at q1 q2
  omega

set_option maxRecDepth 10000 in
theorem claim_C8_witness :
    ((([(((0 : Int), (0 : Int)), ((1 : Int), (0 : Int)))] : List Edge).length : Int) % 2 =
      (([(((0 : Int), (0 : Int)), ((1 : Int), (0 : Int)))] : List Edge).length : Int) % 2) :=
  claim_C8 selFirstMin (selPrio [((0 : Int), (0 : Int))]) ∅ 2 1 5 5 1 1
    ["⇾ 1 right (+1)"] ["⇾ 1 right (+1)"]
    [(((0 : Int), (0 : Int)), ((1 : Int), (0 : Int)))]
    [(((0 : Int), (0 : Int)), ((1 : Int), (0 : Int)))]
    (validSel_selPrio []) (validSel_selPrio [((0 : Int), (0 : Int))])
    (by decide) (by decide) (by decide) (by decide)

end Maze
